import Mathlib

/-!
# Verification of the Drawflow graph store (src/src/drawflow.js)

A shallow embedding of the graph-store core of the Drawflow node-link
editor.  The authoritative data structure in the source is
`this.drawflow = { "drawflow": { "<module>": { "data": { "<nodeId>": node } } } }`
(drawflow.js:219), where each node record holds ordered maps of input and
output ports, and each port holds a list of connection references
(`{node, output, points?}` on the output side, `{node, input, points?}` on
the input side).

Modelling conventions, used consistently below:

* JavaScript objects whose keys carry insertion order (the module map, the
  node map, the `inputs`/`outputs` port maps) are modelled as association
  lists (`List (key × value)`); `Object.keys` enumeration order for such
  string-keyed objects is insertion order, which the list order represents.
* Port labels `input_k` / `output_k` are identified with their numeric
  index `k : Nat`; the source's string slicing (`'input_' + n`,
  `x.slice(6)`, `parseInt`) becomes arithmetic on `k`.
* Node coordinates are carried as exact rationals (`Rat`); no claim
  depends on their arithmetic.  The zoom level, whose drift under
  repeated `+= 0.1` steps is observable in the guards, is modelled
  faithfully as an IEEE-754 binary64 value (`F64` below: an exact
  significand/exponent pair, addition as the exact sum rounded to 53
  significant bits with round-to-nearest, ties-to-even).
* A JS `TypeError` (property access on `undefined`) or a thrown `Error`
  makes an operation return `none`; operations also return the list of
  events they dispatch.
* The DOM is rendering state.  Where an operation reads the DOM to decide
  store mutations (`removeConnectionNodeId`, drawflow.js:3043/3071, queries
  the SVG elements of the *active* module's connections), the model derives
  those elements from the store of the active module, which is exactly what
  the renderer keeps them in sync with: one element per stored connection,
  carrying the classes `connection node_in_node-IN node_out_node-OUT
  output_P input_Q`.  Connections of non-active modules have no elements
  (drawflow.js:1639 guards element creation with `this.module === module`,
  and `changeModule` rebuilds the canvas from the target module only).
-/

namespace Drawflow

/-- A reroute waypoint `{pos_x, pos_y}` (drawflow.js:1896). -/
structure RPoint where
  pos_x : Rat
  pos_y : Rat
deriving DecidableEq, Repr

/-- A connection reference as stored inside a port's `connections` array.
On an output port the JSON shape is `{node, output, points?}`
(drawflow.js:1629), on an input port it is `{node, input, points?}`
(drawflow.js:1633): `node` is the peer node id and the second field — here
uniformly `port` — is the peer's port label index.  `points` is the
optional reroute waypoint list; `none` models an absent field. -/
structure ConnRef where
  node : String
  port : Nat
  points : Option (List RPoint)
deriving DecidableEq, Repr

/-- A port: `{ connections: [...] }` (drawflow.js:2118). -/
structure Port where
  connections : List ConnRef
deriving DecidableEq, Repr

/-- JSON-representable data payload for a node's `data` field.  Arrays and
objects are encoded first-order: `jarrCons h t` is the array with head `h`
and tail array `t`, `jobjCons k v r` the object with first field `k: v`
and remaining fields `r`. -/
inductive JVal where
  | jnull : JVal
  | jbool : Bool → JVal
  | jnum : Rat → JVal
  | jstr : String → JVal
  | jarrNil : JVal
  | jarrCons : JVal → JVal → JVal
  | jobjNil : JVal
  | jobjCons : String → JVal → JVal → JVal
deriving DecidableEq, Repr

/-- A node record as written by `addNode` (drawflow.js:2214-2225): field
`nclass` models the JSON key `class` (a Lean keyword). -/
structure DFNode where
  id : String
  name : String
  payload : JVal
  nclass : String
  html : String
  typenode : Bool
  inputs : List (Nat × Port)
  outputs : List (Nat × Port)
  pos_x : Rat
  pos_y : Rat
deriving DecidableEq, Repr

/-- A module: `{ "data": { nodeId: node } }`. -/
structure ModuleData where
  data : List (String × DFNode)
deriving DecidableEq, Repr

/-- The store root: `{ "drawflow": { moduleName: module } }`. -/
structure DrawflowData where
  drawflow : List (String × ModuleData)
deriving DecidableEq, Repr

/-- Events dispatched on the event bus (`this.dispatch`). -/
inductive DFEvent where
  | nodeCreated (id : String)
  | nodeRemoved (id : String)
  | connectionCreated (output_id input_id : String) (output_class input_class : Nat)
  | connectionRemoved (output_id input_id : String) (output_class input_class : Nat)
  | moduleCreated (name : String)
  | moduleChanged (name : String)
  | moduleRemoved (name : String)
  | zoomLevel (level : Rat)
  | importDone
  | exportDone
deriving DecidableEq, Repr

/-- The editor instance fields relevant to the graph store and viewport
(constructor, drawflow.js:33-261). -/
structure EditorState where
  drawflow : DrawflowData
  module : String
  nodeId : Nat
  zoom : Rat
  zoom_max : Rat
  zoom_min : Rat
  zoom_value : Rat
  zoom_last_value : Rat
  canvas_x : Rat
  canvas_y : Rat
deriving DecidableEq, Repr

/-- The freshly constructed editor (drawflow.js:33, 219, 225, 237-261). -/
def initialState : EditorState where
  drawflow := ⟨[("Home", ⟨[]⟩)]⟩
  module := "Home"
  nodeId := 1
  zoom := 1
  zoom_max := 1.6
  zoom_min := 0.5
  zoom_value := 0.1
  zoom_last_value := 1
  canvas_x := 0
  canvas_y := 0

/-! ## Association-list primitives for JS objects -/

variable {κ : Type} {α : Type} [DecidableEq κ]

/-- `l[k]` on a JS object: first binding of `k` (keys are unique in JS
objects, so "first" is "the" binding). -/
def aget : List (κ × α) → κ → Option α
  | [], _ => none
  | (k₁, v) :: rest, k => if k₁ = k then some v else aget rest k

/-- `l[k] = v` on a JS object: update in place if the key exists, append
otherwise (JS property assignment keeps the key's position). -/
def aset : List (κ × α) → κ → α → List (κ × α)
  | [], k, v => [(k, v)]
  | (k₁, v₁) :: rest, k, v =>
      if k₁ = k then (k, v) :: rest else (k₁, v₁) :: aset rest k v

/-- `delete l[k]` on a JS object: drop the binding of `k`. -/
def adel : List (κ × α) → κ → List (κ × α)
  | [], _ => []
  | (k₁, v₁) :: rest, k =>
      if k₁ = k then rest else (k₁, v₁) :: adel rest k

/-! ## JS array primitives -/

/-- Index of the first match in a list, if any. -/
def firstIdx (p : α → Bool) : List α → Option Nat
  | [] => none
  | x :: rest => if p x then some 0 else (firstIdx p rest).map (· + 1)

/-- `Array.prototype.findIndex`: index of the first match, `-1` if none. -/
def jsFindIndex (l : List α) (p : α → Bool) : Int :=
  match firstIdx p l with
  | some n => (n : Int)
  | none => -1

/-- `Array.prototype.splice(i, 1)`: remove one element starting at `i`; a
negative `i` counts from the end (clamped at 0), an `i` past the end
removes nothing. -/
def spliceRemove (l : List α) (i : Int) : List α :=
  let start : Nat := if i < 0 then ((l.length : Int) + i).toNat else i.toNat
  l.take start ++ l.drop (start + 1)

/-! ## Lookup helpers over the store -/

/-- The stored connection list of output port `p` of node `a` in module
`m`; `[]` when the module, node or port is absent. -/
def outConns (d : DrawflowData) (m a : String) (p : Nat) : List ConnRef :=
  match aget d.drawflow m with
  | none => []
  | some md =>
    match aget md.data a with
    | none => []
    | some nd =>
      match aget nd.outputs p with
      | none => []
      | some prt => prt.connections

/-- The stored connection list of input port `q` of node `b` in module
`m`; `[]` when the module, node or port is absent. -/
def inConns (d : DrawflowData) (m b : String) (q : Nat) : List ConnRef :=
  match aget d.drawflow m with
  | none => []
  | some md =>
    match aget md.data b with
    | none => []
    | some nd =>
      match aget nd.inputs q with
      | none => []
      | some prt => prt.connections

/-- Number of references to peer `(b, q)` in output port `p` of `a`. -/
def outCount (d : DrawflowData) (m a : String) (p : Nat) (b : String) (q : Nat) : Nat :=
  (outConns d m a p).countP (fun c => c.node = b ∧ c.port = q)

/-- Number of references to peer `(a, p)` in input port `q` of `b`. -/
def inCount (d : DrawflowData) (m b : String) (q : Nat) (a : String) (p : Nat) : Nat :=
  (inConns d m b q).countP (fun c => c.node = a ∧ c.port = p)

/-- The JS statement chain
`this.drawflow.drawflow[m].data[a].outputs[p] = f(...)` (and the `push` /
`splice` mutators, which act on the same lookup chain): `none` models the
TypeError raised when the module, node or port is absent. -/
def modifyOutPort (d : DrawflowData) (m a : String) (p : Nat) (f : Port → Port) :
    Option DrawflowData :=
  match aget d.drawflow m with
  | none => none
  | some md =>
    match aget md.data a with
    | none => none
    | some nd =>
      match aget nd.outputs p with
      | none => none
      | some prt =>
        let nd1 := { nd with outputs := aset nd.outputs p (f prt) }
        some ⟨aset d.drawflow m { md with data := aset md.data a nd1 }⟩

/-- Same for `this.drawflow.drawflow[m].data[b].inputs[q]`. -/
def modifyInPort (d : DrawflowData) (m b : String) (q : Nat) (f : Port → Port) :
    Option DrawflowData :=
  match aget d.drawflow m with
  | none => none
  | some md =>
    match aget md.data b with
    | none => none
    | some nd =>
      match aget nd.inputs q with
      | none => none
      | some prt =>
        let nd1 := { nd with inputs := aset nd.inputs q (f prt) }
        some ⟨aset d.drawflow m { md with data := aset md.data b nd1 }⟩

/-- `connections.push(ref)` as a port transformer. -/
def pushRef (ref : ConnRef) (prt : Port) : Port :=
  ⟨prt.connections ++ [ref]⟩

/-- `connections.splice(connections.findIndex(pred), 1)` as a port
transformer: the source computes the index on the same live array it then
splices. -/
def spliceRef (pred : ConnRef → Bool) (prt : Port) : Port :=
  ⟨spliceRemove prt.connections (jsFindIndex prt.connections pred)⟩

/-! ## Operations -/

/-- `getModuleFromNodeId` (drawflow.js:3099-3128): scans every module and
keeps the *last* module whose data contains the node key; `none` models
the JS return value `undefined`. -/
def getModuleFromNodeId (s : EditorState) (id : String) : Option String :=
  s.drawflow.drawflow.foldl
    (fun acc mp => if mp.2.data.any (fun np => np.1 = id) then some mp.1 else acc)
    none

/-- `getNodeFromId` (drawflow.js:2021-2027): module lookup followed by
`this.drawflow.drawflow[moduleName].data[id]`; returns the node record
(the JS deep copy `JSON.parse(JSON.stringify(·))` is value-identical; the
aliasing aspect is modelled separately by the heap development below).
`none` models the TypeError raised when the module lookup yields
`undefined`. -/
def getNodeFromId (s : EditorState) (id : String) : Option DFNode :=
  match getModuleFromNodeId s id with
  | none => none
  | some m =>
    match aget s.drawflow.drawflow m with
    | none => none
    | some md => aget md.data id

/-- `addConnection` (drawflow.js:1605-1672).  Checks only that both ids
resolve to the same module (`undefined === undefined` included) and that
the identical connection is not already stored on the output side, then
pushes the mirrored pair `{node, output}` / `{node, input}` and dispatches
`connectionCreated`.  There is no self-loop check. -/
def addConnection (s : EditorState) (id_output id_input : String)
    (output_class input_class : Nat) : Option (EditorState × List DFEvent) :=
  let nodeOneModule := getModuleFromNodeId s id_output
  let nodeTwoModule := getModuleFromNodeId s id_input
  if nodeOneModule = nodeTwoModule then
    match getNodeFromId s id_output with
    | none => none
    | some dataNode =>
      match aget dataNode.outputs output_class with
      | none => none
      | some checkPort =>
        let exist := checkPort.connections.any
          (fun c => c.node = id_input ∧ c.port = input_class)
        if exist then
          some (s, [])
        else
          match nodeOneModule with
          | none => none
          | some m =>
            match modifyOutPort s.drawflow m id_output output_class
                (pushRef ⟨id_input, input_class, none⟩) with
            | none => none
            | some d1 =>
              match modifyInPort d1 m id_input input_class
                  (pushRef ⟨id_output, output_class, none⟩) with
              | none => none
              | some d2 =>
                some ({ s with drawflow := d2 },
                  [DFEvent.connectionCreated id_output id_input
                     output_class input_class])
  else
    some (s, [])

/-- `removeSingleConnection` (drawflow.js:2964-3023).  Same-module check,
existence check on the output side, then `findIndex`+`splice` on each
side (the input-side `findIndex` result is spliced even when `-1`, in
which case JS `splice(-1, 1)` drops the *last* element); returns whether a
removal happened. -/
def removeSingleConnection (s : EditorState) (id_output id_input : String)
    (output_class input_class : Nat) :
    Option (EditorState × List DFEvent × Bool) :=
  let nodeOneModule := getModuleFromNodeId s id_output
  let nodeTwoModule := getModuleFromNodeId s id_input
  if nodeOneModule = nodeTwoModule then
    match nodeOneModule with
    | none => none
    | some m =>
      match aget s.drawflow.drawflow m with
      | none => none
      | some md =>
        match aget md.data id_output with
        | none => none
        | some outNode =>
          match aget outNode.outputs output_class with
          | none => none
          | some outPort =>
            let exists_ := jsFindIndex outPort.connections
              (fun c => c.node = id_input ∧ c.port = input_class)
            if exists_ > -1 then
              match modifyOutPort s.drawflow m id_output output_class
                  (spliceRef (fun c => c.node = id_input ∧ c.port = input_class)) with
              | none => none
              | some d1 =>
                match modifyInPort d1 m id_input input_class
                    (spliceRef (fun c => c.node = id_output ∧ c.port = output_class)) with
                | none => none
                | some d2 =>
                  some ({ s with drawflow := d2 },
                    [DFEvent.connectionRemoved id_output id_input
                       output_class input_class], true)
            else
              some (s, [], false)
  else
    some (s, [], false)

/-- `removeConnection` (drawflow.js:2914-2962): removal of the currently
selected connection.  The selected SVG element's class list
`[connection, node_in_node-IN, node_out_node-OUT, OUTCLASS, INCLASS]`
identifies the connection; the arguments here are that class data.  Both
`findIndex`+`splice` pairs run unconditionally (a `-1` index makes JS
`splice(-1, 1)` drop the last array element). -/
def removeConnection (s : EditorState) (out_id in_id : String)
    (output_class input_class : Nat) : Option (EditorState × List DFEvent) :=
  match modifyOutPort s.drawflow s.module out_id output_class
      (spliceRef (fun c => c.node = in_id ∧ c.port = input_class)) with
  | none => none
  | some d1 =>
    match modifyInPort d1 s.module in_id input_class
        (spliceRef (fun c => c.node = out_id ∧ c.port = output_class)) with
    | none => none
    | some d2 =>
      some ({ s with drawflow := d2 },
        [DFEvent.connectionRemoved out_id in_id output_class input_class])

/-- The class data of a connection SVG element:
`(in_id, out_id, output_class, input_class)`, read off the classes
`node_in_node-IN node_out_node-OUT OUTCLASS INCLASS`. -/
abbrev ConnElem := String × String × Nat × Nat

/-- The connection SVG elements of a rendered module, in the render order
of `addNodeImport` (drawflow.js:2280-2296): one element per input-side
stored reference. -/
def moduleConnElems (md : ModuleData) : List ConnElem :=
  ((md.data.map (fun bp =>
      (bp.2.inputs.map (fun qp =>
        qp.2.connections.map (fun r => (bp.1, r.node, r.port, qp.1)))).flatten)).flatten)

/-- The outgoing-element loop body of `removeConnectionNodeId`
(drawflow.js:3044-3068): for each element, splice the mirrored reference
out of the input side, then out of the output side, and dispatch
`connectionRemoved`.  The loop runs from the last element to the first;
the argument list here is already the reversed element list. -/
def elemPassOut : EditorState → List DFEvent → List ConnElem →
    Option (EditorState × List DFEvent)
  | s, evs, [] => some (s, evs)
  | s, evs, e :: rest =>
    match modifyInPort s.drawflow s.module e.1 e.2.2.2
        (spliceRef (fun c => c.node = e.2.1 ∧ c.port = e.2.2.1)) with
    | none => none
    | some d1 =>
      match modifyOutPort d1 s.module e.2.1 e.2.2.1
          (spliceRef (fun c => c.node = e.1 ∧ c.port = e.2.2.2)) with
      | none => none
      | some d2 =>
        elemPassOut { s with drawflow := d2 }
          (evs ++ [DFEvent.connectionRemoved e.2.1 e.1 e.2.2.1 e.2.2.2]) rest

/-- The incoming-element loop body of `removeConnectionNodeId`
(drawflow.js:3071-3096): output-side splice first, then input side. -/
def elemPassIn : EditorState → List DFEvent → List ConnElem →
    Option (EditorState × List DFEvent)
  | s, evs, [] => some (s, evs)
  | s, evs, e :: rest =>
    match modifyOutPort s.drawflow s.module e.2.1 e.2.2.1
        (spliceRef (fun c => c.node = e.1 ∧ c.port = e.2.2.2)) with
    | none => none
    | some d1 =>
      match modifyInPort d1 s.module e.1 e.2.2.2
          (spliceRef (fun c => c.node = e.2.1 ∧ c.port = e.2.2.1)) with
      | none => none
      | some d2 =>
        elemPassIn { s with drawflow := d2 }
          (evs ++ [DFEvent.connectionRemoved e.2.1 e.1 e.2.2.1 e.2.2.2]) rest

/-- `removeConnectionNodeId` (drawflow.js:3025-3097): queries the DOM for
the active module's connection elements touching `node-<nid>` — here
derived from the store per the DOM-sync convention (file header) — and
iterates each list from the end, splicing the input-side then the
output-side stored reference for outgoing elements, and the output-side
then the input-side reference for incoming elements, dispatching
`connectionRemoved` per element.  The incoming query runs against the DOM
as left by the outgoing pass, hence against the updated store. -/
def removeConnectionNodeId (s : EditorState) (nid : String) :
    Option (EditorState × List DFEvent) :=
  let elemsOut : List ConnElem :=
    match aget s.drawflow.drawflow s.module with
    | none => []
    | some md => (moduleConnElems md).filter (fun e => e.2.1 = nid)
  match elemPassOut s [] elemsOut.reverse with
  | none => none
  | some s1 =>
    let elemsIn : List ConnElem :=
      match aget s1.1.drawflow.drawflow s1.1.module with
      | none => []
      | some md => (moduleConnElems md).filter (fun e => e.1 = nid)
    elemPassIn s1.1 s1.2 elemsIn.reverse

/-- `removeNodeId` (drawflow.js:2880-2912).  The JS argument is the DOM id
`node-X`; here `nid` is the bare node key `X` (the source slices the
prefix back off).  Connections are removed first via
`removeConnectionNodeId`; the module lookup then yields `undefined` for an
unknown node, and `delete this.drawflow.drawflow[undefined].data[...]`
raises a TypeError (modelled by `none`). -/
def removeNodeId (s : EditorState) (nid : String) :
    Option (EditorState × List DFEvent) :=
  match removeConnectionNodeId s nid with
  | none => none
  | some (s1, evs) =>
    match getModuleFromNodeId s1 nid with
    | none => none
    | some m =>
      match aget s1.drawflow.drawflow m with
      | none => none
      | some md =>
        let md1 := { md with data := adel md.data nid }
        some ({ s1 with drawflow := ⟨aset s1.drawflow.drawflow m md1⟩ },
          evs ++ [DFEvent.nodeRemoved nid])

/-- The connection-reference rewrite applied to a peer port's list after a
port removal (drawflow.js:2744-2763 and 2853-2874): a reference to the
renumbered node's port `j` with `k < j` becomes a reference to `j - 1`;
the `points` field is carried over exactly (the source writes `points:
itemz.points` when present and omits the field when absent). -/
def shiftRef (id : String) (k : Nat) (c : ConnRef) : ConnRef :=
  if c.node = id ∧ k < c.port then ⟨c.node, c.port - 1, c.points⟩ else c

/-- The port-relabelling step of `removeNodeInput` / `removeNodeOutput`
(drawflow.js:2705-2726, 2815-2826): delete key `k`, then rebuild the map
as `label_(index+1)` over the remaining entries in insertion order. -/
def relabelPorts (l : List (Nat × Port)) (k : Nat) : List (Nat × Port) :=
  (((adel l k).map Prod.snd).enum).map (fun ip => (ip.1 + 1, ip.2))

/-- Node record with the input-port map replaced. -/
def setNodeInputs (nd : DFNode) (inputs : List (Nat × Port)) : DFNode :=
  { nd with inputs := inputs }

/-- Node record with the output-port map replaced. -/
def setNodeOutputs (nd : DFNode) (outputs : List (Nat × Port)) : DFNode :=
  { nd with outputs := outputs }

/-- The cascade loop of `removeNodeInput` (drawflow.js:2699-2701): one
`removeSingleConnection` per reference collected from the removed input
port; items are `(id_output, output_class)`. -/
def cascadeIn (id : String) (k : Nat) :
    EditorState → List DFEvent → List (String × Nat) →
    Option (EditorState × List DFEvent)
  | s, evs, [] => some (s, evs)
  | s, evs, it :: rest =>
    match removeSingleConnection s it.1 id it.2 k with
    | none => none
    | some (st, evs1, _) => cascadeIn id k st (evs ++ evs1) rest

/-- The cascade loop of `removeNodeOutput` (drawflow.js:2808-2810); items
are `(id_input, input_class)`. -/
def cascadeOut (id : String) (k : Nat) :
    EditorState → List DFEvent → List (String × Nat) →
    Option (EditorState × List DFEvent)
  | s, evs, [] => some (s, evs)
  | s, evs, it :: rest =>
    match removeSingleConnection s id it.1 k it.2 with
    | none => none
    | some (st, evs1, _) => cascadeOut id k st (evs ++ evs1) rest

/-- The `nodeUpdates` rewrite loop of `removeNodeInput`
(drawflow.js:2744-2763): for each surviving input-side reference
`{node, input}` (deduplicated), renumber the references to `(id, j)`,
`k < j`, held in output port `input` of peer `node`. -/
def rewriteOutRefs (m id : String) (k : Nat) :
    EditorState → List ConnRef → Option EditorState
  | s, [] => some s
  | s, itemx :: rest =>
    match modifyOutPort s.drawflow m itemx.node itemx.port
        (fun prt => ⟨prt.connections.map (shiftRef id k)⟩) with
    | none => none
    | some d1 => rewriteOutRefs m id k { s with drawflow := d1 } rest

/-- The `nodeUpdates` rewrite loop of `removeNodeOutput`
(drawflow.js:2853-2874): items are the deduplicated `(node, output)`
pairs; the renumbering applies to input port `output` of peer `node`. -/
def rewriteInRefs (m id : String) (k : Nat) :
    EditorState → List (String × Nat) → Option EditorState
  | s, [] => some s
  | s, itemx :: rest =>
    match modifyInPort s.drawflow m itemx.1 itemx.2
        (fun prt => ⟨prt.connections.map (shiftRef id k)⟩) with
    | none => none
    | some d1 => rewriteInRefs m id k { s with drawflow := d1 } rest

/-- `removeNodeInput` (drawflow.js:2660-2767): cascade-disconnect every
connection on input `k` of node `id`, delete the port, renumber the
remaining input ports densely (JS rebuilds `input_(index+1)` over
`Object.keys` insertion order), then rewrite the `output` field of every
reference to a renumbered port stored on the peers named by the surviving
input references (deduplicated through `JSON.stringify`). -/
def removeNodeInput (s : EditorState) (id : String) (k : Nat) :
    Option (EditorState × List DFEvent) :=
  let moduleName := getModuleFromNodeId s id
  match getNodeFromId s id with
  | none => none
  | some infoNode =>
    match aget infoNode.inputs k with
    | none => none
    | some remPort =>
      let removeInputs := remPort.connections.map (fun r => (r.node, r.port))
      match cascadeIn id k s [] removeInputs with
      | none => none
      | some (s1, evs1) =>
        match moduleName with
        | none => none
        | some m =>
          match aget s1.drawflow.drawflow m with
          | none => none
          | some md =>
            match aget md.data id with
            | none => none
            | some nd =>
              let connections := (adel nd.inputs k).map Prod.snd
              let rebuilt := connections.enum.map (fun ip => (ip.1 + 1, ip.2))
              let nd1 := { nd with inputs := rebuilt }
              let md1 := { md with data := aset md.data id nd1 }
              let s2 := { s1 with drawflow := ⟨aset s1.drawflow.drawflow m md1⟩ }
              let nodeUpdates := ((connections.map Port.connections).flatten).eraseDups
              (rewriteOutRefs m id k s2 nodeUpdates).map (fun st => (st, evs1))

/-- `removeNodeOutput` (drawflow.js:2769-2878): the output-side mirror of
`removeNodeInput`.  The only asymmetry in the source is that the
`nodeUpdates` deduplication list is built from `{node, output}` pairs with
the `points` field dropped (drawflow.js:2831). -/
def removeNodeOutput (s : EditorState) (id : String) (k : Nat) :
    Option (EditorState × List DFEvent) :=
  let moduleName := getModuleFromNodeId s id
  match getNodeFromId s id with
  | none => none
  | some infoNode =>
    match aget infoNode.outputs k with
    | none => none
    | some remPort =>
      let removeOutputs := remPort.connections.map (fun r => (r.node, r.port))
      match cascadeOut id k s [] removeOutputs with
      | none => none
      | some (s1, evs1) =>
        match moduleName with
        | none => none
        | some m =>
          match aget s1.drawflow.drawflow m with
          | none => none
          | some md =>
            match aget md.data id with
            | none => none
            | some nd =>
              let connections := (adel nd.outputs k).map Prod.snd
              let rebuilt := connections.enum.map (fun ip => (ip.1 + 1, ip.2))
              let nd1 := { nd with outputs := rebuilt }
              let md1 := { md with data := aset md.data id nd1 }
              let s2 := { s1 with drawflow := ⟨aset s1.drawflow.drawflow m md1⟩ }
              let nodeUpdates :=
                (((connections.map Port.connections).flatten).map
                  (fun r => (r.node, r.port))).eraseDups
              (rewriteInRefs m id k s2 nodeUpdates).map (fun st => (st, evs1))

/-- One public store mutation, with its arguments (for `removeConnection`
the arguments are the class data of the selected connection element). -/
inductive GraphOp where
  | conn (a b : String) (p q : Nat)
  | singleConn (a b : String) (p q : Nat)
  | remConn (a b : String) (p q : Nat)
  | connNodeId (nid : String)
  | nodeId (nid : String)
  | nodeInput (nid : String) (k : Nat)
  | nodeOutput (nid : String) (k : Nat)
deriving DecidableEq, Repr

/-- Run one mutation, keeping the resulting store state. -/
def applyOp (s : EditorState) : GraphOp → Option EditorState
  | .conn a b p q => (addConnection s a b p q).map Prod.fst
  | .singleConn a b p q => (removeSingleConnection s a b p q).map Prod.fst
  | .remConn a b p q => (removeConnection s a b p q).map Prod.fst
  | .connNodeId nid => (removeConnectionNodeId s nid).map Prod.fst
  | .nodeId nid => (removeNodeId s nid).map Prod.fst
  | .nodeInput nid k => (removeNodeInput s nid k).map Prod.fst
  | .nodeOutput nid k => (removeNodeOutput s nid k).map Prod.fst

/-- Side conditions under which a mutation is mirror-safe:
`removeConnection` acts on an existing (selected, hence rendered)
connection of the active module, and `removeNodeId` targets a node of
the active module (for other modules the DOM-driven cascade is skipped
and dangling references remain).  The remaining operations need no
condition. -/
def opOK (s : EditorState) : GraphOp → Prop
  | .remConn a b p q => 0 < outCount s.drawflow s.module a p b q
  | .nodeId nid => ∃ md, aget s.drawflow.drawflow s.module = some md ∧
      nid ∈ md.data.map Prod.fst
  | _ => True

/-- Iterated mutations: each step runs without a `TypeError` and meets
its side condition. -/
inductive Steps : EditorState → List GraphOp → EditorState → Prop where
  | nil (s : EditorState) : Steps s [] s
  | cons {s s₁ s₂ : EditorState} {op : GraphOp} {ops : List GraphOp} :
      applyOp s op = some s₁ → opOK s op → Steps s₁ ops s₂ →
      Steps s (op :: ops) s₂

/-! ## Viewport (zoom) operations

The zoom level is a JS number: an IEEE-754 binary64 value mutated by
`this.zoom += this.zoom_value` / `-=` behind a pre-guard, with no
clamping (drawflow.js:1268-1310).  `F64` represents a binary64 value
exactly as `m * 2^e`; `fadd` takes the exact sum and rounds it back to
53 significant bits with round-to-nearest, ties-to-even — which is
binary64 addition throughout the normal range the zoom dynamics stay
in (no overflow, no subnormals). -/

/-- An IEEE-754 binary64 value, exactly: the rational `m * 2^e`. -/
structure F64 where
  m : Int
  e : Int
deriving DecidableEq, Repr

/-- `2 ^ n` as an integer, by structural recursion. -/
def pow2 : Nat → Int
  | 0 => 1
  | n + 1 => 2 * pow2 n

/-- Bit length of a natural number (fuel-driven). -/
def nbits : Nat → Nat → Nat
  | 0, _ => 0
  | fuel + 1, n => if n = 0 then 0 else nbits fuel (n / 2) + 1

/-- Round the exact value `M * 2^E` to 53 significant bits,
round-to-nearest with ties-to-even. -/
def round53 (M : Int) (E : Int) : F64 :=
  let sgn : Int := if M < 0 then -1 else 1
  let n := M.natAbs
  let b := nbits 1100 n
  if b ≤ 53 then ⟨M, E⟩
  else
    let k := b - 53
    let q := n / 2 ^ k
    let r := n % 2 ^ k
    let half := 2 ^ (k - 1)
    let q1 := if half < r then q + 1
      else if r < half then q
      else if q % 2 = 0 then q else q + 1
    if q1 = 2 ^ 53 then ⟨sgn * pow2 52, E + k + 1⟩
    else ⟨sgn * (q1 : Int), E + k⟩

/-- Binary64 comparison `a < b`, by aligning exponents. -/
def flt (a b : F64) : Bool :=
  if a.e ≤ b.e then decide (a.m < b.m * pow2 (b.e - a.e).toNat)
  else decide (a.m * pow2 (a.e - b.e).toNat < b.m)

/-- Binary64 addition: exact sum, then one rounding. -/
def fadd (a b : F64) : F64 :=
  let e := min a.e b.e
  round53 (a.m * pow2 (a.e - e).toNat + b.m * pow2 (b.e - e).toNat) e

/-- Binary64 negation (exact). -/
def fneg (a : F64) : F64 := ⟨-a.m, a.e⟩

/-- Binary64 subtraction. -/
def fsub (a b : F64) : F64 := fadd a (fneg b)

/-- The double `1.0`. -/
def f64_one : F64 := ⟨4503599627370496, -52⟩

/-- The double `0.1` (the value of the literal `0.1`:
`0x1.999999999999ap-4`). -/
def f64_tenth : F64 := ⟨7205759403792794, -56⟩

/-- The double `1.6` (the value of the literal `1.6`:
`0x1.999999999999ap0`). -/
def f64_max16 : F64 := ⟨7205759403792794, -52⟩

/-- The double `0.5`. -/
def f64_half : F64 := ⟨4503599627370496, -53⟩

/-- The zoom state: level, bounds and step, all binary64. -/
structure Zoom64 where
  zoom : F64
  zoom_max : F64
  zoom_min : F64
  zoom_value : F64
deriving DecidableEq, Repr

/-- The constructor defaults (drawflow.js:243-255): zoom 1, max 1.6,
min 0.5, step 0.1. -/
def zoomDefaults : Zoom64 := ⟨f64_one, f64_max16, f64_half, f64_tenth⟩

/-- `zoom_in` (drawflow.js:1268-1288):
`if (this.zoom < this.zoom_max) { this.zoom += this.zoom_value; ... }` —
a pre-guard, no clamping. -/
def zoom_in64 (s : Zoom64) : Zoom64 :=
  if flt s.zoom s.zoom_max then { s with zoom := fadd s.zoom s.zoom_value }
  else s

/-- `zoom_out` (drawflow.js:1290-1310):
`if (this.zoom > this.zoom_min) { this.zoom -= this.zoom_value; ... }` —
a pre-guard, no clamping. -/
def zoom_out64 (s : Zoom64) : Zoom64 :=
  if flt s.zoom_min s.zoom then { s with zoom := fsub s.zoom s.zoom_value }
  else s

/-- Iterated zoom steps. -/
def zoomIter (f : Zoom64 → Zoom64) : Nat → Zoom64 → Zoom64
  | 0, s => s
  | n + 1, s => zoomIter f n (f s)

/-! ## Node creation, modules, import/export -/

/-- `addNode` (drawflow.js:2087-2240), store effects only (`useuuid`
false): sequential id, ports `1..num_in` / `1..num_out` with empty
connection lists, record appended to the active module.  A missing active
module raises a TypeError on the store write. -/
def addNode (s : EditorState) (name : String) (num_in num_out : Nat)
    (ele_pos_x ele_pos_y : Rat) (classoverride : String) (payload : JVal)
    (html : String) (typenode : Bool) :
    Option (EditorState × List DFEvent × String) :=
  let newNodeId := toString s.nodeId
  let json_inputs : List (Nat × Port) := (List.range num_in).map (fun x => (x + 1, ⟨[]⟩))
  let json_outputs : List (Nat × Port) := (List.range num_out).map (fun x => (x + 1, ⟨[]⟩))
  let json : DFNode :=
    ⟨newNodeId, name, payload, classoverride, html, typenode,
      json_inputs, json_outputs, ele_pos_x, ele_pos_y⟩
  match aget s.drawflow.drawflow s.module with
  | none => none
  | some md =>
    let md1 := { md with data := aset md.data newNodeId json }
    let s1 := { s with drawflow := ⟨aset s.drawflow.drawflow s.module md1⟩ }
    some ({ s1 with nodeId := s.nodeId + 1 },
      [DFEvent.nodeCreated newNodeId], newNodeId)

/-- `JSON.parse(JSON.stringify(·))` on a payload value: a structural deep
copy (payloads in the model are JSON-representable trees, on which the
JSON round-trip is exactly a structural rebuild). -/
def deepCloneJVal : JVal → JVal
  | .jnull => .jnull
  | .jbool b => .jbool b
  | .jnum q => .jnum q
  | .jstr t => .jstr t
  | .jarrNil => .jarrNil
  | .jarrCons h t => .jarrCons (deepCloneJVal h) (deepCloneJVal t)
  | .jobjNil => .jobjNil
  | .jobjCons key v r => .jobjCons key (deepCloneJVal v) (deepCloneJVal r)

/-- Deep copy of a connection reference. -/
def deepCloneConnRef (c : ConnRef) : ConnRef :=
  ⟨c.node, c.port, c.points.map (fun l => l.map (fun pt => ⟨pt.pos_x, pt.pos_y⟩))⟩

/-- Deep copy of a port. -/
def deepClonePort (prt : Port) : Port :=
  ⟨prt.connections.map deepCloneConnRef⟩

/-- Deep copy of a node record. -/
def deepCloneNode (nd : DFNode) : DFNode :=
  ⟨nd.id, nd.name, deepCloneJVal nd.payload, nd.nclass, nd.html, nd.typenode,
    nd.inputs.map (fun kp => (kp.1, deepClonePort kp.2)),
    nd.outputs.map (fun kp => (kp.1, deepClonePort kp.2)),
    nd.pos_x, nd.pos_y⟩

/-- Deep copy of the whole store, modelling
`JSON.parse(JSON.stringify(this.drawflow))`. -/
def deepCloneData (d : DrawflowData) : DrawflowData :=
  ⟨d.drawflow.map (fun mp => (mp.1, ⟨mp.2.data.map (fun np => (np.1, deepCloneNode np.2))⟩))⟩

/-- JS `parseInt` on a key string: longest leading digit run, `none` for
`NaN`. -/
def jsParseIntPrefix (t : String) : Option Nat :=
  let digits := t.toList.takeWhile (fun ch => ch.isDigit)
  if digits.isEmpty then none
  else some (digits.foldl (fun n ch => n * 10 + (ch.toNat - 48)) 0)

/-- The node-counter recomputation at the end of `load`
(drawflow.js:513-527): one more than the largest numeric node key in any
module, starting from 1 (`NaN` comparisons are false and skip the key). -/
def recomputeNodeId (d : DrawflowData) : Nat :=
  d.drawflow.foldl
    (fun number mp =>
      mp.2.data.foldl
        (fun number np =>
          match jsParseIntPrefix np.1 with
          | none => number
          | some v => if v ≥ number then v + 1 else number)
        number)
    1

/-- `clear` (drawflow.js:3238-3241): empties the canvas and resets the
store to a single empty `Home` module. -/
def clearEditor (s : EditorState) : EditorState :=
  { s with drawflow := ⟨[("Home", ⟨[]⟩)]⟩ }

/-- `export` (drawflow.js:3254-3265): returns a deep clone of the store
and dispatches the `export` event. -/
def exportData (s : EditorState) : DrawflowData × List DFEvent :=
  (deepCloneData s.drawflow, [DFEvent.exportDone])

/-- `import` (drawflow.js:3282-3296): `clear`, deep-clone the payload into
the store, `load` (rendering plus the node-counter recomputation), and
optionally dispatch the `import` event.  `load` renders the active module
only and does not modify the graph data (a missing active module makes its
`for..in` loops iterate nothing). -/
def importData (s : EditorState) (d : DrawflowData) (notifi : Bool) :
    EditorState × List DFEvent :=
  let s1 := clearEditor s
  let s2 := { s1 with drawflow := deepCloneData d }
  let s3 := { s2 with nodeId := recomputeNodeId s2.drawflow }
  (s3, if notifi then [DFEvent.importDone] else [])

/-- `addModule` (drawflow.js:3130-3152): throws when the name exists,
otherwise creates an empty module and dispatches `moduleCreated`. -/
def addModule (s : EditorState) (name : String) :
    Option (EditorState × List DFEvent) :=
  match aget s.drawflow.drawflow name with
  | some _ => none
  | none =>
    some ({ s with drawflow := ⟨aset s.drawflow.drawflow name ⟨[]⟩⟩ },
      [DFEvent.moduleCreated name])

/-- `changeModule` (drawflow.js:3154-3188): throws when the name is
unknown; otherwise dispatches `moduleChanged`, sets the active module,
resets canvas offset and zoom, and re-imports the store (with the
notification suppressed). -/
def changeModule (s : EditorState) (name : String) :
    Option (EditorState × List DFEvent) :=
  match aget s.drawflow.drawflow name with
  | none => none
  | some _ =>
    let s0 := { s with module := name, canvas_x := 0, canvas_y := 0 }
    let s1 := { s0 with zoom := 1, zoom_last_value := 1 }
    let imp := importData s1 s1.drawflow false
    some (imp.1, DFEvent.moduleChanged name :: imp.2)

/-- `removeModule` (drawflow.js:3190-3218): throws when the name is
unknown; switches to `Home` first when removing the active module — also
when the removed module *is* `Home` — then deletes the module data and
dispatches `moduleRemoved`. -/
def removeModule (s : EditorState) (name : String) :
    Option (EditorState × List DFEvent) :=
  match aget s.drawflow.drawflow name with
  | none => none
  | some _ =>
    let afterChange :=
      if s.module = name then changeModule s "Home" else some (s, [])
    match afterChange with
    | none => none
    | some (s1, evs) =>
      some ({ s1 with drawflow := ⟨adel s1.drawflow.drawflow name⟩ },
        evs ++ [DFEvent.moduleRemoved name])

/-- The output port object at `(m, a, p)`, if the whole chain exists. -/
def outPortGet (d : DrawflowData) (m a : String) (p : Nat) : Option Port :=
  match aget d.drawflow m with
  | none => none
  | some md =>
    match aget md.data a with
    | none => none
    | some nd => aget nd.outputs p

/-- The input port object at `(m, b, q)`, if the whole chain exists. -/
def inPortGet (d : DrawflowData) (m b : String) (q : Nat) : Option Port :=
  match aget d.drawflow m with
  | none => none
  | some md =>
    match aget md.data b with
    | none => none
    | some nd => aget nd.inputs q

/-- The port-label skeleton of a node: input labels and output labels. -/
def nodeShape (nd : DFNode) : List Nat × List Nat :=
  (nd.inputs.map Prod.fst, nd.outputs.map Prod.fst)

/-- The module/node/port-label skeleton of the store. -/
def dataShape (d : DrawflowData) :
    List (String × List (String × (List Nat × List Nat))) :=
  d.drawflow.map (fun mp => (mp.1, mp.2.data.map (fun np => (np.1, nodeShape np.2))))

/-- Well-formedness of a store skeleton: module keys unique, node keys
unique per module and across modules, port labels a dense `1..N`
sequence per side. -/
def shapeWF (sh : List (String × List (String × (List Nat × List Nat)))) : Prop :=
  (sh.map Prod.fst).Nodup ∧
  (∀ mp ∈ sh, (mp.2.map Prod.fst).Nodup) ∧
  (∀ mp₁ ∈ sh, ∀ mp₂ ∈ sh, ∀ np₁ ∈ mp₁.2, ∀ np₂ ∈ mp₂.2,
      np₁.1 = np₂.1 → mp₁.1 = mp₂.1) ∧
  (∀ mp ∈ sh, ∀ np ∈ mp.2,
      np.2.1 = List.range' 1 np.2.1.length ∧
      np.2.2 = List.range' 1 np.2.2.length)

/-- Every stored input-side reference has no `points` field: the source
attaches reroute waypoints to output-side references only
(drawflow.js:1888-1908). -/
def InPointsNone (d : DrawflowData) : Prop :=
  ∀ mp ∈ d.drawflow, ∀ np ∈ mp.2.data, ∀ qp ∈ np.2.inputs,
    ∀ c ∈ qp.2.connections, c.points = none

/-- The mirror invariant, as a count equation over every quintuple:
output port `p` of `a` holds as many references to `(b, q)` as input port
`q` of `b` holds to `(a, p)`. -/
def MirrorInv (d : DrawflowData) : Prop :=
  ∀ m a p b q, outCount d m a p b q = inCount d m b q a p

/-- No duplicate references on any output port. -/
def OutNoDup (d : DrawflowData) : Prop :=
  ∀ m a p b q, outCount d m a p b q ≤ 1

/-- The full store invariant maintained by the graph mutations. -/
structure WF (d : DrawflowData) : Prop where
  shape : shapeWF (dataShape d)
  pts : InPointsNone d
  mirror : MirrorInv d
  nodup : OutNoDup d

/-- Executable check of `MirrorInv`: the count equation at every stored
reference, in both directions. -/
def mirrorCheck (d : DrawflowData) : Bool :=
  d.drawflow.all (fun mp => mp.2.data.all (fun ap =>
    ap.2.outputs.all (fun pp => pp.2.connections.all (fun c =>
      outCount d mp.1 ap.1 pp.1 c.node c.port ==
        inCount d mp.1 c.node c.port ap.1 pp.1)) &&
    ap.2.inputs.all (fun qp => qp.2.connections.all (fun c =>
      inCount d mp.1 ap.1 qp.1 c.node c.port ==
        outCount d mp.1 c.node c.port ap.1 qp.1))))

/-- Executable check of `OutNoDup`. -/
def outNoDupCheck (d : DrawflowData) : Bool :=
  d.drawflow.all (fun mp => mp.2.data.all (fun ap =>
    ap.2.outputs.all (fun pp => pp.2.connections.all (fun c =>
      pp.2.connections.countP
        (fun c₂ => c₂.node = c.node ∧ c₂.port = c.port) ≤ 1))))

/-- A single node with one input and one output, as created by
`addNode(.., 1, 1, ..)` on a fresh editor. -/
def selfLoopNode : DFNode :=
  ⟨"1", "a", JVal.jnull, "", "", false, [(1, ⟨[]⟩)], [(1, ⟨[]⟩)], 0, 0⟩

/-- A fresh editor holding only `selfLoopNode` in the active module. -/
def selfLoopState : EditorState :=
  { initialState with
      drawflow := ⟨[("Home", ⟨[("1", selfLoopNode)]⟩)]⟩, nodeId := 2 }

/-- A fresh editor with an extra (empty) registered module `Other`, as
left by `addModule('Other')`. -/
def twoModState : EditorState :=
  { initialState with drawflow := ⟨[("Home", ⟨[]⟩), ("Other", ⟨[]⟩)]⟩ }

/-- A state reachable by `addModule('modA')`, `changeModule('modA')`,
two `addNode` calls, `addConnection('1','2',1,1)` and
`changeModule('Home')`: the connected pair lives in the non-active
module `modA`. -/
def twoModConnState : EditorState :=
  { initialState with
      drawflow := ⟨[("Home", ⟨[]⟩),
        ("modA", ⟨[
          ("1", ⟨"1", "a", JVal.jnull, "", "", false, [(1, ⟨[]⟩)],
            [(1, ⟨[⟨"2", 1, none⟩]⟩)], 0, 0⟩),
          ("2", ⟨"2", "b", JVal.jnull, "", "", false,
            [(1, ⟨[⟨"1", 1, none⟩]⟩)], [(1, ⟨[]⟩)], 0, 0⟩)]⟩)]⟩,
      nodeId := 3 }

/-- A fresh editor holding nodes `1` and `2` of the active module
connected `1 → 2`, as left by two `addNode` calls and
`addConnection('1','2',1,1)`. -/
def connState : EditorState :=
  { initialState with
      drawflow := ⟨[("Home", ⟨[
        ("1", ⟨"1", "a", JVal.jnull, "", "", false, [(1, ⟨[]⟩)],
          [(1, ⟨[⟨"2", 1, none⟩]⟩)], 0, 0⟩),
        ("2", ⟨"2", "b", JVal.jnull, "", "", false,
          [(1, ⟨[⟨"1", 1, none⟩]⟩)], [(1, ⟨[]⟩)], 0, 0⟩)]⟩)]⟩,
      nodeId := 3 }

/-- A fresh editor holding two unconnected one-in/one-out nodes `1` and
`2`, as left by two `addNode(.., 1, 1, ..)` calls. -/
def twoNodeState : EditorState :=
  { initialState with
      drawflow := ⟨[("Home", ⟨[("1", selfLoopNode),
        ("2", ⟨"2", "b", JVal.jnull, "", "", false, [(1, ⟨[]⟩)], [(1, ⟨[]⟩)], 0, 0⟩)]⟩)]⟩,
      nodeId := 3 }

/-- A fresh editor with node `1` (three inputs) fully wired from node `2`
(three outputs): `2.output_i → 1.input_i` for `i = 1, 2, 3`, as left by
`addNode('a',3,0,..)`, `addNode('b',0,3,..)` and three `addConnection`
calls. -/
def c4State : EditorState :=
  { initialState with
      drawflow := ⟨[("Home", ⟨[
        ("1", ⟨"1", "a", JVal.jnull, "", "", false,
          [(1, ⟨[⟨"2", 1, none⟩]⟩), (2, ⟨[⟨"2", 2, none⟩]⟩),
            (3, ⟨[⟨"2", 3, none⟩]⟩)], [], 0, 0⟩),
        ("2", ⟨"2", "b", JVal.jnull, "", "", false, [],
          [(1, ⟨[⟨"1", 1, none⟩]⟩), (2, ⟨[⟨"1", 2, none⟩]⟩),
            (3, ⟨[⟨"1", 3, none⟩]⟩)], 0, 0⟩)]⟩)]⟩,
      nodeId := 3 }

/-! ## Heap model of JS object aliasing

`getNodeFromId` (drawflow.js:2021-2027) returns
`JSON.parse(JSON.stringify(this.drawflow.drawflow[moduleName].data[id]))`.
The store functions above treat node records as pure values; the aliasing
content of that line — the returned record shares no mutable cell with
the store — needs mutable objects.  A JS object graph is a heap of cells
addressed by `Addr`; a cell holds a field chain (`hfCons`/`hfNil`) whose
values are scalars or references (`href`) to other cells. -/

/-- JS runtime values: JSON scalars, an object reference, or a field
chain as stored inside a cell. -/
inductive HVal where
  | hnum (q : Rat)
  | hstr (s : String)
  | hbool (b : Bool)
  | hnull
  | href (a : Nat)
  | hfNil
  | hfCons (key : String) (v : HVal) (rest : HVal)
deriving DecidableEq, Repr

/-- A JS heap: cells by address, plus the next fresh address. -/
structure Heap where
  mem : List (Nat × HVal)
  next : Nat
deriving DecidableEq, Repr

/-- One level of `JSON.stringify` serialisation: scalars and field chains
are read structurally, references through `deref`. -/
def readbackGo (deref : Nat → Option JVal) : HVal → Option JVal
  | .hnum q => some (.jnum q)
  | .hstr t => some (.jstr t)
  | .hbool b => some (.jbool b)
  | .hnull => some .jnull
  | .href a => deref a
  | .hfNil => some .jobjNil
  | .hfCons k v r =>
    match readbackGo deref v, readbackGo deref r with
    | some jv, some jr => some (.jobjCons k jv jr)
    | _, _ => none

/-- `JSON.stringify` of a runtime value as the JSON tree it denotes:
every dereference costs one unit of fuel (`JSON.stringify` itself diverges
on cyclic objects, which fuel exhaustion models as `none`). -/
def readback : Nat → Heap → HVal → Option JVal
  | 0, _, _ => none
  | fuel + 1, h, x =>
    readbackGo (fun a => (aget h.mem a).bind (readback fuel h)) x

/-- One level of `JSON.parse(JSON.stringify(·))` copying: scalars are
copied, field chains rebuilt, references cloned through `cloneRef`, which
threads the allocating heap. -/
def jsonCloneGo (cloneRef : Heap → Nat → Option (Heap × HVal)) :
    Heap → HVal → Option (Heap × HVal)
  | h, .hnum q => some (h, .hnum q)
  | h, .hstr t => some (h, .hstr t)
  | h, .hbool b => some (h, .hbool b)
  | h, .hnull => some (h, .hnull)
  | h, .href a => cloneRef h a
  | h, .hfNil => some (h, .hfNil)
  | h, .hfCons k v r =>
    match jsonCloneGo cloneRef h v with
    | none => none
    | some (h₁, v₁) =>
      match jsonCloneGo cloneRef h₁ r with
      | none => none
      | some (h₂, r₁) => some (h₂, .hfCons k v₁ r₁)

/-- `JSON.parse(JSON.stringify(·))`: rebuild the object graph in fresh
cells.  Each dereferenced cell is deep-copied into a newly allocated
address; the original cells are never written. -/
def jsonClone : Nat → Heap → HVal → Option (Heap × HVal)
  | 0, _, _ => none
  | fuel + 1, h, x =>
    jsonCloneGo (fun h₁ a =>
      match aget h₁.mem a with
      | none => none
      | some cell =>
        match jsonClone fuel h₁ cell with
        | none => none
        | some (h₂, cell₁) =>
          some (⟨h₂.mem ++ [(h₂.next, cell₁)], h₂.next + 1⟩, .href h₂.next)) h x

/-- The reference-cloning step of `jsonClone` at a given fuel level:
dereference, deep-copy the cell, allocate the copy at the next fresh
address. -/
def cloneRef (fuel : Nat) (h : Heap) (a : Nat) : Option (Heap × HVal) :=
  match aget h.mem a with
  | none => none
  | some cell =>
    match jsonClone fuel h cell with
    | none => none
    | some (h₂, cell₁) =>
      some (⟨h₂.mem ++ [(h₂.next, cell₁)], h₂.next + 1⟩, .href h₂.next)

/-- Every reference in the value points below address `n`. -/
def closedB (n : Nat) : HVal → Bool
  | .href a => a < n
  | .hfCons _ v r => closedB n v && closedB n r
  | _ => true

/-- Every reference in the value points at or above address `n`. -/
def refsAbove (n : Nat) : HVal → Bool
  | .href a => n ≤ a
  | .hfCons _ v r => refsAbove n v && refsAbove n r
  | _ => true

/-- A well-formed heap: every cell sits below the fresh-address mark and
references only cells below it. -/
def HeapClosedP (h : Heap) : Prop :=
  ∀ p ∈ h.mem, p.1 < h.next ∧ closedB h.next p.2 = true

/-- Executable form of `HeapClosedP`. -/
def heapClosed (h : Heap) : Bool :=
  h.mem.all (fun p => decide (p.1 < h.next) && closedB h.next p.2)

/-- JS field assignment `obj.k = w` on a field chain: overwrite in place,
append if absent. -/
def hfSet : HVal → String → HVal → HVal
  | .hfNil, k, w => .hfCons k w .hfNil
  | .hfCons k₁ v r, k, w =>
    if k₁ = k then .hfCons k₁ w r else .hfCons k₁ v (hfSet r k w)
  | x, _, _ => x

/-- Mutation of the object at address `b`: `heap[b].k = w`.  A missing
address mutates nothing. -/
def setField (h : Heap) (b : Nat) (k : String) (w : HVal) : Heap :=
  match aget h.mem b with
  | none => h
  | some cell => ⟨aset h.mem b (hfSet cell k w), h.next⟩

/-- A two-cell heap: cell 0 is a node record `{"name": "a", "data": ·}`
whose `data` field references cell 1, the payload `{"x": 1}`. -/
def snapHeap : Heap :=
  ⟨[(0, .hfCons "name" (.hstr "a") (.hfCons "data" (.href 1) .hfNil)),
    (1, .hfCons "x" (.hnum 1) .hfNil)], 2⟩

/-- A reference to the node record of `snapHeap`. -/
def snapVal : HVal := .href 0

/-- The JSON tree stored at `snapVal`. -/
def snapJson : JVal :=
  .jobjCons "name" (.jstr "a")
    (.jobjCons "data" (.jobjCons "x" (.jnum 1) .jobjNil) .jobjNil)

/-! ## Association-list lemmas -/

theorem aget_aset_self (l : List (κ × α)) (k : κ) (v : α) :
    aget (aset l k v) k = some v := by
  induction l with
  | nil => simp [aset, aget]
  | cons hd tl ih =>
    obtain ⟨a, b⟩ := hd
    by_cases h : a = k
    · simp [aset, aget, h]
    · simp [aset, aget, h, ih]

theorem aget_aset_ne (l : List (κ × α)) {k k₁ : κ} (v : α) (h : k₁ ≠ k) :
    aget (aset l k v) k₁ = aget l k₁ := by
  have hkk : ¬ (k = k₁) := fun hc => h hc.symm
  induction l with
  | nil => simp [aset, aget, hkk]
  | cons hd tl ih =>
    obtain ⟨a, b⟩ := hd
    by_cases hh : a = k
    · subst hh
      simp [aset, aget, hkk]
    · by_cases hk : a = k₁
      · simp [aset, aget, hh, hk, h]
      · simp [aset, aget, hh, hk, ih]

theorem aget_mem {l : List (κ × α)} {k : κ} {v : α} (h : aget l k = some v) :
    (k, v) ∈ l := by
  induction l with
  | nil => simp [aget] at h
  | cons hd tl ih =>
    obtain ⟨a, b⟩ := hd
    by_cases hh : a = k
    · subst hh
      simp only [aget, if_pos, Option.some_inj] at h
      subst h
      exact List.mem_cons_self _ _
    · simp only [aget, hh, if_neg, not_false_iff] at h
      exact List.mem_cons_of_mem _ (ih h)

theorem mem_aget_of_nodup {l : List (κ × α)}
    (hnd : (l.map Prod.fst).Nodup) {k : κ} {v : α} (h : (k, v) ∈ l) :
    aget l k = some v := by
  induction l with
  | nil => simp at h
  | cons hd tl ih =>
    obtain ⟨a, b⟩ := hd
    simp only [List.map_cons, List.nodup_cons] at hnd
    rcases List.mem_cons.mp h with h | h
    · rw [Prod.mk.injEq] at h
      simp [aget, h.1, h.2]
    · have hne : a ≠ k := by
        intro hc
        subst hc
        exact hnd.1 (List.mem_map_of_mem Prod.fst h)
      simp [aget, hne, ih hnd.2 h]

theorem aget_isSome_iff {l : List (κ × α)} {k : κ} :
    (aget l k).isSome ↔ k ∈ l.map Prod.fst := by
  induction l with
  | nil => simp [aget]
  | cons hd tl ih =>
    obtain ⟨a, b⟩ := hd
    by_cases hh : a = k
    · simp [aget, hh]
    · have hkk : ¬ (k = a) := fun hc => hh hc.symm
      simp [aget, hh, ih, hkk]

theorem aset_map_fst_of_mem {l : List (κ × α)} {k : κ} (v : α)
    (h : k ∈ l.map Prod.fst) :
    (aset l k v).map Prod.fst = l.map Prod.fst := by
  induction l with
  | nil => simp at h
  | cons hd tl ih =>
    obtain ⟨a, b⟩ := hd
    by_cases hh : a = k
    · simp [aset, hh]
    · simp only [List.map_cons, List.mem_cons] at h
      rcases h with h | h
      · exact absurd h.symm hh
      · simp [aset, hh, ih h]

theorem aget_adel_ne (l : List (κ × α)) {k k₁ : κ} (h : k₁ ≠ k) :
    aget (adel l k) k₁ = aget l k₁ := by
  induction l with
  | nil => simp [adel]
  | cons hd tl ih =>
    obtain ⟨a, b⟩ := hd
    by_cases hh : a = k
    · subst hh
      have hkk : ¬ (a = k₁) := fun hc => h (hc.symm)
      simp [adel, aget, hkk]
    · by_cases hk : a = k₁
      · simp [adel, aget, hh, hk, h]
      · simp [adel, aget, hh, hk, ih]

theorem adel_sublist (l : List (κ × α)) (k : κ) : (adel l k).Sublist l := by
  induction l with
  | nil => simp [adel]
  | cons hd tl ih =>
    obtain ⟨a, b⟩ := hd
    by_cases hh : a = k
    · subst hh
      have hsimp : adel ((a, b) :: tl) a = tl := by simp [adel]
      rw [hsimp]
      exact List.sublist_cons_self (a, b) tl
    · simp only [adel, hh, if_neg, not_false_iff]
      exact List.Sublist.cons₂ (a, b) ih

theorem aget_adel_self {l : List (κ × α)} {k : κ}
    (hnd : (l.map Prod.fst).Nodup) : aget (adel l k) k = none := by
  induction l with
  | nil => simp [adel, aget]
  | cons hd tl ih =>
    obtain ⟨a, b⟩ := hd
    simp only [List.map_cons, List.nodup_cons] at hnd
    by_cases hh : a = k
    · subst hh
      have hsimp : adel ((a, b) :: tl) a = tl := by simp [adel]
      rw [hsimp]
      rcases ho : aget tl a with _ | v
      · rfl
      · exact absurd (List.mem_map_of_mem Prod.fst (aget_mem ho)) hnd.1
    · simp [adel, aget, hh, ih hnd.2]

theorem mem_of_mem_aset {l : List (κ × α)} {k : κ} {v : α} {x : κ × α}
    (hx : x ∈ aset l k v) : x ∈ l ∨ x = (k, v) := by
  induction l with
  | nil => simpa [aset] using hx
  | cons hd tl ih =>
    obtain ⟨a, b⟩ := hd
    by_cases hh : a = k
    · simp only [aset, hh, if_pos, List.mem_cons] at hx
      rcases hx with hx | hx
      · right; exact hx
      · left; exact List.mem_cons_of_mem _ hx
    · simp only [aset, hh, if_neg, not_false_iff, List.mem_cons] at hx
      rcases hx with hx | hx
      · left; simp [hx]
      · rcases ih hx with h | h
        · left; exact List.mem_cons_of_mem _ h
        · right; exact h

theorem mem_of_mem_adel {l : List (κ × α)} {k : κ} {x : κ × α}
    (hx : x ∈ adel l k) : x ∈ l :=
  (adel_sublist l k).mem hx

/-! ## firstIdx / splice lemmas -/

theorem firstIdx_eq_none {p : α → Bool} {l : List α}
    (h : firstIdx p l = none) : ∀ y ∈ l, p y = false := by
  induction l with
  | nil => simp
  | cons hd tl ih =>
    rcases hp : p hd with _ | _
    · simp only [firstIdx, hp, Bool.false_eq_true, if_neg, not_false_iff] at h
      have h2 : firstIdx p tl = none := by
        rcases ho : firstIdx p tl with _ | j
        · rfl
        · rw [ho] at h; simp at h
      intro y hy
      rcases List.mem_cons.mp hy with hy | hy
      · rw [hy]; exact hp
      · exact ih h2 y hy
    · simp [firstIdx, hp] at h

theorem firstIdx_concat {p : α → Bool} {l₁ : List α} {x : α} (l₂ : List α)
    (hnone : ∀ y ∈ l₁, p y = false) (hx : p x = true) :
    firstIdx p (l₁ ++ x :: l₂) = some l₁.length := by
  induction l₁ with
  | nil => simp [firstIdx, hx]
  | cons hd tl ih =>
    have hhd : p hd = false := hnone hd (by simp)
    have htl : ∀ y ∈ tl, p y = false := fun y hy => hnone y (by simp [hy])
    simp [firstIdx, hhd, ih htl]

theorem exists_first_decomp {p : α → Bool} {l : List α}
    (h : ∃ x ∈ l, p x) :
    ∃ l₁ x l₂, l = l₁ ++ x :: l₂ ∧ p x = true ∧ ∀ y ∈ l₁, p y = false := by
  induction l with
  | nil => simp at h
  | cons hd tl ih =>
    rcases hp : p hd with _ | _
    · have htl : ∃ x ∈ tl, p x := by
        rcases h with ⟨x, hx, hpx⟩
        rcases List.mem_cons.mp hx with hx | hx
        · subst hx; rw [hp] at hpx; simp at hpx
        · exact ⟨x, hx, hpx⟩
      rcases ih htl with ⟨l₁, x, l₂, hl, hpx, hnone⟩
      refine ⟨hd :: l₁, x, l₂, by simp [hl], hpx, ?_⟩
      intro y hy
      rcases List.mem_cons.mp hy with hy | hy
      · rw [hy]; exact hp
      · exact hnone y hy
    · exact ⟨[], hd, tl, by simp, hp, by simp⟩

theorem spliceRemove_concat (l₁ : List α) (x : α) (l₂ : List α) :
    spliceRemove (l₁ ++ x :: l₂) ((l₁.length : Int)) = l₁ ++ l₂ := by
  have h0 : ¬ ((l₁.length : Int) < 0) := by omega
  simp only [spliceRemove, h0, if_neg, not_false_iff, Int.toNat_natCast]
  congr 1
  · exact List.take_left l₁ (x :: l₂)
  · have hsplit : l₁ ++ x :: l₂ = (l₁ ++ [x]) ++ l₂ := by simp
    have hlen : l₁.length + 1 = (l₁ ++ [x]).length := by simp
    rw [hsplit, hlen, List.drop_left]

theorem spliceRef_first {pred : ConnRef → Bool} {l₁ : List ConnRef}
    {c : ConnRef} (l₂ : List ConnRef)
    (hnone : ∀ y ∈ l₁, pred y = false) (hc : pred c = true) :
    spliceRef pred ⟨l₁ ++ c :: l₂⟩ = ⟨l₁ ++ l₂⟩ := by
  simp only [spliceRef, jsFindIndex, firstIdx_concat l₂ hnone hc]
  rw [spliceRemove_concat]

/-! ## Port accessors and characterization of the port modifiers -/

theorem outConns_eq (d : DrawflowData) (m a : String) (p : Nat) :
    outConns d m a p = ((outPortGet d m a p).map Port.connections).getD [] := by
  rcases h₁ : aget d.drawflow m with _ | md
  · simp [outConns, outPortGet, h₁]
  · rcases h₂ : aget md.data a with _ | nd
    · simp [outConns, outPortGet, h₁, h₂]
    · rcases h₃ : aget nd.outputs p with _ | prt <;>
        simp [outConns, outPortGet, h₁, h₂, h₃]

theorem inConns_eq (d : DrawflowData) (m b : String) (q : Nat) :
    inConns d m b q = ((inPortGet d m b q).map Port.connections).getD [] := by
  rcases h₁ : aget d.drawflow m with _ | md
  · simp [inConns, inPortGet, h₁]
  · rcases h₂ : aget md.data b with _ | nd
    · simp [inConns, inPortGet, h₁, h₂]
    · rcases h₃ : aget nd.inputs q with _ | prt <;>
        simp [inConns, inPortGet, h₁, h₂, h₃]

theorem modifyOutPort_eq {d : DrawflowData} {m a : String} {p : Nat}
    {f : Port → Port} {d₁ : DrawflowData}
    (h : modifyOutPort d m a p f = some d₁) :
    ∃ md nd prt, aget d.drawflow m = some md ∧ aget md.data a = some nd ∧
      aget nd.outputs p = some prt ∧
      d₁ = ⟨aset d.drawflow m { md with data := aset md.data a { nd with outputs := aset nd.outputs p (f prt) } }⟩ := by
  unfold modifyOutPort at h
  split at h
  next => exact absurd h (by simp)
  next md h₁ =>
    split at h
    next => exact absurd h (by simp)
    next nd h₂ =>
      split at h
      next => exact absurd h (by simp)
      next prt h₃ =>
        simp only [Option.some_inj] at h
        exact ⟨md, nd, prt, h₁, h₂, h₃, h.symm⟩

theorem modifyInPort_eq {d : DrawflowData} {m b : String} {q : Nat}
    {f : Port → Port} {d₁ : DrawflowData}
    (h : modifyInPort d m b q f = some d₁) :
    ∃ md nd prt, aget d.drawflow m = some md ∧ aget md.data b = some nd ∧
      aget nd.inputs q = some prt ∧
      d₁ = ⟨aset d.drawflow m { md with data := aset md.data b { nd with inputs := aset nd.inputs q (f prt) } }⟩ := by
  unfold modifyInPort at h
  split at h
  next => exact absurd h (by simp)
  next md h₁ =>
    split at h
    next => exact absurd h (by simp)
    next nd h₂ =>
      split at h
      next => exact absurd h (by simp)
      next prt h₃ =>
        simp only [Option.some_inj] at h
        exact ⟨md, nd, prt, h₁, h₂, h₃, h.symm⟩

theorem modifyOutPort_self {d : DrawflowData} {m a : String} {p : Nat}
    {f : Port → Port} {d₁ : DrawflowData}
    (h : modifyOutPort d m a p f = some d₁) :
    ∃ prt, outPortGet d m a p = some prt ∧
      outPortGet d₁ m a p = some (f prt) := by
  rcases modifyOutPort_eq h with ⟨md, nd, prt, h₁, h₂, h₃, rfl⟩
  refine ⟨prt, ?_, ?_⟩
  · simp [outPortGet, h₁, h₂, h₃]
  · simp [outPortGet, aget_aset_self, h₁, h₂, h₃]

theorem modifyOutPort_other {d : DrawflowData} {m a : String} {p : Nat}
    {f : Port → Port} {d₁ : DrawflowData}
    (h : modifyOutPort d m a p f = some d₁)
    (m₁ a₁ : String) (p₁ : Nat) (hne : ¬ (m₁ = m ∧ a₁ = a ∧ p₁ = p)) :
    outPortGet d₁ m₁ a₁ p₁ = outPortGet d m₁ a₁ p₁ := by
  rcases modifyOutPort_eq h with ⟨md, nd, prt, h₁, h₂, h₃, rfl⟩
  by_cases hm : m₁ = m
  · subst hm
    by_cases ha : a₁ = a
    · subst ha
      have hp : p₁ ≠ p := by
        intro hc; exact hne ⟨rfl, rfl, hc⟩
      simp [outPortGet, aget_aset_self, h₁, h₂, aget_aset_ne _ _ hp]
    · simp [outPortGet, aget_aset_self, h₁, aget_aset_ne _ _ ha]
  · simp [outPortGet, aget_aset_ne _ _ hm]

theorem modifyOutPort_inPortGet {d : DrawflowData} {m a : String} {p : Nat}
    {f : Port → Port} {d₁ : DrawflowData}
    (h : modifyOutPort d m a p f = some d₁) (m₁ b₁ : String) (q₁ : Nat) :
    inPortGet d₁ m₁ b₁ q₁ = inPortGet d m₁ b₁ q₁ := by
  rcases modifyOutPort_eq h with ⟨md, nd, prt, h₁, h₂, h₃, rfl⟩
  by_cases hm : m₁ = m
  · subst hm
    by_cases ha : b₁ = a
    · subst ha
      simp [inPortGet, aget_aset_self, h₁, h₂]
    · simp [inPortGet, aget_aset_self, h₁, aget_aset_ne _ _ ha]
  · simp [inPortGet, aget_aset_ne _ _ hm]

theorem modifyInPort_self {d : DrawflowData} {m b : String} {q : Nat}
    {f : Port → Port} {d₁ : DrawflowData}
    (h : modifyInPort d m b q f = some d₁) :
    ∃ prt, inPortGet d m b q = some prt ∧
      inPortGet d₁ m b q = some (f prt) := by
  rcases modifyInPort_eq h with ⟨md, nd, prt, h₁, h₂, h₃, rfl⟩
  refine ⟨prt, ?_, ?_⟩
  · simp [inPortGet, h₁, h₂, h₃]
  · simp [inPortGet, aget_aset_self, h₁, h₂, h₃]

theorem modifyInPort_other {d : DrawflowData} {m b : String} {q : Nat}
    {f : Port → Port} {d₁ : DrawflowData}
    (h : modifyInPort d m b q f = some d₁)
    (m₁ b₁ : String) (q₁ : Nat) (hne : ¬ (m₁ = m ∧ b₁ = b ∧ q₁ = q)) :
    inPortGet d₁ m₁ b₁ q₁ = inPortGet d m₁ b₁ q₁ := by
  rcases modifyInPort_eq h with ⟨md, nd, prt, h₁, h₂, h₃, rfl⟩
  by_cases hm : m₁ = m
  · subst hm
    by_cases hb : b₁ = b
    · subst hb
      have hq : q₁ ≠ q := by
        intro hc; exact hne ⟨rfl, rfl, hc⟩
      simp [inPortGet, aget_aset_self, h₁, h₂, aget_aset_ne _ _ hq]
    · simp [inPortGet, aget_aset_self, h₁, aget_aset_ne _ _ hb]
  · simp [inPortGet, aget_aset_ne _ _ hm]

theorem modifyInPort_outPortGet {d : DrawflowData} {m b : String} {q : Nat}
    {f : Port → Port} {d₁ : DrawflowData}
    (h : modifyInPort d m b q f = some d₁) (m₁ a₁ : String) (p₁ : Nat) :
    outPortGet d₁ m₁ a₁ p₁ = outPortGet d m₁ a₁ p₁ := by
  rcases modifyInPort_eq h with ⟨md, nd, prt, h₁, h₂, h₃, rfl⟩
  by_cases hm : m₁ = m
  · subst hm
    by_cases ha : a₁ = b
    · subst ha
      simp [outPortGet, aget_aset_self, h₁, h₂]
    · simp [outPortGet, aget_aset_self, h₁, aget_aset_ne _ _ ha]
  · simp [outPortGet, aget_aset_ne _ _ hm]


/-! ## Store skeleton and well-formedness invariants -/

theorem aset_map_snd_eq {l : List (κ × α)} {k : κ} {v v₀ : α}
    {β : Type} (g : α → β) (h : aget l k = some v₀) (hg : g v = g v₀) :
    (aset l k v).map (fun x => (x.1, g x.2)) = l.map (fun x => (x.1, g x.2)) := by
  induction l with
  | nil => simp [aget] at h
  | cons hd tl ih =>
    obtain ⟨a, b⟩ := hd
    by_cases hh : a = k
    · subst hh
      simp only [aget, if_pos, Option.some_inj] at h
      simp [aset, hg, h]
    · simp only [aget, hh, if_neg, not_false_iff] at h
      simp [aset, hh, ih h]

theorem dataShape_map_fst (d : DrawflowData) :
    (dataShape d).map Prod.fst = d.drawflow.map Prod.fst := by
  simp [dataShape]

theorem WF.modKeysNodup {d : DrawflowData} (h : WF d) :
    (d.drawflow.map Prod.fst).Nodup := by
  have := h.shape.1
  rwa [dataShape_map_fst] at this

theorem WF.nodeKeysNodup {d : DrawflowData} (h : WF d) {mp : String × ModuleData}
    (hmp : mp ∈ d.drawflow) : (mp.2.data.map Prod.fst).Nodup := by
  have hm := h.shape.2.1 (mp.1, mp.2.data.map (fun np => (np.1, nodeShape np.2)))
    (by exact List.mem_map_of_mem _ hmp)
  simpa using hm

theorem WF.canonical {d : DrawflowData} (h : WF d) {mp : String × ModuleData}
    (hmp : mp ∈ d.drawflow) {np : String × DFNode} (hnp : np ∈ mp.2.data) :
    np.2.inputs.map Prod.fst = List.range' 1 np.2.inputs.length ∧
    np.2.outputs.map Prod.fst = List.range' 1 np.2.outputs.length := by
  have hm := h.shape.2.2.2 (mp.1, mp.2.data.map (fun np => (np.1, nodeShape np.2)))
    (by exact List.mem_map_of_mem _ hmp)
    (np.1, nodeShape np.2) (by exact List.mem_map_of_mem _ hnp)
  simpa [nodeShape] using hm

theorem WF.nodeUnique {d : DrawflowData} (h : WF d)
    {mp₁ mp₂ : String × ModuleData} (h₁ : mp₁ ∈ d.drawflow) (h₂ : mp₂ ∈ d.drawflow)
    {np₁ np₂ : String × DFNode} (hn₁ : np₁ ∈ mp₁.2.data) (hn₂ : np₂ ∈ mp₂.2.data)
    (heq : np₁.1 = np₂.1) : mp₁.1 = mp₂.1 := by
  have hm := h.shape.2.2.1 (mp₁.1, mp₁.2.data.map (fun np => (np.1, nodeShape np.2)))
    (by exact List.mem_map_of_mem _ h₁)
    (mp₂.1, mp₂.2.data.map (fun np => (np.1, nodeShape np.2)))
    (by exact List.mem_map_of_mem _ h₂)
    (np₁.1, nodeShape np₁.2) (by exact List.mem_map_of_mem _ hn₁)
    (np₂.1, nodeShape np₂.2) (by exact List.mem_map_of_mem _ hn₂)
  exact hm heq

/-! ## Decidable checkers for the count-quantified invariants -/

theorem outCount_pos {d : DrawflowData} {m a : String} {p : Nat} {b : String}
    {q : Nat} (h : 0 < outCount d m a p b q) :
    ∃ c ∈ outConns d m a p, c.node = b ∧ c.port = q := by
  rcases List.countP_pos_iff.mp h with ⟨c, hc, hpred⟩
  exact ⟨c, hc, by simpa using hpred⟩

theorem inCount_pos {d : DrawflowData} {m b : String} {q : Nat} {a : String}
    {p : Nat} (h : 0 < inCount d m b q a p) :
    ∃ c ∈ inConns d m b q, c.node = a ∧ c.port = p := by
  rcases List.countP_pos_iff.mp h with ⟨c, hc, hpred⟩
  exact ⟨c, hc, by simpa using hpred⟩

theorem outConns_to_members {d : DrawflowData} {m a : String} {p : Nat}
    (h : outConns d m a p ≠ []) :
    ∃ md nd prt, (m, md) ∈ d.drawflow ∧ (a, nd) ∈ md.data ∧
      (p, prt) ∈ nd.outputs ∧ prt.connections = outConns d m a p := by
  rcases h₁ : aget d.drawflow m with _ | md
  · exact absurd (by simp [outConns, h₁]) h
  · rcases h₂ : aget md.data a with _ | nd
    · exact absurd (by simp [outConns, h₁, h₂]) h
    · rcases h₃ : aget nd.outputs p with _ | prt
      · exact absurd (by simp [outConns, h₁, h₂, h₃]) h
      · exact ⟨md, nd, prt, aget_mem h₁, aget_mem h₂, aget_mem h₃,
          by simp [outConns, h₁, h₂, h₃]⟩

theorem inConns_to_members {d : DrawflowData} {m b : String} {q : Nat}
    (h : inConns d m b q ≠ []) :
    ∃ md nd prt, (m, md) ∈ d.drawflow ∧ (b, nd) ∈ md.data ∧
      (q, prt) ∈ nd.inputs ∧ prt.connections = inConns d m b q := by
  rcases h₁ : aget d.drawflow m with _ | md
  · exact absurd (by simp [inConns, h₁]) h
  · rcases h₂ : aget md.data b with _ | nd
    · exact absurd (by simp [inConns, h₁, h₂]) h
    · rcases h₃ : aget nd.inputs q with _ | prt
      · exact absurd (by simp [inConns, h₁, h₂, h₃]) h
      · exact ⟨md, nd, prt, aget_mem h₁, aget_mem h₂, aget_mem h₃,
          by simp [inConns, h₁, h₂, h₃]⟩

theorem mirrorCheck_iff (d : DrawflowData) :
    mirrorCheck d = true ↔ MirrorInv d := by
  constructor
  · intro h m a p b q
    rcases Nat.eq_zero_or_pos (outCount d m a p b q) with hz | hpos
    · rcases Nat.eq_zero_or_pos (inCount d m b q a p) with hz₂ | hpos₂
      · rw [hz, hz₂]
      · rcases inCount_pos hpos₂ with ⟨c, hc, hcn, hcp⟩
        have hne : inConns d m b q ≠ [] := by
          intro hnil; rw [hnil] at hc; simp at hc
        rcases inConns_to_members hne with ⟨md, nd, prt, hm₁, hm₂, hm₃, hconn⟩
        simp only [mirrorCheck, List.all_eq_true, Bool.and_eq_true] at h
        have := ((h (m, md) hm₁ (b, nd) hm₂).2 (q, prt) hm₃ c
          (by rw [hconn]; exact hc))
        rw [beq_iff_eq] at this
        dsimp only at this
        rw [hcn, hcp] at this
        exact this.symm
    · rcases outCount_pos hpos with ⟨c, hc, hcn, hcp⟩
      have hne : outConns d m a p ≠ [] := by
        intro hnil; rw [hnil] at hc; simp at hc
      rcases outConns_to_members hne with ⟨md, nd, prt, hm₁, hm₂, hm₃, hconn⟩
      simp only [mirrorCheck, List.all_eq_true, Bool.and_eq_true] at h
      have := ((h (m, md) hm₁ (a, nd) hm₂).1 (p, prt) hm₃ c
        (by rw [hconn]; exact hc))
      rw [beq_iff_eq] at this
      dsimp only at this
      rw [hcn, hcp] at this
      exact this
  · intro h
    simp only [mirrorCheck, List.all_eq_true, Bool.and_eq_true]
    intro mp hmp ap hap
    constructor
    · intro pp hpp c hc
      rw [beq_iff_eq]
      exact h mp.1 ap.1 pp.1 c.node c.port
    · intro qp hqp c hc
      rw [beq_iff_eq]
      exact (h mp.1 c.node c.port ap.1 qp.1).symm

theorem outNoDup_of_check {d : DrawflowData} (h : outNoDupCheck d = true) :
    OutNoDup d := by
  intro m a p b q
  rcases Nat.eq_zero_or_pos (outCount d m a p b q) with hz | hpos
  · omega
  · rcases outCount_pos hpos with ⟨c, hc, hcn, hcp⟩
    have hne : outConns d m a p ≠ [] := by
      intro hnil; rw [hnil] at hc; simp at hc
    rcases outConns_to_members hne with ⟨md, nd, prt, hm₁, hm₂, hm₃, hconn⟩
    simp only [outNoDupCheck, List.all_eq_true, decide_eq_true_eq] at h
    have hcheck := h (m, md) hm₁ (a, nd) hm₂ (p, prt) hm₃ c
      (by rw [hconn]; exact hc)
    rw [hcn, hcp] at hcheck
    rw [outCount, ← hconn]
    exact hcheck

theorem inPoints_inConns {d : DrawflowData} (h : InPointsNone d)
    {m b : String} {q : Nat} : ∀ c ∈ inConns d m b q, c.points = none := by
  intro c hc
  have hne : inConns d m b q ≠ [] := by
    intro hnil; rw [hnil] at hc; simp at hc
  rcases inConns_to_members hne with ⟨md, nd, prt, h₁, h₂, h₃, hconn⟩
  exact h (m, md) h₁ (b, nd) h₂ (q, prt) h₃ c (by rw [hconn]; exact hc)

theorem InPointsNone_modifyOutPort {d : DrawflowData} {m a : String} {p : Nat}
    {f : Port → Port} {d₁ : DrawflowData} (hp : InPointsNone d)
    (h : modifyOutPort d m a p f = some d₁) : InPointsNone d₁ := by
  rcases modifyOutPort_eq h with ⟨md, nd, prt, h₁, h₂, h₃, rfl⟩
  intro mp hmp np hnp qp hqp c hc
  rcases mem_of_mem_aset hmp with hmp' | hmp'
  · exact hp mp hmp' np hnp qp hqp c hc
  · subst hmp'
    rcases mem_of_mem_aset hnp with hnp' | hnp'
    · exact hp (m, md) (aget_mem h₁) np hnp' qp hqp c hc
    · subst hnp'
      exact hp (m, md) (aget_mem h₁) (a, nd) (aget_mem h₂) qp hqp c hc

theorem InPointsNone_modifyInPort {d : DrawflowData} {m b : String} {q : Nat}
    {f : Port → Port} {d₁ : DrawflowData} (hp : InPointsNone d)
    (hf : ∀ prt : Port, (∀ c ∈ prt.connections, c.points = none) →
      ∀ c ∈ (f prt).connections, c.points = none)
    (h : modifyInPort d m b q f = some d₁) : InPointsNone d₁ := by
  rcases modifyInPort_eq h with ⟨md, nd, prt, h₁, h₂, h₃, rfl⟩
  intro mp hmp np hnp qp hqp c hc
  rcases mem_of_mem_aset hmp with hmp' | hmp'
  · exact hp mp hmp' np hnp qp hqp c hc
  · subst hmp'
    rcases mem_of_mem_aset hnp with hnp' | hnp'
    · exact hp (m, md) (aget_mem h₁) np hnp' qp hqp c hc
    · subst hnp'
      rcases mem_of_mem_aset hqp with hqp' | hqp'
      · exact hp (m, md) (aget_mem h₁) (b, nd) (aget_mem h₂) qp hqp' c hc
      · subst hqp'
        exact hf prt
          (fun c₂ hc₂ => hp (m, md) (aget_mem h₁) (b, nd) (aget_mem h₂)
            (q, prt) (aget_mem h₃) c₂ hc₂) c hc

theorem modifyOutPort_shape {d : DrawflowData} {m a : String} {p : Nat}
    {f : Port → Port} {d₁ : DrawflowData}
    (h : modifyOutPort d m a p f = some d₁) : dataShape d₁ = dataShape d := by
  rcases modifyOutPort_eq h with ⟨md, nd, prt, h₁, h₂, h₃, rfl⟩
  unfold dataShape
  apply aset_map_snd_eq (fun md₁ => md₁.data.map (fun np => (np.1, nodeShape np.2))) h₁
  dsimp only
  apply aset_map_snd_eq nodeShape h₂
  unfold nodeShape
  dsimp only
  rw [aset_map_fst_of_mem (f prt) (aget_isSome_iff.mp (by rw [h₃]; rfl))]

theorem modifyInPort_shape {d : DrawflowData} {m b : String} {q : Nat}
    {f : Port → Port} {d₁ : DrawflowData}
    (h : modifyInPort d m b q f = some d₁) : dataShape d₁ = dataShape d := by
  rcases modifyInPort_eq h with ⟨md, nd, prt, h₁, h₂, h₃, rfl⟩
  unfold dataShape
  apply aset_map_snd_eq (fun md₁ => md₁.data.map (fun np => (np.1, nodeShape np.2))) h₁
  dsimp only
  apply aset_map_snd_eq nodeShape h₂
  unfold nodeShape
  dsimp only
  rw [aset_map_fst_of_mem (f prt) (aget_isSome_iff.mp (by rw [h₃]; rfl))]

/-! ## getModuleFromNodeId lemmas -/

theorem gmAux_some {id m : String} :
    ∀ (l : List (String × ModuleData)) (acc : Option String),
    l.foldl (fun acc mp =>
      if mp.2.data.any (fun np => np.1 = id) then some mp.1 else acc) acc = some m →
    acc = some m ∨ ∃ md, (m, md) ∈ l ∧ id ∈ md.data.map Prod.fst := by
  intro l
  induction l with
  | nil => intro acc h; exact Or.inl h
  | cons hd tl ih =>
    intro acc h
    simp only [List.foldl_cons] at h
    rcases ih _ h with h₁ | ⟨md, hmd, hid⟩
    · by_cases hany : hd.2.data.any (fun np => np.1 = id)
      · rw [if_pos hany, Option.some_inj] at h₁
        refine Or.inr ⟨hd.2, ?_, ?_⟩
        · rw [← h₁]; exact List.mem_cons_self _ _
        · rcases List.any_eq_true.mp hany with ⟨np, hnp, hkey⟩
          rw [decide_eq_true_eq] at hkey
          rw [← hkey]
          exact List.mem_map_of_mem Prod.fst hnp
      · rw [if_neg hany] at h₁
        exact Or.inl h₁
    · exact Or.inr ⟨md, List.mem_cons_of_mem _ hmd, hid⟩

theorem gmAux_none {id : String} :
    ∀ (l : List (String × ModuleData)) (acc : Option String),
    l.foldl (fun acc mp =>
      if mp.2.data.any (fun np => np.1 = id) then some mp.1 else acc) acc = none →
    acc = none ∧ ∀ mp ∈ l, id ∉ mp.2.data.map Prod.fst := by
  intro l
  induction l with
  | nil => intro acc h; exact ⟨h, by simp⟩
  | cons hd tl ih =>
    intro acc h
    simp only [List.foldl_cons] at h
    rcases ih _ h with ⟨hstep, htl⟩
    by_cases hany : hd.2.data.any (fun np => np.1 = id)
    · rw [if_pos hany] at hstep; exact absurd hstep (by simp)
    · rw [if_neg hany] at hstep
      refine ⟨hstep, ?_⟩
      intro mp hmp
      rcases List.mem_cons.mp hmp with hmp | hmp
      · subst hmp
        intro hidk
        apply hany
        rcases List.mem_map.mp hidk with ⟨np, hnp, hkey⟩
        exact List.any_eq_true.mpr ⟨np, hnp, by simp [hkey]⟩
      · exact htl mp hmp

theorem gmAux_keepSome {id : String} :
    ∀ (l : List (String × ModuleData)) (acc : Option String), acc.isSome →
    (l.foldl (fun acc mp =>
      if mp.2.data.any (fun np => np.1 = id) then some mp.1 else acc) acc).isSome := by
  intro l
  induction l with
  | nil => intro acc h; exact h
  | cons hd tl ih =>
    intro acc h
    simp only [List.foldl_cons]
    apply ih
    by_cases hany : hd.2.data.any (fun np => np.1 = id)
    · simp [hany]
    · simpa [hany] using h

theorem gmAux_isSome {id : String} :
    ∀ (l : List (String × ModuleData)) (acc : Option String),
    (∃ mp ∈ l, id ∈ mp.2.data.map Prod.fst) →
    (l.foldl (fun acc mp =>
      if mp.2.data.any (fun np => np.1 = id) then some mp.1 else acc) acc).isSome := by
  intro l
  induction l with
  | nil => intro acc h; simp at h
  | cons hd tl ih =>
    intro acc h
    simp only [List.foldl_cons]
    rcases h with ⟨mp, hmp, hid⟩
    rcases List.mem_cons.mp hmp with hmp | hmp
    · subst hmp
      have hany : mp.2.data.any (fun np => np.1 = id) = true := by
        rcases List.mem_map.mp hid with ⟨np, hnp, hkey⟩
        exact List.any_eq_true.mpr ⟨np, hnp, by simp [hkey]⟩
      rw [if_pos hany]
      exact gmAux_keepSome tl _ (by simp)
    · exact ih _ ⟨mp, hmp, hid⟩

/-- An id found by the module scan lies in that module; with unique module
keys, the store lookup chain for it succeeds. -/
theorem getModule_chain {s : EditorState} {id m : String}
    (hnd : (s.drawflow.drawflow.map Prod.fst).Nodup)
    (h : getModuleFromNodeId s id = some m) :
    ∃ md, aget s.drawflow.drawflow m = some md ∧
      (aget md.data id).isSome := by
  rcases gmAux_some s.drawflow.drawflow none h with hacc | ⟨md, hmem, hid⟩
  · exact absurd hacc (by simp)
  · exact ⟨md, mem_aget_of_nodup hnd hmem, aget_isSome_iff.mpr hid⟩

theorem getModule_none {s : EditorState} {id : String}
    (h : getModuleFromNodeId s id = none) :
    ∀ mp ∈ s.drawflow.drawflow, id ∉ mp.2.data.map Prod.fst :=
  (gmAux_none s.drawflow.drawflow none h).2

theorem getModule_isSome {s : EditorState} {id : String}
    (h : ∃ mp ∈ s.drawflow.drawflow, id ∈ mp.2.data.map Prod.fst) :
    (getModuleFromNodeId s id).isSome :=
  gmAux_isSome s.drawflow.drawflow none h

/-! ## Count-level consequences of the port modifiers -/

theorem outCount_modifyInPort {d : DrawflowData} {m b : String} {q : Nat}
    {f : Port → Port} {d₁ : DrawflowData}
    (h : modifyInPort d m b q f = some d₁) (m₁ a₁ : String) (p₁ : Nat)
    (b₁ : String) (q₁ : Nat) :
    outCount d₁ m₁ a₁ p₁ b₁ q₁ = outCount d m₁ a₁ p₁ b₁ q₁ := by
  unfold outCount
  rw [outConns_eq, outConns_eq, modifyInPort_outPortGet h]

theorem inCount_modifyOutPort {d : DrawflowData} {m a : String} {p : Nat}
    {f : Port → Port} {d₁ : DrawflowData}
    (h : modifyOutPort d m a p f = some d₁) (m₁ b₁ : String) (q₁ : Nat)
    (a₁ : String) (p₁ : Nat) :
    inCount d₁ m₁ b₁ q₁ a₁ p₁ = inCount d m₁ b₁ q₁ a₁ p₁ := by
  unfold inCount
  rw [inConns_eq, inConns_eq, modifyOutPort_inPortGet h]

theorem outConns_modifyOutPort_self {d : DrawflowData} {m a : String} {p : Nat}
    {f : Port → Port} {d₁ : DrawflowData}
    (h : modifyOutPort d m a p f = some d₁) :
    ∃ prt, outPortGet d m a p = some prt ∧
      outConns d m a p = prt.connections ∧
      outConns d₁ m a p = (f prt).connections := by
  rcases modifyOutPort_self h with ⟨prt, h₁, h₂⟩
  exact ⟨prt, h₁, by rw [outConns_eq, h₁]; rfl, by rw [outConns_eq, h₂]; rfl⟩

theorem outConns_modifyOutPort_other {d : DrawflowData} {m a : String} {p : Nat}
    {f : Port → Port} {d₁ : DrawflowData}
    (h : modifyOutPort d m a p f = some d₁)
    (m₁ a₁ : String) (p₁ : Nat) (hne : ¬ (m₁ = m ∧ a₁ = a ∧ p₁ = p)) :
    outConns d₁ m₁ a₁ p₁ = outConns d m₁ a₁ p₁ := by
  rw [outConns_eq, outConns_eq, modifyOutPort_other h _ _ _ hne]

theorem inConns_modifyInPort_self {d : DrawflowData} {m b : String} {q : Nat}
    {f : Port → Port} {d₁ : DrawflowData}
    (h : modifyInPort d m b q f = some d₁) :
    ∃ prt, inPortGet d m b q = some prt ∧
      inConns d m b q = prt.connections ∧
      inConns d₁ m b q = (f prt).connections := by
  rcases modifyInPort_self h with ⟨prt, h₁, h₂⟩
  exact ⟨prt, h₁, by rw [inConns_eq, h₁]; rfl, by rw [inConns_eq, h₂]; rfl⟩

theorem inConns_modifyInPort_other {d : DrawflowData} {m b : String} {q : Nat}
    {f : Port → Port} {d₁ : DrawflowData}
    (h : modifyInPort d m b q f = some d₁)
    (m₁ b₁ : String) (q₁ : Nat) (hne : ¬ (m₁ = m ∧ b₁ = b ∧ q₁ = q)) :
    inConns d₁ m₁ b₁ q₁ = inConns d m₁ b₁ q₁ := by
  rw [inConns_eq, inConns_eq, modifyInPort_other h _ _ _ hne]

theorem outConns_modifyInPort {d : DrawflowData} {m b : String} {q : Nat}
    {f : Port → Port} {d₁ : DrawflowData}
    (h : modifyInPort d m b q f = some d₁) (m₁ a₁ : String) (p₁ : Nat) :
    outConns d₁ m₁ a₁ p₁ = outConns d m₁ a₁ p₁ := by
  rw [outConns_eq, outConns_eq, modifyInPort_outPortGet h]

theorem inConns_modifyOutPort {d : DrawflowData} {m a : String} {p : Nat}
    {f : Port → Port} {d₁ : DrawflowData}
    (h : modifyOutPort d m a p f = some d₁) (m₁ b₁ : String) (q₁ : Nat) :
    inConns d₁ m₁ b₁ q₁ = inConns d m₁ b₁ q₁ := by
  rw [inConns_eq, inConns_eq, modifyOutPort_inPortGet h]

theorem countP_single (r : ConnRef) (pred : ConnRef → Bool) :
    [r].countP pred = if pred r then 1 else 0 := by
  rcases hr : pred r with _ | _ <;> simp [List.countP_cons, hr]

theorem outCount_push {d d₁ : DrawflowData} {m a : String} {p : Nat}
    {r : ConnRef} (h : modifyOutPort d m a p (pushRef r) = some d₁)
    (m₁ a₁ : String) (p₁ : Nat) (b₁ : String) (q₁ : Nat) :
    outCount d₁ m₁ a₁ p₁ b₁ q₁ = outCount d m₁ a₁ p₁ b₁ q₁ +
      (if m₁ = m ∧ a₁ = a ∧ p₁ = p ∧ r.node = b₁ ∧ r.port = q₁ then 1 else 0) := by
  by_cases hc : m₁ = m ∧ a₁ = a ∧ p₁ = p
  · obtain ⟨rfl, rfl, rfl⟩ := hc
    rcases outConns_modifyOutPort_self h with ⟨prt, hg, hold, hnew⟩
    unfold outCount
    rw [hold, hnew]
    unfold pushRef
    dsimp only
    rw [List.countP_append, countP_single]
    by_cases hr : r.node = b₁ ∧ r.port = q₁
    · simp [hr]
    · simp [hr]
  · unfold outCount
    rw [outConns_modifyOutPort_other h _ _ _ hc]
    have hno : ¬ (m₁ = m ∧ a₁ = a ∧ p₁ = p ∧ r.node = b₁ ∧ r.port = q₁) := by
      intro hcc; exact hc ⟨hcc.1, hcc.2.1, hcc.2.2.1⟩
    simp [hno]

theorem inCount_push {d d₁ : DrawflowData} {m b : String} {q : Nat}
    {r : ConnRef} (h : modifyInPort d m b q (pushRef r) = some d₁)
    (m₁ b₁ : String) (q₁ : Nat) (a₁ : String) (p₁ : Nat) :
    inCount d₁ m₁ b₁ q₁ a₁ p₁ = inCount d m₁ b₁ q₁ a₁ p₁ +
      (if m₁ = m ∧ b₁ = b ∧ q₁ = q ∧ r.node = a₁ ∧ r.port = p₁ then 1 else 0) := by
  by_cases hc : m₁ = m ∧ b₁ = b ∧ q₁ = q
  · obtain ⟨rfl, rfl, rfl⟩ := hc
    rcases inConns_modifyInPort_self h with ⟨prt, hg, hold, hnew⟩
    unfold inCount
    rw [hold, hnew]
    unfold pushRef
    dsimp only
    rw [List.countP_append, countP_single]
    by_cases hr : r.node = a₁ ∧ r.port = p₁
    · simp [hr]
    · simp [hr]
  · unfold inCount
    rw [inConns_modifyInPort_other h _ _ _ hc]
    have hno : ¬ (m₁ = m ∧ b₁ = b ∧ q₁ = q ∧ r.node = a₁ ∧ r.port = p₁) := by
      intro hcc; exact hc ⟨hcc.1, hcc.2.1, hcc.2.2.1⟩
    simp [hno]

/-- Bool-level congruence: a key-membership scan depends only on keys. -/
theorem any_key_congr {γ : Type} {l₁ l₂ : List (String × γ)}
    (hk : l₁.map Prod.fst = l₂.map Prod.fst) (id : String) :
    l₁.any (fun np => np.1 = id) = l₂.any (fun np => np.1 = id) := by
  induction l₁ generalizing l₂ with
  | nil =>
    cases l₂ with
    | nil => rfl
    | cons hd tl => simp at hk
  | cons hd tl ih =>
    cases l₂ with
    | nil => simp at hk
    | cons hd₂ tl₂ =>
      simp only [List.map_cons, List.cons.injEq] at hk
      simp only [List.any_cons, hk.1, ih hk.2]

/-- The module scan reads only module keys and node keys, so it is
invariant under any change that preserves the store skeleton. -/
theorem getModule_shape_congr {s₁ s₂ : EditorState}
    (h : dataShape s₁.drawflow = dataShape s₂.drawflow) (id : String) :
    getModuleFromNodeId s₁ id = getModuleFromNodeId s₂ id := by
  unfold getModuleFromNodeId
  have haux : ∀ (l₁ l₂ : List (String × ModuleData)) (acc : Option String),
      l₁.map (fun mp => (mp.1, mp.2.data.map (fun np => (np.1, nodeShape np.2)))) =
        l₂.map (fun mp => (mp.1, mp.2.data.map (fun np => (np.1, nodeShape np.2)))) →
      l₁.foldl (fun acc mp =>
        if mp.2.data.any (fun np => np.1 = id) then some mp.1 else acc) acc =
      l₂.foldl (fun acc mp =>
        if mp.2.data.any (fun np => np.1 = id) then some mp.1 else acc) acc := by
    intro l₁
    induction l₁ with
    | nil =>
      intro l₂ acc heq
      cases l₂ with
      | nil => rfl
      | cons hd tl => simp at heq
    | cons hd tl ih =>
      intro l₂ acc heq
      cases l₂ with
      | nil => simp at heq
      | cons hd₂ tl₂ =>
        simp only [List.map_cons, List.cons.injEq, Prod.mk.injEq] at heq
        obtain ⟨⟨hk, hdata⟩, htl⟩ := heq
        have hkeys : hd.2.data.map Prod.fst = hd₂.2.data.map Prod.fst := by
          have hc := congrArg (List.map Prod.fst) hdata
          simpa [List.map_map, Function.comp_def] using hc
        simp only [List.foldl_cons]
        rw [any_key_congr hkeys id, hk]
        exact ih tl₂ _ htl
  exact haux _ _ none h

/-! ## addConnection: frame and invariant preservation -/

theorem addConnection_frame {s : EditorState} {idOut idIn : String} {p q : Nat}
    {out : EditorState × List DFEvent}
    (h : addConnection s idOut idIn p q = some out) :
    out.1 = { s with drawflow := out.1.drawflow } := by
  unfold addConnection at h
  dsimp only at h
  split at h
  · split at h
    next => exact absurd h (by simp)
    next dataNode hdn =>
      split at h
      next => exact absurd h (by simp)
      next checkPort hcp =>
        split at h
        next hex =>
          rw [Option.some_inj] at h
          rw [← h]
        next hex =>
          split at h
          next => exact absurd h (by simp)
          next m hm =>
            split at h
            next => exact absurd h (by simp)
            next d₁ h₁ =>
              split at h
              next => exact absurd h (by simp)
              next d₂ h₂ =>
                rw [Option.some_inj] at h
                rw [← h]
  · rw [Option.some_inj] at h
    rw [← h]

theorem WF_addConnection {s : EditorState} {idOut idIn : String} {p q : Nat}
    {out : EditorState × List DFEvent} (hwf : WF s.drawflow)
    (h : addConnection s idOut idIn p q = some out) :
    WF out.1.drawflow ∧ dataShape out.1.drawflow = dataShape s.drawflow := by
  unfold addConnection at h
  dsimp only at h
  split at h
  · split at h
    next => exact absurd h (by simp)
    next dataNode hdn =>
      split at h
      next => exact absurd h (by simp)
      next checkPort hcp =>
        split at h
        next hex =>
          rw [Option.some_inj] at h
          rw [← h]
          exact ⟨hwf, rfl⟩
        next hex =>
          split at h
          next => exact absurd h (by simp)
          next m hm =>
            split at h
            next => exact absurd h (by simp)
            next d₁ h₁ =>
              split at h
              next => exact absurd h (by simp)
              next d₂ h₂ =>
                rw [Option.some_inj] at h
                rw [← h]
                dsimp only
                have hshape : dataShape d₂ = dataShape s.drawflow := by
                  rw [modifyInPort_shape h₂, modifyOutPort_shape h₁]
                refine ⟨⟨?_, ?_, ?_, ?_⟩, hshape⟩
                · rw [hshape]; exact hwf.shape
                · exact InPointsNone_modifyInPort
                    (InPointsNone_modifyOutPort hwf.pts h₁)
                    (by
                      intro prt hall c hc
                      rcases List.mem_append.mp hc with hc | hc
                      · exact hall c hc
                      · simp only [List.mem_singleton] at hc
                        rw [hc])
                    h₂
                · intro m₁ a₁ p₁ b₁ q₁
                  rw [outCount_modifyInPort h₂, outCount_push h₁,
                    inCount_push h₂, inCount_modifyOutPort h₁,
                    hwf.mirror m₁ a₁ p₁ b₁ q₁]
                  congr 1
                  apply if_congr _ rfl rfl
                  constructor
                  · rintro ⟨hm₁, ha₁, hp₁, hb₁, hq₁⟩
                    exact ⟨hm₁, hb₁.symm, hq₁.symm, ha₁.symm, hp₁.symm⟩
                  · rintro ⟨hm₁, hb₁, hq₁, ha₁, hp₁⟩
                    exact ⟨hm₁, ha₁.symm, hp₁.symm, hb₁.symm, hq₁.symm⟩
                · intro m₁ a₁ p₁ b₁ q₁
                  rw [outCount_modifyInPort h₂, outCount_push h₁]
                  by_cases hcond : m₁ = m ∧ a₁ = idOut ∧ p₁ = p ∧
                      (ConnRef.mk idIn q none).node = b₁ ∧
                      (ConnRef.mk idIn q none).port = q₁
                  · obtain ⟨he₁, he₂, he₃, he₄, he₅⟩ := hcond
                    dsimp only at he₄ he₅
                    have hzero : outCount s.drawflow m idOut p idIn q = 0 := by
                      unfold getNodeFromId at hdn
                      rw [hm] at hdn
                      dsimp only at hdn
                      split at hdn
                      next hmd => exact absurd hdn (by simp)
                      next md hmd =>
                        rw [outCount]
                        have hoc : outConns s.drawflow m idOut p =
                            checkPort.connections := by
                          simp [outConns, hmd, hdn, hcp]
                        rw [hoc]
                        apply List.countP_eq_zero.mpr
                        intro c hc hpred
                        apply hex
                        exact List.any_eq_true.mpr ⟨c, hc, hpred⟩
                    rw [he₁, he₂, he₃, ← he₄, ← he₅, hzero]
                    simp
                  · rw [if_neg hcond]
                    have := hwf.nodup m₁ a₁ p₁ b₁ q₁
                    omega
  · rw [Option.some_inj] at h
    rw [← h]
    exact ⟨hwf, rfl⟩

/-! ## Deep-clone identity (JSON round trip on tree data) -/

theorem deepCloneJVal_id : ∀ v : JVal, deepCloneJVal v = v := by
  intro v
  induction v with
  | jnull => rfl
  | jbool b => rfl
  | jnum qv => rfl
  | jstr t => rfl
  | jarrNil => rfl
  | jarrCons h t ih₁ ih₂ => simp [deepCloneJVal, ih₁, ih₂]
  | jobjNil => rfl
  | jobjCons key v r ih₁ ih₂ => simp [deepCloneJVal, ih₁, ih₂]

theorem deepCloneConnRef_id : ∀ c : ConnRef, deepCloneConnRef c = c := by
  intro c
  obtain ⟨n, prt, pts⟩ := c
  unfold deepCloneConnRef
  rcases pts with _ | l
  · rfl
  · have hfun : (fun pt : RPoint => (⟨pt.pos_x, pt.pos_y⟩ : RPoint)) = id := rfl
    simp [hfun]

theorem deepClonePort_id : ∀ prt : Port, deepClonePort prt = prt := by
  intro prt
  unfold deepClonePort
  have hfun : deepCloneConnRef = id := funext deepCloneConnRef_id
  simp [hfun]

theorem deepCloneNode_id : ∀ nd : DFNode, deepCloneNode nd = nd := by
  intro nd
  unfold deepCloneNode
  have hport : deepClonePort = id := funext deepClonePort_id
  obtain ⟨i, n, pl, c, ht, t, ins, outs, px, py⟩ := nd
  simp [hport, deepCloneJVal_id]

theorem deepCloneData_id : ∀ d : DrawflowData, deepCloneData d = d := by
  intro d
  unfold deepCloneData
  have hnode : deepCloneNode = id := funext deepCloneNode_id
  obtain ⟨l⟩ := d
  simp [hnode]

/-! ## moduleConnElems membership -/

theorem mem_moduleConnElems {md : ModuleData} {e : ConnElem} :
    e ∈ moduleConnElems md ↔
      ∃ bp ∈ md.data, ∃ qp ∈ bp.2.inputs, ∃ r ∈ qp.2.connections,
        e = (bp.1, r.node, r.port, qp.1) := by
  unfold moduleConnElems
  constructor
  · intro h
    rcases List.mem_flatten.mp h with ⟨inner, hinner, he⟩
    rcases List.mem_map.mp hinner with ⟨bp, hbp, hinner₂⟩
    rw [← hinner₂] at he
    rcases List.mem_flatten.mp he with ⟨inner₂, hinner₃, he₂⟩
    rcases List.mem_map.mp hinner₃ with ⟨qp, hqp, hinner₄⟩
    rw [← hinner₄] at he₂
    rcases List.mem_map.mp he₂ with ⟨r, hr, he₃⟩
    exact ⟨bp, hbp, qp, hqp, r, hr, he₃.symm⟩
  · rintro ⟨bp, hbp, qp, hqp, r, hr, rfl⟩
    apply List.mem_flatten.mpr
    refine ⟨(bp.2.inputs.map (fun qp =>
      qp.2.connections.map (fun r => (bp.1, r.node, r.port, qp.1)))).flatten,
      List.mem_map_of_mem _ hbp, ?_⟩
    apply List.mem_flatten.mpr
    refine ⟨qp.2.connections.map (fun r => (bp.1, r.node, r.port, qp.1)),
      List.mem_map_of_mem _ hqp, ?_⟩
    exact List.mem_map_of_mem _ hr

/-- Under the invariant, no connection element of a module names a node id
that is not a key of any module: every input-side reference is mirrored to
an output list of the named node. -/
theorem no_elems_for_unknown {s : EditorState} {id : String}
    (hwf : WF s.drawflow)
    (hid : ∀ mp ∈ s.drawflow.drawflow, id ∉ mp.2.data.map Prod.fst)
    {md : ModuleData} (hmd : aget s.drawflow.drawflow s.module = some md) :
    (moduleConnElems md).filter (fun e => e.2.1 = id) = [] := by
  apply List.filter_eq_nil_iff.mpr
  intro e he
  rcases mem_moduleConnElems.mp he with ⟨bp, hbp, qp, hqp, r, hr, rfl⟩
  simp only [decide_eq_true_eq]
  intro hnode
  have hmem : (s.module, md) ∈ s.drawflow.drawflow := aget_mem hmd
  have hbget : aget md.data bp.1 = some bp.2 :=
    mem_aget_of_nodup (hwf.nodeKeysNodup hmem) hbp
  have hcanon := hwf.canonical hmem hbp
  have hqget : aget bp.2.inputs qp.1 = some qp.2 := by
    apply mem_aget_of_nodup _ hqp
    rw [hcanon.1]
    exact List.nodup_range' _ _
  have hpos : 0 < inCount s.drawflow s.module bp.1 qp.1 id r.port := by
    rw [inCount]
    have hconns : inConns s.drawflow s.module bp.1 qp.1 = qp.2.connections := by
      simp [inConns, hmd, hbget, hqget]
    rw [hconns]
    apply List.countP_pos_iff.mpr
    exact ⟨r, hr, by simp [hnode]⟩
  have hout : 0 < outCount s.drawflow s.module id r.port bp.1 qp.1 := by
    rw [hwf.mirror]
    exact hpos
  rcases outCount_pos hout with ⟨c, hc, _⟩
  have hne : outConns s.drawflow s.module id r.port ≠ [] := by
    intro hnil; rw [hnil] at hc; simp at hc
  rcases outConns_to_members hne with ⟨md₂, nd₂, prt₂, hm₂, hn₂, _, _⟩
  exact hid (s.module, md₂) hm₂ (List.mem_map_of_mem Prod.fst hn₂)

theorem gmAux_noneIntro {id : String} :
    ∀ (l : List (String × ModuleData)),
    (∀ mp ∈ l, id ∉ mp.2.data.map Prod.fst) →
    l.foldl (fun acc mp =>
      if mp.2.data.any (fun np => np.1 = id) then some mp.1 else acc) none = none := by
  intro l
  induction l with
  | nil => intro _; rfl
  | cons hd tl ih =>
    intro h
    simp only [List.foldl_cons]
    have hany : ¬ (hd.2.data.any (fun np => np.1 = id) = true) := by
      intro hc
      rcases List.any_eq_true.mp hc with ⟨np, hnp, hkey⟩
      rw [decide_eq_true_eq] at hkey
      exact h hd (List.mem_cons_self _ _) (hkey ▸ List.mem_map_of_mem Prod.fst hnp)
    rw [if_neg hany]
    exact ih (fun mp hmp => h mp (List.mem_cons_of_mem _ hmp))

theorem getModule_eq_none {s : EditorState} {id : String}
    (h : ∀ mp ∈ s.drawflow.drawflow, id ∉ mp.2.data.map Prod.fst) :
    getModuleFromNodeId s id = none :=
  gmAux_noneIntro s.drawflow.drawflow h

/-- `removeConnectionNodeId` for an id with no presence and no references
in the store: both element queries return nothing and the store is
untouched. -/
theorem removeConnectionNodeId_unknown {s : EditorState} {id : String}
    (hwf : WF s.drawflow)
    (hid : ∀ mp ∈ s.drawflow.drawflow, id ∉ mp.2.data.map Prod.fst) :
    removeConnectionNodeId s id = some (s, []) := by
  unfold removeConnectionNodeId
  have hout : (match aget s.drawflow.drawflow s.module with
      | none => []
      | some md => (moduleConnElems md).filter (fun e => e.2.1 = id)) =
      ([] : List ConnElem) := by
    rcases hmd : aget s.drawflow.drawflow s.module with _ | md
    · rfl
    · exact no_elems_for_unknown hwf hid hmd
  rw [hout]
  dsimp only [List.reverse_nil]
  rw [show elemPassOut s [] [] = some (s, []) from rfl]
  dsimp only
  have hin : (match aget s.drawflow.drawflow s.module with
      | none => []
      | some md => (moduleConnElems md).filter (fun e => e.1 = id)) =
      ([] : List ConnElem) := by
    rcases hmd : aget s.drawflow.drawflow s.module with _ | md
    · rfl
    · apply List.filter_eq_nil_iff.mpr
      intro e he
      rcases mem_moduleConnElems.mp he with ⟨bp, hbp, qp, hqp, r, hr, rfl⟩
      simp only [decide_eq_true_eq]
      intro hnode
      exact hid (s.module, md) (aget_mem hmd)
        (hnode ▸ List.mem_map_of_mem Prod.fst hbp)
  rw [hin]
  rfl

/-- The invariant holds for the freshly constructed editor. -/
theorem WF_initialState : WF initialState.drawflow :=
  ⟨by unfold shapeWF; decide, by unfold InPointsNone; decide,
    (mirrorCheck_iff _).mp (by decide),
    outNoDup_of_check (by decide)⟩

/-- When the identical connection is already stored on the output side
(and both ids resolve to the same module), `addConnection` is the
identity and dispatches nothing. -/
theorem addConnection_exist_noop {s : EditorState} {m idOut idIn : String}
    {p q : Nat} (hm : getModuleFromNodeId s idOut = some m)
    (hm' : getModuleFromNodeId s idIn = some m)
    (hex : 0 < outCount s.drawflow m idOut p idIn q) :
    addConnection s idOut idIn p q = some (s, []) := by
  rcases h₁ : aget s.drawflow.drawflow m with _ | md
  · exact absurd hex (by simp [outCount, outConns, h₁])
  rcases h₂ : aget md.data idOut with _ | nd
  · exact absurd hex (by simp [outCount, outConns, h₁, h₂])
  rcases h₃ : aget nd.outputs p with _ | cp
  · exact absurd hex (by simp [outCount, outConns, h₁, h₂, h₃])
  have hconns : outConns s.drawflow m idOut p = cp.connections := by
    simp [outConns, h₁, h₂, h₃]
  rw [outCount, hconns] at hex
  obtain ⟨c, hc, hpc⟩ := List.countP_pos_iff.mp hex
  have hgn : getNodeFromId s idOut = some nd := by
    simp [getNodeFromId, hm, h₁, h₂]
  have hexist : cp.connections.any
      (fun c => decide (c.node = idIn ∧ c.port = q)) = true :=
    List.any_eq_true.mpr ⟨c, hc, hpc⟩
  unfold addConnection
  rw [hm, hm', if_pos rfl, hgn]
  dsimp only
  rw [h₃]
  dsimp only
  rw [hexist]
  rfl

/-- When the connection is not yet stored and both ports exist,
`addConnection` pushes the mirrored pair and dispatches
`connectionCreated`; the two reference counts each grow by one. -/
theorem addConnection_push_spec {s : EditorState} {m idOut idIn : String}
    {p q : Nat} {cp : Port} (hne : idOut ≠ idIn)
    (hm : getModuleFromNodeId s idOut = some m)
    (hm' : getModuleFromNodeId s idIn = some m)
    (hcp : outPortGet s.drawflow m idOut p = some cp)
    (hnoex : cp.connections.any
      (fun c => decide (c.node = idIn ∧ c.port = q)) = false)
    (hin : (inPortGet s.drawflow m idIn q).isSome) :
    ∃ d₂, addConnection s idOut idIn p q =
        some ({ s with drawflow := d₂ },
          [DFEvent.connectionCreated idOut idIn p q]) ∧
      outCount d₂ m idOut p idIn q =
        outCount s.drawflow m idOut p idIn q + 1 ∧
      inCount d₂ m idIn q idOut p =
        inCount s.drawflow m idIn q idOut p + 1 := by
  rcases h₁ : aget s.drawflow.drawflow m with _ | md
  · exact absurd hcp (by simp [outPortGet, h₁])
  rcases h₂ : aget md.data idOut with _ | nd
  · exact absurd hcp (by simp [outPortGet, h₁, h₂])
  have h₃ : aget nd.outputs p = some cp := by
    simpa [outPortGet, h₁, h₂] using hcp
  rcases h₄ : aget md.data idIn with _ | ndIn
  · rw [show inPortGet s.drawflow m idIn q = none by
      simp [inPortGet, h₁, h₄]] at hin
    simp at hin
  rcases h₅ : aget ndIn.inputs q with _ | ip
  · rw [show inPortGet s.drawflow m idIn q = none by
      simp [inPortGet, h₁, h₄, h₅]] at hin
    simp at hin
  have hmo : modifyOutPort s.drawflow m idOut p
      (pushRef ⟨idIn, q, none⟩) =
      some ⟨aset s.drawflow.drawflow m ⟨aset md.data idOut
        { nd with outputs := aset nd.outputs p (pushRef ⟨idIn, q, none⟩ cp) }⟩⟩ := by
    unfold modifyOutPort
    rw [h₁]
    dsimp only
    rw [h₂]
    dsimp only
    rw [h₃]
  set nd₁ : DFNode := { nd with outputs := aset nd.outputs p (pushRef ⟨idIn, q, none⟩ cp) } with hnd₁
  set d₁ : DrawflowData :=
    ⟨aset s.drawflow.drawflow m ⟨aset md.data idOut nd₁⟩⟩ with hd₁
  set d₂ : DrawflowData := ⟨aset d₁.drawflow m ⟨aset (aset md.data idOut nd₁) idIn
    { ndIn with inputs := aset ndIn.inputs q (pushRef ⟨idOut, p, none⟩ ip) }⟩⟩ with hd₂
  have hmi : modifyInPort d₁ m idIn q (pushRef ⟨idOut, p, none⟩) = some d₂ := by
    unfold modifyInPort
    rw [show aget d₁.drawflow m = some ⟨aset md.data idOut nd₁⟩ from
      aget_aset_self _ _ _]
    dsimp only
    rw [aget_aset_ne _ _ (fun hc => hne hc.symm), h₄]
    dsimp only
    rw [h₅]
  have hgn : getNodeFromId s idOut = some nd := by
    simp [getNodeFromId, hm, h₁, h₂]
  refine ⟨d₂, ?_, ?_, ?_⟩
  · unfold addConnection
    rw [hm, hm', if_pos rfl, hgn]
    dsimp only
    rw [h₃]
    dsimp only
    rw [hnoex, if_neg Bool.false_ne_true]
    rw [hmo]
    dsimp only
    rw [hmi]
  · rw [outCount_modifyInPort hmi, outCount_push hmo]
    simp
  · rw [inCount_push hmi, inCount_modifyOutPort hmo]
    simp

/-! ## Splice characterisation -/

theorem take_drop_sublist (l : List α) (j : Nat) :
    (List.take j l ++ List.drop (j + 1) l).Sublist l := by
  conv_rhs => rw [← List.take_append_drop j l]
  refine List.Sublist.append (List.Sublist.refl _) ?_
  rw [← List.drop_drop]
  exact List.drop_sublist 1 (List.drop j l)

theorem spliceRemove_sublist (l : List α) (i : Int) :
    (spliceRemove l i).Sublist l := by
  unfold spliceRemove
  split
  · exact take_drop_sublist l _
  · exact take_drop_sublist l _

theorem spliceRef_sublist (pred : ConnRef → Bool) (prt : Port) :
    (spliceRef pred prt).connections.Sublist prt.connections :=
  spliceRemove_sublist _ _

/-- When a match is present, `spliceRef` removes exactly the first match:
every predicate's count drops by that element's contribution. -/
theorem spliceRef_spec {pred : ConnRef → Bool} {l : List ConnRef}
    (h : 0 < l.countP pred) :
    ∃ c, pred c = true ∧ c ∈ l ∧
      ∀ q : ConnRef → Bool,
        (spliceRef pred ⟨l⟩).connections.countP q +
          (if q c then 1 else 0) = l.countP q := by
  have hex : ∃ x ∈ l, pred x := by
    obtain ⟨c, hc, hp⟩ := List.countP_pos_iff.mp h
    exact ⟨c, hc, hp⟩
  obtain ⟨l₁, c, l₂, hdecomp, hpc, hnone⟩ := exists_first_decomp hex
  subst hdecomp
  refine ⟨c, hpc, by simp, fun q => ?_⟩
  rw [spliceRef_first l₂ hnone hpc]
  show (l₁ ++ l₂).countP q + (if q c then 1 else 0) =
    (l₁ ++ c :: l₂).countP q
  rcases hq : q c with _ | _ <;>
    simp [List.countP_append, List.countP_cons, hq] <;> omega

/-- Splicing the first `(b, q)` reference out of output port `(m, a, p)`:
the `(m, a, p, b, q)` count drops by one, every other output count and
every input count is unchanged, and the shape is unchanged. -/
theorem modifyOutPort_splice_spec {d : DrawflowData} {m a b : String}
    {p q : Nat} {d₁ : DrawflowData}
    (hmod : modifyOutPort d m a p
      (spliceRef (fun c => c.node = b ∧ c.port = q)) = some d₁)
    (hpos : 0 < outCount d m a p b q) :
    (∀ m₁ a₁ p₁ b₁ q₁, outCount d₁ m₁ a₁ p₁ b₁ q₁ +
        (if m₁ = m ∧ a₁ = a ∧ p₁ = p ∧ b₁ = b ∧ q₁ = q then 1 else 0) =
      outCount d m₁ a₁ p₁ b₁ q₁) ∧
    (∀ m₁ b₁ q₁ a₁ p₁, inCount d₁ m₁ b₁ q₁ a₁ p₁ =
      inCount d m₁ b₁ q₁ a₁ p₁) ∧
    dataShape d₁ = dataShape d := by
  obtain ⟨prt, hget, hold, hnew⟩ := outConns_modifyOutPort_self hmod
  refine ⟨?_, fun m₁ b₁ q₁ a₁ p₁ => inCount_modifyOutPort hmod m₁ b₁ q₁ a₁ p₁,
    modifyOutPort_shape hmod⟩
  intro m₁ a₁ p₁ b₁ q₁
  by_cases hc : m₁ = m ∧ a₁ = a ∧ p₁ = p
  · obtain ⟨rfl, rfl, rfl⟩ := hc
    rw [outCount, outCount, hold, hnew]
    rw [outCount, hold] at hpos
    obtain ⟨c, hpc, hmem, hcnt⟩ := spliceRef_spec hpos
    simp only [decide_eq_true_eq] at hpc
    have := hcnt (fun c => c.node = b₁ ∧ c.port = q₁)
    rw [show (⟨prt.connections⟩ : Port) = prt from rfl] at this
    rw [← this]
    by_cases hbq : b₁ = b ∧ q₁ = q
    · obtain ⟨rfl, rfl⟩ := hbq
      simp [hpc.1, hpc.2]
    · have hfalse : ¬(c.node = b₁ ∧ c.port = q₁) := by
        rw [hpc.1, hpc.2]
        exact fun hcc => hbq ⟨hcc.1.symm, hcc.2.symm⟩
      simp [hfalse, hbq]
  · rw [outCount, outCount, outConns_modifyOutPort_other hmod m₁ a₁ p₁ hc]
    have hfive : ¬(m₁ = m ∧ a₁ = a ∧ p₁ = p ∧ b₁ = b ∧ q₁ = q) :=
      fun hcc => hc ⟨hcc.1, hcc.2.1, hcc.2.2.1⟩
    rw [if_neg hfive]
    exact Nat.add_zero _

/-- Input-side twin of `modifyOutPort_splice_spec`. -/
theorem modifyInPort_splice_spec {d : DrawflowData} {m b a : String}
    {q p : Nat} {d₁ : DrawflowData}
    (hmod : modifyInPort d m b q
      (spliceRef (fun c => c.node = a ∧ c.port = p)) = some d₁)
    (hpos : 0 < inCount d m b q a p) :
    (∀ m₁ b₁ q₁ a₁ p₁, inCount d₁ m₁ b₁ q₁ a₁ p₁ +
        (if m₁ = m ∧ b₁ = b ∧ q₁ = q ∧ a₁ = a ∧ p₁ = p then 1 else 0) =
      inCount d m₁ b₁ q₁ a₁ p₁) ∧
    (∀ m₁ a₁ p₁ b₁ q₁, outCount d₁ m₁ a₁ p₁ b₁ q₁ =
      outCount d m₁ a₁ p₁ b₁ q₁) ∧
    dataShape d₁ = dataShape d := by
  obtain ⟨prt, hget, hold, hnew⟩ := inConns_modifyInPort_self hmod
  refine ⟨?_, fun m₁ a₁ p₁ b₁ q₁ => outCount_modifyInPort hmod m₁ a₁ p₁ b₁ q₁,
    modifyInPort_shape hmod⟩
  intro m₁ b₁ q₁ a₁ p₁
  by_cases hc : m₁ = m ∧ b₁ = b ∧ q₁ = q
  · obtain ⟨rfl, rfl, rfl⟩ := hc
    rw [inCount, inCount, hold, hnew]
    rw [inCount, hold] at hpos
    obtain ⟨c, hpc, hmem, hcnt⟩ := spliceRef_spec hpos
    simp only [decide_eq_true_eq] at hpc
    have := hcnt (fun c => c.node = a₁ ∧ c.port = p₁)
    rw [show (⟨prt.connections⟩ : Port) = prt from rfl] at this
    rw [← this]
    by_cases hap : a₁ = a ∧ p₁ = p
    · obtain ⟨rfl, rfl⟩ := hap
      simp [hpc.1, hpc.2]
    · have hfalse : ¬(c.node = a₁ ∧ c.port = p₁) := by
        rw [hpc.1, hpc.2]
        exact fun hcc => hap ⟨hcc.1.symm, hcc.2.symm⟩
      simp [hfalse, hap]
  · rw [inCount, inCount, inConns_modifyInPort_other hmod m₁ b₁ q₁ hc]
    have hfive : ¬(m₁ = m ∧ b₁ = b ∧ q₁ = q ∧ a₁ = a ∧ p₁ = p) :=
      fun hcc => hc ⟨hcc.1, hcc.2.1, hcc.2.2.1⟩
    rw [if_neg hfive]
    exact Nat.add_zero _

theorem jsFindIndex_pos {pred : ConnRef → Bool} {l : List ConnRef}
    (h : 0 < l.countP pred) : jsFindIndex l pred > -1 := by
  have hex : ∃ x ∈ l, pred x := by
    obtain ⟨c, hc, hp⟩ := List.countP_pos_iff.mp h
    exact ⟨c, hc, hp⟩
  obtain ⟨l₁, c, l₂, hdecomp, hpc, hnone⟩ := exists_first_decomp hex
  subst hdecomp
  unfold jsFindIndex
  rw [firstIdx_concat l₂ hnone hpc]
  dsimp only
  omega

theorem modifyOutPort_isSome {d : DrawflowData} {m a : String} {p : Nat}
    (f : Port → Port) (h : (outPortGet d m a p).isSome) :
    (modifyOutPort d m a p f).isSome := by
  unfold outPortGet at h
  unfold modifyOutPort
  rcases h₁ : aget d.drawflow m with _ | md
  · rw [h₁] at h; simp at h
  rw [h₁] at h
  dsimp only at h ⊢
  rcases h₂ : aget md.data a with _ | nd
  · rw [h₂] at h; simp at h
  rw [h₂] at h
  dsimp only at h ⊢
  rcases h₃ : aget nd.outputs p with _ | prt
  · rw [h₃] at h; simp at h
  rfl

theorem modifyInPort_isSome {d : DrawflowData} {m b : String} {q : Nat}
    (f : Port → Port) (h : (inPortGet d m b q).isSome) :
    (modifyInPort d m b q f).isSome := by
  unfold inPortGet at h
  unfold modifyInPort
  rcases h₁ : aget d.drawflow m with _ | md
  · rw [h₁] at h; simp at h
  rw [h₁] at h
  dsimp only at h ⊢
  rcases h₂ : aget md.data b with _ | nd
  · rw [h₂] at h; simp at h
  rw [h₂] at h
  dsimp only at h ⊢
  rcases h₃ : aget nd.inputs q with _ | prt
  · rw [h₃] at h; simp at h
  rfl

theorem outPortGet_isSome_of_pos {d : DrawflowData} {m a b : String}
    {p q : Nat} (h : 0 < outCount d m a p b q) :
    (outPortGet d m a p).isSome := by
  rcases hg : outPortGet d m a p with _ | prt
  · rw [outCount, outConns_eq, hg] at h
    simp at h
  · rfl

theorem inPortGet_isSome_of_pos {d : DrawflowData} {m b a : String}
    {q p : Nat} (h : 0 < inCount d m b q a p) :
    (inPortGet d m b q).isSome := by
  rcases hg : inPortGet d m b q with _ | prt
  · rw [inCount, inConns_eq, hg] at h
    simp at h
  · rfl

/-- Removing the mirrored reference pair (output side spliced first):
the store invariant survives, the shape is untouched, and exactly the
`(m, a, p, b, q)` output count and the `(m, b, q, a, p)` input count drop
by one. -/
theorem mirrorRemove_out_in {d d₁ d₂ : DrawflowData} {m a b : String}
    {p q : Nat} (hwf : WF d) (hpos : 0 < outCount d m a p b q)
    (hout : modifyOutPort d m a p
      (spliceRef (fun c => c.node = b ∧ c.port = q)) = some d₁)
    (hin : modifyInPort d₁ m b q
      (spliceRef (fun c => c.node = a ∧ c.port = p)) = some d₂) :
    WF d₂ ∧ dataShape d₂ = dataShape d ∧
    (∀ m₁ a₁ p₁ b₁ q₁, outCount d₂ m₁ a₁ p₁ b₁ q₁ +
        (if m₁ = m ∧ a₁ = a ∧ p₁ = p ∧ b₁ = b ∧ q₁ = q then 1 else 0) =
      outCount d m₁ a₁ p₁ b₁ q₁) ∧
    (∀ m₁ b₁ q₁ a₁ p₁, inCount d₂ m₁ b₁ q₁ a₁ p₁ +
        (if m₁ = m ∧ b₁ = b ∧ q₁ = q ∧ a₁ = a ∧ p₁ = p then 1 else 0) =
      inCount d m₁ b₁ q₁ a₁ p₁) := by
  obtain ⟨houtδ, hinpres, hshape₁⟩ := modifyOutPort_splice_spec hout hpos
  have hpos_in : 0 < inCount d₁ m b q a p := by
    rw [hinpres m b q a p, ← hwf.mirror m a p b q]
    exact hpos
  obtain ⟨hinδ, houtpres, hshape₂⟩ := modifyInPort_splice_spec hin hpos_in
  have houtEq : ∀ m₁ a₁ p₁ b₁ q₁, outCount d₂ m₁ a₁ p₁ b₁ q₁ +
      (if m₁ = m ∧ a₁ = a ∧ p₁ = p ∧ b₁ = b ∧ q₁ = q then 1 else 0) =
      outCount d m₁ a₁ p₁ b₁ q₁ := by
    intro m₁ a₁ p₁ b₁ q₁
    rw [houtpres m₁ a₁ p₁ b₁ q₁]
    exact houtδ m₁ a₁ p₁ b₁ q₁
  have hinEq : ∀ m₁ b₁ q₁ a₁ p₁, inCount d₂ m₁ b₁ q₁ a₁ p₁ +
      (if m₁ = m ∧ b₁ = b ∧ q₁ = q ∧ a₁ = a ∧ p₁ = p then 1 else 0) =
      inCount d m₁ b₁ q₁ a₁ p₁ := by
    intro m₁ b₁ q₁ a₁ p₁
    rw [← hinpres m₁ b₁ q₁ a₁ p₁]
    exact hinδ m₁ b₁ q₁ a₁ p₁
  refine ⟨⟨?_, ?_, ?_, ?_⟩, hshape₂.trans hshape₁, houtEq, hinEq⟩
  · rw [show dataShape d₂ = dataShape d from hshape₂.trans hshape₁]
    exact hwf.shape
  · exact InPointsNone_modifyInPort (InPointsNone_modifyOutPort hwf.pts hout)
      (fun prt hp c hc =>
        hp c (List.Sublist.subset (spliceRef_sublist _ _) hc)) hin
  · intro m₁ a₁ p₁ b₁ q₁
    have h₁ := houtEq m₁ a₁ p₁ b₁ q₁
    have h₂ := hinEq m₁ b₁ q₁ a₁ p₁
    have h₃ := hwf.mirror m₁ a₁ p₁ b₁ q₁
    by_cases hcond : m₁ = m ∧ a₁ = a ∧ p₁ = p ∧ b₁ = b ∧ q₁ = q
    · rw [if_pos hcond] at h₁
      rw [if_pos ⟨hcond.1, hcond.2.2.2.1, hcond.2.2.2.2, hcond.2.1,
        hcond.2.2.1⟩] at h₂
      omega
    · rw [if_neg hcond] at h₁
      rw [if_neg (fun hc => hcond ⟨hc.1, hc.2.2.2.1, hc.2.2.2.2, hc.2.1,
        hc.2.2.1⟩)] at h₂
      omega
  · intro m₁ a₁ p₁ b₁ q₁
    have h₁ := houtEq m₁ a₁ p₁ b₁ q₁
    have h₂ := hwf.nodup m₁ a₁ p₁ b₁ q₁
    omega

/-- Removing the mirrored reference pair (input side spliced first, the
order of the `removeConnectionNodeId` loops). -/
theorem mirrorRemove_in_out {d d₁ d₂ : DrawflowData} {m a b : String}
    {p q : Nat} (hwf : WF d) (hpos : 0 < inCount d m b q a p)
    (hin : modifyInPort d m b q
      (spliceRef (fun c => c.node = a ∧ c.port = p)) = some d₁)
    (hout : modifyOutPort d₁ m a p
      (spliceRef (fun c => c.node = b ∧ c.port = q)) = some d₂) :
    WF d₂ ∧ dataShape d₂ = dataShape d ∧
    (∀ m₁ a₁ p₁ b₁ q₁, outCount d₂ m₁ a₁ p₁ b₁ q₁ +
        (if m₁ = m ∧ a₁ = a ∧ p₁ = p ∧ b₁ = b ∧ q₁ = q then 1 else 0) =
      outCount d m₁ a₁ p₁ b₁ q₁) ∧
    (∀ m₁ b₁ q₁ a₁ p₁, inCount d₂ m₁ b₁ q₁ a₁ p₁ +
        (if m₁ = m ∧ b₁ = b ∧ q₁ = q ∧ a₁ = a ∧ p₁ = p then 1 else 0) =
      inCount d m₁ b₁ q₁ a₁ p₁) := by
  obtain ⟨hinδ, houtpres, hshape₁⟩ := modifyInPort_splice_spec hin hpos
  have hpos_out : 0 < outCount d₁ m a p b q := by
    rw [houtpres m a p b q, hwf.mirror m a p b q]
    exact hpos
  obtain ⟨houtδ, hinpres, hshape₂⟩ := modifyOutPort_splice_spec hout hpos_out
  have houtEq : ∀ m₁ a₁ p₁ b₁ q₁, outCount d₂ m₁ a₁ p₁ b₁ q₁ +
      (if m₁ = m ∧ a₁ = a ∧ p₁ = p ∧ b₁ = b ∧ q₁ = q then 1 else 0) =
      outCount d m₁ a₁ p₁ b₁ q₁ := by
    intro m₁ a₁ p₁ b₁ q₁
    rw [← houtpres m₁ a₁ p₁ b₁ q₁]
    exact houtδ m₁ a₁ p₁ b₁ q₁
  have hinEq : ∀ m₁ b₁ q₁ a₁ p₁, inCount d₂ m₁ b₁ q₁ a₁ p₁ +
      (if m₁ = m ∧ b₁ = b ∧ q₁ = q ∧ a₁ = a ∧ p₁ = p then 1 else 0) =
      inCount d m₁ b₁ q₁ a₁ p₁ := by
    intro m₁ b₁ q₁ a₁ p₁
    rw [hinpres m₁ b₁ q₁ a₁ p₁]
    exact hinδ m₁ b₁ q₁ a₁ p₁
  refine ⟨⟨?_, ?_, ?_, ?_⟩, hshape₂.trans hshape₁, houtEq, hinEq⟩
  · rw [show dataShape d₂ = dataShape d from hshape₂.trans hshape₁]
    exact hwf.shape
  · exact InPointsNone_modifyOutPort (InPointsNone_modifyInPort hwf.pts
      (fun prt hp c hc =>
        hp c (List.Sublist.subset (spliceRef_sublist _ _) hc)) hin) hout
  · intro m₁ a₁ p₁ b₁ q₁
    have h₁ := houtEq m₁ a₁ p₁ b₁ q₁
    have h₂ := hinEq m₁ b₁ q₁ a₁ p₁
    have h₃ := hwf.mirror m₁ a₁ p₁ b₁ q₁
    by_cases hcond : m₁ = m ∧ a₁ = a ∧ p₁ = p ∧ b₁ = b ∧ q₁ = q
    · rw [if_pos hcond] at h₁
      rw [if_pos ⟨hcond.1, hcond.2.2.2.1, hcond.2.2.2.2, hcond.2.1,
        hcond.2.2.1⟩] at h₂
      omega
    · rw [if_neg hcond] at h₁
      rw [if_neg (fun hc => hcond ⟨hc.1, hc.2.2.2.1, hc.2.2.2.2, hc.2.1,
        hc.2.2.1⟩)] at h₂
      omega
  · intro m₁ a₁ p₁ b₁ q₁
    have h₁ := houtEq m₁ a₁ p₁ b₁ q₁
    have h₂ := hwf.nodup m₁ a₁ p₁ b₁ q₁
    omega

/-- Success characterisation of `removeSingleConnection` on a present
connection: both sides spliced, `connectionRemoved` dispatched, `true`
returned, the invariant kept, exactly that mirrored pair's counts drop. -/
theorem removeSingleConnection_spec {s : EditorState} {m idOut idIn : String}
    {p q : Nat} (hwf : WF s.drawflow)
    (hm : getModuleFromNodeId s idOut = some m)
    (hm' : getModuleFromNodeId s idIn = some m)
    (hpos : 0 < outCount s.drawflow m idOut p idIn q) :
    ∃ d₂, removeSingleConnection s idOut idIn p q =
        some ({ s with drawflow := d₂ },
          [DFEvent.connectionRemoved idOut idIn p q], true) ∧
      WF d₂ ∧ dataShape d₂ = dataShape s.drawflow ∧
      (∀ m₁ a₁ p₁ b₁ q₁, outCount d₂ m₁ a₁ p₁ b₁ q₁ +
          (if m₁ = m ∧ a₁ = idOut ∧ p₁ = p ∧ b₁ = idIn ∧ q₁ = q
            then 1 else 0) =
        outCount s.drawflow m₁ a₁ p₁ b₁ q₁) ∧
      (∀ m₁ b₁ q₁ a₁ p₁, inCount d₂ m₁ b₁ q₁ a₁ p₁ +
          (if m₁ = m ∧ b₁ = idIn ∧ q₁ = q ∧ a₁ = idOut ∧ p₁ = p
            then 1 else 0) =
        inCount s.drawflow m₁ b₁ q₁ a₁ p₁) ∧
      (∀ m₁ b₁ q₁, ¬(m₁ = m ∧ b₁ = idIn ∧ q₁ = q) →
        inConns d₂ m₁ b₁ q₁ = inConns s.drawflow m₁ b₁ q₁) ∧
      (∀ m₁ a₁ p₁, ¬(m₁ = m ∧ a₁ = idOut ∧ p₁ = p) →
        outConns d₂ m₁ a₁ p₁ = outConns s.drawflow m₁ a₁ p₁) := by
  rcases h₁ : aget s.drawflow.drawflow m with _ | md
  · exact absurd hpos (by simp [outCount, outConns, h₁])
  rcases h₂ : aget md.data idOut with _ | nd
  · exact absurd hpos (by simp [outCount, outConns, h₁, h₂])
  rcases h₃ : aget nd.outputs p with _ | outPort
  · exact absurd hpos (by simp [outCount, outConns, h₁, h₂, h₃])
  have hconns : outConns s.drawflow m idOut p = outPort.connections := by
    simp [outConns, h₁, h₂, h₃]
  have hcp : 0 < outPort.connections.countP
      (fun c => c.node = idIn ∧ c.port = q) := by
    rw [outCount, hconns] at hpos
    exact hpos
  have hfind := jsFindIndex_pos hcp
  obtain ⟨d₁, hmo⟩ := Option.isSome_iff_exists.mp
    (@modifyOutPort_isSome s.drawflow m idOut p
      (spliceRef (fun c => c.node = idIn ∧ c.port = q))
      (by simp [outPortGet, h₁, h₂, h₃]))
  have hinpos : 0 < inCount s.drawflow m idIn q idOut p := by
    rw [← hwf.mirror m idOut p idIn q]
    exact hpos
  have hinget : inPortGet d₁ m idIn q = inPortGet s.drawflow m idIn q :=
    modifyOutPort_inPortGet hmo m idIn q
  obtain ⟨d₂, hmi⟩ := Option.isSome_iff_exists.mp
    (modifyInPort_isSome (spliceRef (fun c => c.node = idOut ∧ c.port = p))
      (by rw [hinget]; exact inPortGet_isSome_of_pos hinpos))
  obtain ⟨hWF, hshape, houtEq, hinEq⟩ := mirrorRemove_out_in hwf hpos hmo hmi
  have hinV : ∀ m₁ b₁ q₁, ¬(m₁ = m ∧ b₁ = idIn ∧ q₁ = q) →
      inConns d₂ m₁ b₁ q₁ = inConns s.drawflow m₁ b₁ q₁ := by
    intro m₁ b₁ q₁ hne
    rw [inConns_modifyInPort_other hmi m₁ b₁ q₁ hne,
      inConns_modifyOutPort hmo m₁ b₁ q₁]
  have houtV : ∀ m₁ a₁ p₁, ¬(m₁ = m ∧ a₁ = idOut ∧ p₁ = p) →
      outConns d₂ m₁ a₁ p₁ = outConns s.drawflow m₁ a₁ p₁ := by
    intro m₁ a₁ p₁ hne
    rw [outConns_modifyInPort hmi m₁ a₁ p₁,
      outConns_modifyOutPort_other hmo m₁ a₁ p₁ hne]
  refine ⟨d₂, ?_, hWF, hshape, houtEq, hinEq, hinV, houtV⟩
  unfold removeSingleConnection
  rw [hm, hm', if_pos rfl]
  dsimp only
  rw [h₁]
  dsimp only
  rw [h₂]
  dsimp only
  rw [h₃]
  dsimp only
  rw [if_pos hfind, hmo]
  dsimp only
  rw [hmi]

/-- `removeConnection` on a present connection of the active module:
same splices as `removeSingleConnection`, without the existence check. -/
theorem removeConnection_spec {s : EditorState} {idOut idIn : String}
    {p q : Nat} (hwf : WF s.drawflow)
    (hpos : 0 < outCount s.drawflow s.module idOut p idIn q) :
    ∃ d₂, removeConnection s idOut idIn p q =
        some ({ s with drawflow := d₂ },
          [DFEvent.connectionRemoved idOut idIn p q]) ∧
      WF d₂ ∧ dataShape d₂ = dataShape s.drawflow ∧
      (∀ m₁ a₁ p₁ b₁ q₁, outCount d₂ m₁ a₁ p₁ b₁ q₁ +
          (if m₁ = s.module ∧ a₁ = idOut ∧ p₁ = p ∧ b₁ = idIn ∧ q₁ = q
            then 1 else 0) =
        outCount s.drawflow m₁ a₁ p₁ b₁ q₁) ∧
      (∀ m₁ b₁ q₁ a₁ p₁, inCount d₂ m₁ b₁ q₁ a₁ p₁ +
          (if m₁ = s.module ∧ b₁ = idIn ∧ q₁ = q ∧ a₁ = idOut ∧ p₁ = p
            then 1 else 0) =
        inCount s.drawflow m₁ b₁ q₁ a₁ p₁) := by
  obtain ⟨d₁, hmo⟩ := Option.isSome_iff_exists.mp
    (modifyOutPort_isSome (spliceRef (fun c => c.node = idIn ∧ c.port = q))
      (outPortGet_isSome_of_pos hpos))
  have hinpos : 0 < inCount s.drawflow s.module idIn q idOut p := by
    rw [← hwf.mirror s.module idOut p idIn q]
    exact hpos
  have hinget : inPortGet d₁ s.module idIn q =
      inPortGet s.drawflow s.module idIn q :=
    modifyOutPort_inPortGet hmo s.module idIn q
  obtain ⟨d₂, hmi⟩ := Option.isSome_iff_exists.mp
    (modifyInPort_isSome (spliceRef (fun c => c.node = idOut ∧ c.port = p))
      (by rw [hinget]; exact inPortGet_isSome_of_pos hinpos))
  obtain ⟨hWF, hshape, houtEq, hinEq⟩ := mirrorRemove_out_in hwf hpos hmo hmi
  refine ⟨d₂, ?_, hWF, hshape, houtEq, hinEq⟩
  unfold removeConnection
  rw [hmo]
  dsimp only
  rw [hmi]

/-! ## Counting connection elements -/

theorem sum_map_zero {γ : Type} {g : γ → Nat} :
    ∀ {l : List γ}, (∀ p ∈ l, g p = 0) → (l.map g).sum = 0 := by
  intro l
  induction l with
  | nil => intro _; rfl
  | cons hd tl ih =>
    intro h
    have h0 : g hd = 0 := h hd (List.mem_cons_self _ _)
    simp [h0, ih (fun p hp => h p (List.mem_cons_of_mem _ hp))]

theorem sum_map_single {g : κ × α → Nat} :
    ∀ {l : List (κ × α)}, (l.map Prod.fst).Nodup →
      ∀ {k : κ} {v : α}, (k, v) ∈ l → (∀ p ∈ l, p.1 ≠ k → g p = 0) →
      (l.map g).sum = g (k, v) := by
  intro l
  induction l with
  | nil => intro _ k v hmem; simp at hmem
  | cons hd tl ih =>
    intro hnd k v hmem hz
    obtain ⟨k₁, v₁⟩ := hd
    simp only [List.map_cons, List.nodup_cons] at hnd
    by_cases hk : k₁ = k
    · subst hk
      have hv : v₁ = v := by
        rcases List.mem_cons.mp hmem with hh | ht
        · exact (Prod.mk.injEq _ _ _ _ |>.mp hh.symm).2
        · exact absurd (List.mem_map_of_mem Prod.fst ht) hnd.1
      subst hv
      have hztl : ∀ p ∈ tl, g p = 0 := by
        intro p hp
        refine hz p (List.mem_cons_of_mem _ hp) ?_
        intro hc
        exact hnd.1 (hc ▸ List.mem_map_of_mem Prod.fst hp)
      simp [sum_map_zero hztl]
    · have hmem' : (k, v) ∈ tl := by
        rcases List.mem_cons.mp hmem with hh | ht
        · exact absurd (Prod.mk.injEq _ _ _ _ |>.mp hh.symm).1 (fun hc => hk hc)
        · exact ht
      have h0 : g (k₁, v₁) = 0 := hz (k₁, v₁) (List.mem_cons_self _ _) hk
      simp [h0, ih hnd.2 hmem' (fun p hp hne => hz p (List.mem_cons_of_mem _ hp) hne)]

theorem count_flatten_map {γ β : Type} [BEq β] {f : γ → List β}
    {e : β} : ∀ l : List γ,
      ((l.map f).flatten).count e = (l.map (fun p => (f p).count e)).sum := by
  intro l
  induction l with
  | nil => rfl
  | cons hd tl ih => simp [List.count_append, ih]

theorem count_map_refs {b x bp1 : String} {p q qp1 : Nat}
    {refs : List ConnRef} :
    (refs.map (fun r => (bp1, r.node, r.port, qp1))).count
        ((b, x, p, q) : ConnElem) =
      if bp1 = b ∧ qp1 = q
        then refs.countP (fun r => r.node = x ∧ r.port = p) else 0 := by
  induction refs with
  | nil => split <;> rfl
  | cons r rest ih =>
    by_cases hbq : bp1 = b ∧ qp1 = q
    · obtain ⟨rfl, rfl⟩ := hbq
      by_cases hr : r.node = x ∧ r.port = p
      · obtain ⟨rfl, rfl⟩ := hr
        simp only [List.map_cons, List.count_cons, List.countP_cons, ih,
          if_pos (⟨rfl, rfl⟩ : bp1 = bp1 ∧ qp1 = qp1)]
        simp
      · have hbeq : ¬(((bp1, r.node, r.port, qp1) : ConnElem) =
            (bp1, x, p, qp1)) := by
          simp only [Prod.mk.injEq]
          rintro ⟨-, h2, h3, -⟩
          exact hr ⟨h2, h3⟩
        simp only [List.map_cons, List.count_cons, List.countP_cons, ih,
          if_pos (⟨rfl, rfl⟩ : bp1 = bp1 ∧ qp1 = qp1)]
        simp [hbeq, hr]
    · have hbeq : ¬(((bp1, r.node, r.port, qp1) : ConnElem) =
          (b, x, p, q)) := by
        simp only [Prod.mk.injEq]
        rintro ⟨h1, -, -, h4⟩
        exact hbq ⟨h1, h4⟩
      simp only [List.map_cons, List.count_cons, List.countP_cons, ih,
        if_neg hbq]
      simp [hbeq]

/-- Each `(b, x, p, q)` connection element of the active module's render
occurs exactly `inCount m b q x p` times. -/
theorem moduleConnElems_count {d : DrawflowData} {m : String}
    {md : ModuleData} (hwf : WF d) (hmd : aget d.drawflow m = some md)
    (b x : String) (p q : Nat) :
    (moduleConnElems md).count ((b, x, p, q) : ConnElem) =
      inCount d m b q x p := by
  have hmdmem : (m, md) ∈ d.drawflow := aget_mem hmd
  unfold moduleConnElems
  rw [count_flatten_map]
  rcases hb : aget md.data b with _ | nd
  · have hrhs : inCount d m b q x p = 0 := by
      simp [inCount, inConns, hmd, hb]
    rw [hrhs]
    apply sum_map_zero
    intro bp hbp
    have hk : bp.1 ≠ b := by
      intro hc
      have hs : (aget md.data b).isSome :=
        aget_isSome_iff.mpr (hc ▸ List.mem_map_of_mem Prod.fst hbp)
      rw [hb] at hs
      simp at hs
    rw [count_flatten_map]
    apply sum_map_zero
    intro qp hqp
    rw [count_map_refs, if_neg (fun hc => hk hc.1)]
  · have hbmem : (b, nd) ∈ md.data := aget_mem hb
    rw [sum_map_single (hwf.nodeKeysNodup hmdmem) hbmem
      (fun bp hbp hne => by
        rw [count_flatten_map]
        apply sum_map_zero
        intro qp hqp
        rw [count_map_refs, if_neg (fun hc => hne hc.1)])]
    rw [count_flatten_map]
    have hqnodup : ((b, nd).2.inputs.map Prod.fst).Nodup := by
      rw [(hwf.canonical hmdmem hbmem).1]
      exact List.nodup_range' _ _
    rcases hq : aget nd.inputs q with _ | prt
    · have hrhs : inCount d m b q x p = 0 := by
        simp [inCount, inConns, hmd, hb, hq]
      rw [hrhs]
      apply sum_map_zero
      intro qp hqp
      have hk : qp.1 ≠ q := by
        intro hc
        have hs : (aget nd.inputs q).isSome :=
          aget_isSome_iff.mpr (hc ▸ List.mem_map_of_mem Prod.fst hqp)
        rw [hq] at hs
        simp at hs
      rw [count_map_refs, if_neg (fun hc => hk hc.2)]
    · rw [sum_map_single hqnodup (aget_mem hq)
        (fun qp hqp hne => by
          rw [count_map_refs, if_neg (fun hc => hne hc.2)])]
      rw [count_map_refs, if_pos ⟨rfl, rfl⟩]
      simp [inCount, inConns, hmd, hb, hq]

/-! ## The removeConnectionNodeId element passes -/

/-- The outgoing pass: every processed element's mirrored reference pair
is removed; reference counts not naming `nid` on the output side are
untouched. -/
theorem elemPassOut_spec {nid : String} :
    ∀ (L : List ConnElem) (s : EditorState) (evs : List DFEvent),
      WF s.drawflow →
      (∀ e ∈ L, e.2.1 = nid) →
      (∀ b p q, inCount s.drawflow s.module b q nid p =
        L.count ((b, nid, p, q) : ConnElem)) →
      ∃ s₁ evs₁, elemPassOut s evs L = some (s₁, evs₁) ∧
        s₁.module = s.module ∧ s₁ = { s with drawflow := s₁.drawflow } ∧
        WF s₁.drawflow ∧ dataShape s₁.drawflow = dataShape s.drawflow ∧
        (∀ b p q, inCount s₁.drawflow s.module b q nid p = 0) ∧
        (∀ m₁ a₁ p₁ b₁ q₁, ¬(m₁ = s.module ∧ a₁ = nid) →
          outCount s₁.drawflow m₁ a₁ p₁ b₁ q₁ =
            outCount s.drawflow m₁ a₁ p₁ b₁ q₁) ∧
        (∀ m₁ b₁ q₁ a₁ p₁, ¬(m₁ = s.module ∧ a₁ = nid) →
          inCount s₁.drawflow m₁ b₁ q₁ a₁ p₁ =
            inCount s.drawflow m₁ b₁ q₁ a₁ p₁) := by
  intro L
  induction L with
  | nil =>
    intro s evs hwf hall hcnt
    refine ⟨s, evs, rfl, rfl, rfl, hwf, rfl, ?_, fun _ _ _ _ _ _ => rfl,
      fun _ _ _ _ _ _ => rfl⟩
    intro b p q
    rw [hcnt b p q]
    rfl
  | cons e rest ih =>
    intro s evs hwf hall hcnt
    obtain ⟨b₀, x₀, p₀, q₀⟩ := e
    have hx₀ : x₀ = nid := hall (b₀, x₀, p₀, q₀) (List.mem_cons_self _ _)
    subst x₀
    have hpos : 0 < inCount s.drawflow s.module b₀ q₀ nid p₀ := by
      rw [hcnt b₀ p₀ q₀, List.count_cons]
      simp
    obtain ⟨d₁, hmi⟩ := Option.isSome_iff_exists.mp
      (modifyInPort_isSome
        (spliceRef (fun c => c.node = nid ∧ c.port = p₀))
        (inPortGet_isSome_of_pos hpos))
    have hout_pos : 0 < outCount d₁ s.module nid p₀ b₀ q₀ := by
      rw [show outCount d₁ s.module nid p₀ b₀ q₀ =
          outCount s.drawflow s.module nid p₀ b₀ q₀ from by
        rw [outCount, outCount, outConns_eq, outConns_eq,
          modifyInPort_outPortGet hmi]]
      rw [hwf.mirror s.module nid p₀ b₀ q₀]
      exact hpos
    obtain ⟨d₂, hmo⟩ := Option.isSome_iff_exists.mp
      (modifyOutPort_isSome
        (spliceRef (fun c => c.node = b₀ ∧ c.port = q₀))
        (outPortGet_isSome_of_pos hout_pos))
    obtain ⟨hWF₂, hshape₂, houtδ, hinδ⟩ := mirrorRemove_in_out hwf hpos hmi hmo
    have hstep : ∀ b p q, inCount d₂ s.module b q nid p =
        rest.count ((b, nid, p, q) : ConnElem) := by
      intro b p q
      have h₁ := hinδ s.module b q nid p
      have h₂ := hcnt b p q
      by_cases hc : b = b₀ ∧ p = p₀ ∧ q = q₀
      · obtain ⟨rfl, rfl, rfl⟩ := hc
        rw [if_pos ⟨rfl, rfl, rfl, rfl, rfl⟩] at h₁
        rw [show List.count ((b, nid, p, q) : ConnElem)
            (((b, nid, p, q) : ConnElem) :: rest) =
            rest.count ((b, nid, p, q) : ConnElem) + 1 from by
          simp [List.count_cons]] at h₂
        omega
      · rw [if_neg (fun hcc => hc ⟨hcc.2.1, hcc.2.2.2.2, hcc.2.2.1⟩)] at h₁
        have hbeq : ¬(((b₀, nid, p₀, q₀) : ConnElem) = (b, nid, p, q)) := by
          simp only [Prod.mk.injEq]
          rintro ⟨hb, -, hp, hq⟩
          exact hc ⟨hb.symm, hp.symm, hq.symm⟩
        rw [show List.count ((b, nid, p, q) : ConnElem)
            (((b₀, nid, p₀, q₀) : ConnElem) :: rest) =
            rest.count ((b, nid, p, q) : ConnElem) from by
          simp [List.count_cons, hbeq]] at h₂
        omega
    have hmod₂ : ({ s with drawflow := d₂ } : EditorState).module = s.module :=
      rfl
    obtain ⟨s₁, evs₁, hrun, hm₁, hframe₁, hWF₁, hshape₁, hzero₁, houtP, hinP⟩ :=
      ih { s with drawflow := d₂ }
        (evs ++ [DFEvent.connectionRemoved nid b₀ p₀ q₀]) hWF₂
        (fun e he => hall e (List.mem_cons_of_mem _ he)) hstep
    refine ⟨s₁, evs₁, ?_, hm₁, ?_, hWF₁, hshape₁.trans hshape₂, hzero₁,
      ?_, ?_⟩
    · show elemPassOut s evs ((b₀, nid, p₀, q₀) :: rest) = some (s₁, evs₁)
      unfold elemPassOut
      rw [hmi]
      dsimp only
      rw [hmo]
      dsimp only
      exact hrun
    · rw [hframe₁]
    · intro m₁ a₁ p₁ b₁ q₁ hno
      rw [houtP m₁ a₁ p₁ b₁ q₁ hno]
      dsimp only
      have h₁ := houtδ m₁ a₁ p₁ b₁ q₁
      rw [if_neg (fun hcc => hno ⟨hcc.1, hcc.2.1⟩)] at h₁
      omega
    · intro m₁ b₁ q₁ a₁ p₁ hno
      rw [hinP m₁ b₁ q₁ a₁ p₁ hno]
      dsimp only
      have h₁ := hinδ m₁ b₁ q₁ a₁ p₁
      rw [if_neg (fun hcc => hno ⟨hcc.1, hcc.2.2.2.1⟩)] at h₁
      omega

/-- The incoming pass: mirrored removal of every reference held in
`nid`'s input ports; counts not naming `nid` on the input side are
untouched. -/
theorem elemPassIn_spec {nid : String} :
    ∀ (L : List ConnElem) (s : EditorState) (evs : List DFEvent),
      WF s.drawflow →
      (∀ e ∈ L, e.1 = nid) →
      (∀ a p q, inCount s.drawflow s.module nid q a p =
        L.count ((nid, a, p, q) : ConnElem)) →
      ∃ s₁ evs₁, elemPassIn s evs L = some (s₁, evs₁) ∧
        s₁.module = s.module ∧ s₁ = { s with drawflow := s₁.drawflow } ∧
        WF s₁.drawflow ∧ dataShape s₁.drawflow = dataShape s.drawflow ∧
        (∀ a p q, inCount s₁.drawflow s.module nid q a p = 0) ∧
        (∀ m₁ a₁ p₁ b₁ q₁, ¬(m₁ = s.module ∧ b₁ = nid) →
          outCount s₁.drawflow m₁ a₁ p₁ b₁ q₁ =
            outCount s.drawflow m₁ a₁ p₁ b₁ q₁) ∧
        (∀ m₁ b₁ q₁ a₁ p₁, ¬(m₁ = s.module ∧ b₁ = nid) →
          inCount s₁.drawflow m₁ b₁ q₁ a₁ p₁ =
            inCount s.drawflow m₁ b₁ q₁ a₁ p₁) := by
  intro L
  induction L with
  | nil =>
    intro s evs hwf hall hcnt
    refine ⟨s, evs, rfl, rfl, rfl, hwf, rfl, ?_, fun _ _ _ _ _ _ => rfl,
      fun _ _ _ _ _ _ => rfl⟩
    intro a p q
    rw [hcnt a p q]
    rfl
  | cons e rest ih =>
    intro s evs hwf hall hcnt
    obtain ⟨x₀, a₀, p₀, q₀⟩ := e
    have hx₀ : x₀ = nid := hall (x₀, a₀, p₀, q₀) (List.mem_cons_self _ _)
    subst x₀
    have hpos_in : 0 < inCount s.drawflow s.module nid q₀ a₀ p₀ := by
      rw [hcnt a₀ p₀ q₀, List.count_cons]
      simp
    have hpos : 0 < outCount s.drawflow s.module a₀ p₀ nid q₀ := by
      rw [hwf.mirror s.module a₀ p₀ nid q₀]
      exact hpos_in
    obtain ⟨d₁, hmo⟩ := Option.isSome_iff_exists.mp
      (modifyOutPort_isSome
        (spliceRef (fun c => c.node = nid ∧ c.port = q₀))
        (outPortGet_isSome_of_pos hpos))
    have hin_pos : 0 < inCount d₁ s.module nid q₀ a₀ p₀ := by
      rw [show inCount d₁ s.module nid q₀ a₀ p₀ =
          inCount s.drawflow s.module nid q₀ a₀ p₀ from by
        rw [inCount, inCount, inConns_eq, inConns_eq,
          modifyOutPort_inPortGet hmo]]
      exact hpos_in
    obtain ⟨d₂, hmi⟩ := Option.isSome_iff_exists.mp
      (modifyInPort_isSome
        (spliceRef (fun c => c.node = a₀ ∧ c.port = p₀))
        (inPortGet_isSome_of_pos hin_pos))
    obtain ⟨hWF₂, hshape₂, houtδ, hinδ⟩ := mirrorRemove_out_in hwf hpos hmo hmi
    have hstep : ∀ a p q, inCount d₂ s.module nid q a p =
        rest.count ((nid, a, p, q) : ConnElem) := by
      intro a p q
      have h₁ := hinδ s.module nid q a p
      have h₂ := hcnt a p q
      by_cases hc : a = a₀ ∧ p = p₀ ∧ q = q₀
      · obtain ⟨rfl, rfl, rfl⟩ := hc
        rw [if_pos ⟨rfl, rfl, rfl, rfl, rfl⟩] at h₁
        rw [show List.count ((nid, a, p, q) : ConnElem)
            (((nid, a, p, q) : ConnElem) :: rest) =
            rest.count ((nid, a, p, q) : ConnElem) + 1 from by
          simp [List.count_cons]] at h₂
        omega
      · rw [if_neg (fun hcc => hc ⟨hcc.2.2.2.1, hcc.2.2.2.2, hcc.2.2.1⟩)] at h₁
        have hbeq : ¬(((nid, a₀, p₀, q₀) : ConnElem) = (nid, a, p, q)) := by
          simp only [Prod.mk.injEq]
          rintro ⟨-, ha, hp, hq⟩
          exact hc ⟨ha.symm, hp.symm, hq.symm⟩
        rw [show List.count ((nid, a, p, q) : ConnElem)
            (((nid, a₀, p₀, q₀) : ConnElem) :: rest) =
            rest.count ((nid, a, p, q) : ConnElem) from by
          simp [List.count_cons, hbeq]] at h₂
        omega
    obtain ⟨s₁, evs₁, hrun, hm₁, hframe₁, hWF₁, hshape₁, hzero₁, houtP, hinP⟩ :=
      ih { s with drawflow := d₂ }
        (evs ++ [DFEvent.connectionRemoved a₀ nid p₀ q₀]) hWF₂
        (fun e he => hall e (List.mem_cons_of_mem _ he)) hstep
    refine ⟨s₁, evs₁, ?_, hm₁, ?_, hWF₁, hshape₁.trans hshape₂, hzero₁,
      ?_, ?_⟩
    · show elemPassIn s evs ((nid, a₀, p₀, q₀) :: rest) = some (s₁, evs₁)
      unfold elemPassIn
      rw [hmo]
      dsimp only
      rw [hmi]
      dsimp only
      exact hrun
    · rw [hframe₁]
    · intro m₁ a₁ p₁ b₁ q₁ hno
      rw [houtP m₁ a₁ p₁ b₁ q₁ hno]
      dsimp only
      have h₁ := houtδ m₁ a₁ p₁ b₁ q₁
      rw [if_neg (fun hcc => hno ⟨hcc.1, hcc.2.2.2.1⟩)] at h₁
      omega
    · intro m₁ b₁ q₁ a₁ p₁ hno
      rw [hinP m₁ b₁ q₁ a₁ p₁ hno]
      dsimp only
      have h₁ := hinδ m₁ b₁ q₁ a₁ p₁
      rw [if_neg (fun hcc => hno ⟨hcc.1, hcc.2.1⟩)] at h₁
      omega

theorem count_filter_elem {pred : ConnElem → Bool} {l : List ConnElem}
    {e : ConnElem} (he : pred e = true) :
    (l.filter pred).count e = l.count e := by
  induction l with
  | nil => rfl
  | cons x rest ih =>
    by_cases hx : pred x = true
    · rw [List.filter_cons_of_pos hx, List.count_cons, List.count_cons, ih]
    · rw [List.filter_cons_of_neg (by simpa using hx), List.count_cons, ih]
      have hne : ¬((x == e) = true) := by
        intro hc
        rw [beq_iff_eq] at hc
        rw [hc] at hx
        exact hx he
      simp [hne]

/-- `removeConnectionNodeId` on the active module: both passes run, the
invariant survives, and afterwards no reference of the active module
names `nid` on either side. -/
theorem removeConnectionNodeId_spec {s : EditorState} {md : ModuleData}
    {nid : String} (hwf : WF s.drawflow)
    (hmd : aget s.drawflow.drawflow s.module = some md) :
    ∃ s₂ evs, removeConnectionNodeId s nid = some (s₂, evs) ∧
      s₂.module = s.module ∧ s₂ = { s with drawflow := s₂.drawflow } ∧
      WF s₂.drawflow ∧ dataShape s₂.drawflow = dataShape s.drawflow ∧
      (∀ b p q, inCount s₂.drawflow s.module b q nid p = 0) ∧
      (∀ a p q, outCount s₂.drawflow s.module a p nid q = 0) := by
  set L₀ : List ConnElem :=
    ((moduleConnElems md).filter (fun e => e.2.1 = nid)).reverse with hL₀
  have hall₀ : ∀ e ∈ L₀, e.2.1 = nid := by
    intro e he
    rw [hL₀, List.mem_reverse] at he
    have := List.of_mem_filter he
    simpa using this
  have hcnt₀ : ∀ b p q, inCount s.drawflow s.module b q nid p =
      L₀.count ((b, nid, p, q) : ConnElem) := by
    intro b p q
    rw [hL₀, List.count_reverse,
      count_filter_elem (by simp), moduleConnElems_count hwf hmd b nid p q]
  obtain ⟨t, evs₁, hrun₁, hmt, hframet, hWFt, hshapet, hzero₁, houtP₁, hinP₁⟩ :=
    elemPassOut_spec L₀ s [] hwf hall₀ hcnt₀
  have hkeys : t.drawflow.drawflow.map Prod.fst =
      s.drawflow.drawflow.map Prod.fst := by
    rw [← dataShape_map_fst, hshapet, dataShape_map_fst]
  have hmd₁s : (aget t.drawflow.drawflow s.module).isSome := by
    rw [aget_isSome_iff, hkeys, ← aget_isSome_iff, hmd]
    rfl
  obtain ⟨md₁, hmd₁⟩ := Option.isSome_iff_exists.mp hmd₁s
  set L₂ : List ConnElem :=
    ((moduleConnElems md₁).filter (fun e => e.1 = nid)).reverse with hL₂
  have hall₂ : ∀ e ∈ L₂, e.1 = nid := by
    intro e he
    rw [hL₂, List.mem_reverse] at he
    have := List.of_mem_filter he
    simpa using this
  have hcnt₂ : ∀ a p q, inCount t.drawflow t.module nid q a p =
      L₂.count ((nid, a, p, q) : ConnElem) := by
    intro a p q
    rw [hmt, hL₂, List.count_reverse, count_filter_elem (by simp),
      moduleConnElems_count hWFt hmd₁ nid a p q]
  obtain ⟨f, evs₂, hrun₂, hmf, hframef, hWFf, hshapef, hzero₂, houtP₂, hinP₂⟩ :=
    elemPassIn_spec L₂ t evs₁ hWFt hall₂ hcnt₂
  have hmf' : f.module = s.module := by rw [hmf, hmt]
  have hzin : ∀ b p q, inCount f.drawflow s.module b q nid p = 0 := by
    intro b p q
    by_cases hb : b = nid
    · subst b
      have := hzero₂ nid p q
      rw [hmt] at this
      exact this
    · have hpres := hinP₂ t.module b q nid p
      rw [hmt] at hpres
      rw [hpres (fun hcc => hb hcc.2)]
      exact hzero₁ b p q
  refine ⟨f, evs₂, ?_, hmf', ?_, hWFf, ?_, hzin, ?_⟩
  · unfold removeConnectionNodeId
    rw [hmd]
    dsimp only
    rw [hrun₁]
    dsimp only
    rw [hmt, hmd₁]
    dsimp only
    exact hrun₂
  · rw [hframef, hframet]
  · rw [hshapef, hshapet]
  · intro a p q
    rw [hWFf.mirror s.module a p nid q]
    have := hzero₂ a p q
    rw [hmt] at this
    exact this

/-! ## Node deletion -/

theorem aget_map_congr {β : Type} {g : α → β} :
    ∀ {l₁ l₂ : List (κ × α)},
      l₁.map (fun p => (p.1, g p.2)) = l₂.map (fun p => (p.1, g p.2)) →
      ∀ {k : κ} {v₁ v₂ : α}, aget l₁ k = some v₁ → aget l₂ k = some v₂ →
      g v₁ = g v₂ := by
  intro l₁
  induction l₁ with
  | nil => intro l₂ h k v₁ v₂ h₁ h₂; simp [aget] at h₁
  | cons hd tl ih =>
    intro l₂ h k v₁ v₂ h₁ h₂
    obtain ⟨a, b⟩ := hd
    cases l₂ with
    | nil => simp at h
    | cons hd₂ tl₂ =>
      obtain ⟨a₂, b₂⟩ := hd₂
      simp only [List.map_cons, List.cons.injEq, Prod.mk.injEq] at h
      obtain ⟨⟨hkey, hval⟩, htl⟩ := h
      by_cases hk : a = k
      · subst hk
        rw [show aget ((a, b) :: tl) a = some b from by simp [aget]] at h₁
        rw [show aget ((a₂, b₂) :: tl₂) a = some b₂ from by
          simp [aget, hkey.symm]] at h₂
        obtain rfl : b = v₁ := Option.some_injective _ h₁
        obtain rfl : b₂ = v₂ := Option.some_injective _ h₂
        rw [hval]
      · rw [show aget ((a, b) :: tl) k = aget tl k from by
          simp [aget, hk]] at h₁
        rw [show aget ((a₂, b₂) :: tl₂) k = aget tl₂ k from by
          simp [aget, hkey ▸ hk]] at h₂
        exact ih htl h₁ h₂

/-- A node key is located in its (unique) module. -/
theorem getModule_unique {s : EditorState} {m : String} {md : ModuleData}
    {nid : String} (hwf : WF s.drawflow)
    (hmem : (m, md) ∈ s.drawflow.drawflow)
    (hnid : nid ∈ md.data.map Prod.fst) :
    getModuleFromNodeId s nid = some m := by
  obtain ⟨m', hm'⟩ := Option.isSome_iff_exists.mp
    (getModule_isSome ⟨(m, md), hmem, hnid⟩)
  rcases gmAux_some s.drawflow.drawflow none hm' with hacc | ⟨md', hmem', hnid'⟩
  · exact absurd hacc (by simp)
  · obtain ⟨np, hnpmem, hnpfst⟩ := List.mem_map.mp hnid
    obtain ⟨np', hnpmem', hnpfst'⟩ := List.mem_map.mp hnid'
    have hkeys : np'.1 = np.1 := by rw [hnpfst', hnpfst]
    have heq := hwf.nodeUnique hmem' hmem hnpmem' hnpmem hkeys
    rw [hm']
    exact congrArg some heq

theorem outConns_delete {d : DrawflowData} {m : String} {md : ModuleData}
    {nid : String} (hnd : (md.data.map Prod.fst).Nodup)
    (hmd : aget d.drawflow m = some md) (m₁ a : String) (p : Nat) :
    outConns (⟨aset d.drawflow m ⟨adel md.data nid⟩⟩ : DrawflowData) m₁ a p =
      if m₁ = m ∧ a = nid then [] else outConns d m₁ a p := by
  by_cases hm₁ : m₁ = m
  · subst m₁
    by_cases ha : a = nid
    · subst a
      rw [if_pos ⟨rfl, rfl⟩]
      show (match aget (aset d.drawflow m ⟨adel md.data nid⟩) m with
        | none => []
        | some md₁ =>
          match aget md₁.data nid with
          | none => []
          | some nd =>
            match aget nd.outputs p with
            | none => []
            | some prt => prt.connections) = []
      rw [aget_aset_self]
      dsimp only
      rw [aget_adel_self hnd]
    · rw [if_neg (fun hc => ha hc.2)]
      show (match aget (aset d.drawflow m ⟨adel md.data nid⟩) m with
        | none => []
        | some md₁ =>
          match aget md₁.data a with
          | none => []
          | some nd =>
            match aget nd.outputs p with
            | none => []
            | some prt => prt.connections) = outConns d m a p
      rw [aget_aset_self]
      dsimp only
      rw [aget_adel_ne _ ha]
      unfold outConns
      rw [hmd]
  · rw [if_neg (fun hc => hm₁ hc.1)]
    show (match aget (aset d.drawflow m ⟨adel md.data nid⟩) m₁ with
      | none => []
      | some md₁ =>
        match aget md₁.data a with
        | none => []
        | some nd =>
          match aget nd.outputs p with
          | none => []
          | some prt => prt.connections) = outConns d m₁ a p
    rw [aget_aset_ne _ _ hm₁]
    rfl

theorem inConns_delete {d : DrawflowData} {m : String} {md : ModuleData}
    {nid : String} (hnd : (md.data.map Prod.fst).Nodup)
    (hmd : aget d.drawflow m = some md) (m₁ b : String) (q : Nat) :
    inConns (⟨aset d.drawflow m ⟨adel md.data nid⟩⟩ : DrawflowData) m₁ b q =
      if m₁ = m ∧ b = nid then [] else inConns d m₁ b q := by
  by_cases hm₁ : m₁ = m
  · subst m₁
    by_cases hb : b = nid
    · subst b
      rw [if_pos ⟨rfl, rfl⟩]
      show (match aget (aset d.drawflow m ⟨adel md.data nid⟩) m with
        | none => []
        | some md₁ =>
          match aget md₁.data nid with
          | none => []
          | some nd =>
            match aget nd.inputs q with
            | none => []
            | some prt => prt.connections) = []
      rw [aget_aset_self]
      dsimp only
      rw [aget_adel_self hnd]
    · rw [if_neg (fun hc => hb hc.2)]
      show (match aget (aset d.drawflow m ⟨adel md.data nid⟩) m with
        | none => []
        | some md₁ =>
          match aget md₁.data b with
          | none => []
          | some nd =>
            match aget nd.inputs q with
            | none => []
            | some prt => prt.connections) = inConns d m b q
      rw [aget_aset_self]
      dsimp only
      rw [aget_adel_ne _ hb]
      unfold inConns
      rw [hmd]
  · rw [if_neg (fun hc => hm₁ hc.1)]
    show (match aget (aset d.drawflow m ⟨adel md.data nid⟩) m₁ with
      | none => []
      | some md₁ =>
        match aget md₁.data b with
        | none => []
        | some nd =>
          match aget nd.inputs q with
          | none => []
          | some prt => prt.connections) = inConns d m₁ b q
    rw [aget_aset_ne _ _ hm₁]
    rfl

/-- Deleting a node record whose references have already been cascaded
away preserves the store invariant. -/
theorem WF_deleteNode {d : DrawflowData} {m : String} {md : ModuleData}
    {nid : String} (hwf : WF d) (hmd : aget d.drawflow m = some md)
    (hin0 : ∀ b p q, inCount d m b q nid p = 0)
    (hout0 : ∀ a p q, outCount d m a p nid q = 0) :
    WF (⟨aset d.drawflow m ⟨adel md.data nid⟩⟩ : DrawflowData) := by
  have hmdnd : (md.data.map Prod.fst).Nodup :=
    hwf.nodeKeysNodup (aget_mem hmd)
  have transfer : ∀ x ∈ (aset d.drawflow m
      (⟨adel md.data nid⟩ : ModuleData)), ∃ z, z ∈ d.drawflow ∧
      z.1 = x.1 ∧ ∀ y ∈ x.2.data, y ∈ z.2.data := by
    intro x hx
    rcases mem_of_mem_aset hx with hold | hnew
    · exact ⟨x, hold, rfl, fun y hy => hy⟩
    · subst hnew
      exact ⟨(m, md), aget_mem hmd, rfl, fun y hy => mem_of_mem_adel hy⟩
  have houtC : ∀ m₁ a₁ p₁,
      outConns (⟨aset d.drawflow m ⟨adel md.data nid⟩⟩ : DrawflowData)
          m₁ a₁ p₁ =
        if m₁ = m ∧ a₁ = nid then [] else outConns d m₁ a₁ p₁ :=
    fun m₁ a₁ p₁ => outConns_delete hmdnd hmd m₁ a₁ p₁
  have hinC : ∀ m₁ b₁ q₁,
      inConns (⟨aset d.drawflow m ⟨adel md.data nid⟩⟩ : DrawflowData)
          m₁ b₁ q₁ =
        if m₁ = m ∧ b₁ = nid then [] else inConns d m₁ b₁ q₁ :=
    fun m₁ b₁ q₁ => inConns_delete hmdnd hmd m₁ b₁ q₁
  refine ⟨⟨?_, ?_, ?_, ?_⟩, ?_, ?_, ?_⟩
  · rw [dataShape_map_fst]
    show ((aset d.drawflow m ⟨adel md.data nid⟩).map Prod.fst).Nodup
    rw [aset_map_fst_of_mem _ (aget_isSome_iff.mp (by rw [hmd]; rfl))]
    have := hwf.shape.1
    rwa [dataShape_map_fst] at this
  · intro mp hmp
    obtain ⟨x, hx, rfl⟩ := List.mem_map.mp hmp
    rcases transfer x hx with ⟨z, hz, hzkey, hzsub⟩
    dsimp only
    rw [show (x.2.data.map (fun np => (np.1, nodeShape np.2))).map Prod.fst =
      x.2.data.map Prod.fst from by rw [List.map_map]; rfl]
    rcases mem_of_mem_aset hx with hold | hnew
    · exact hwf.nodeKeysNodup hold
    · subst hnew
      exact List.Nodup.sublist (List.Sublist.map Prod.fst
        (adel_sublist md.data nid)) hmdnd
  · intro mp₁ hmp₁ mp₂ hmp₂ np₁ hnp₁ np₂ hnp₂ hkeys
    obtain ⟨x₁, hx₁, rfl⟩ := List.mem_map.mp hmp₁
    obtain ⟨x₂, hx₂, rfl⟩ := List.mem_map.mp hmp₂
    obtain ⟨y₁, hy₁, rfl⟩ := List.mem_map.mp hnp₁
    obtain ⟨y₂, hy₂, rfl⟩ := List.mem_map.mp hnp₂
    rcases transfer x₁ hx₁ with ⟨z₁, hz₁, hz₁key, hz₁sub⟩
    rcases transfer x₂ hx₂ with ⟨z₂, hz₂, hz₂key, hz₂sub⟩
    dsimp only at hkeys ⊢
    rw [← hz₁key, ← hz₂key]
    exact hwf.nodeUnique hz₁ hz₂ (hz₁sub y₁ hy₁) (hz₂sub y₂ hy₂) hkeys
  · intro mp hmp np hnp
    obtain ⟨x, hx, rfl⟩ := List.mem_map.mp hmp
    obtain ⟨y, hy, rfl⟩ := List.mem_map.mp hnp
    rcases transfer x hx with ⟨z, hz, hzkey, hzsub⟩
    have hcan := hwf.canonical hz (hzsub y hy)
    dsimp only
    unfold nodeShape
    constructor
    · rw [show (y.2.inputs.map Prod.fst).length = y.2.inputs.length from by
        rw [List.length_map]]
      exact hcan.1
    · rw [show (y.2.outputs.map Prod.fst).length = y.2.outputs.length from by
        rw [List.length_map]]
      exact hcan.2
  · intro mp hmp np hnp qp hqp c hc
    rcases transfer mp hmp with ⟨z, hz, hzkey, hzsub⟩
    exact hwf.pts z hz np (hzsub np hnp) qp hqp c hc
  · intro m₁ a₁ p₁ b₁ q₁
    rw [outCount, inCount, houtC m₁ a₁ p₁, hinC m₁ b₁ q₁]
    by_cases hc₁ : m₁ = m ∧ a₁ = nid
    · rw [if_pos hc₁]
      by_cases hc₂ : m₁ = m ∧ b₁ = nid
      · rw [if_pos hc₂]
        simp
      · rw [if_neg hc₂]
        have h0 := hin0 b₁ p₁ q₁
        rw [inCount] at h0
        rw [hc₁.1, hc₁.2, h0]
        simp
    · rw [if_neg hc₁]
      by_cases hc₂ : m₁ = m ∧ b₁ = nid
      · rw [if_pos hc₂]
        have h0 := hout0 a₁ p₁ q₁
        rw [outCount] at h0
        rw [hc₂.1, hc₂.2, h0]
        simp
      · rw [if_neg hc₂]
        exact hwf.mirror m₁ a₁ p₁ b₁ q₁
  · intro m₁ a₁ p₁ b₁ q₁
    rw [outCount, houtC m₁ a₁ p₁]
    by_cases hc₁ : m₁ = m ∧ a₁ = nid
    · rw [if_pos hc₁]
      exact Nat.zero_le _
    · rw [if_neg hc₁]
      exact hwf.nodup m₁ a₁ p₁ b₁ q₁

/-- `removeNodeId` on a node of the active module: the cascade removes
every reference naming the node in the active module, the record is
deleted, `nodeRemoved` is dispatched last, and the invariant survives. -/
theorem removeNodeId_spec {s : EditorState} {md : ModuleData} {nid : String}
    (hwf : WF s.drawflow)
    (hmd : aget s.drawflow.drawflow s.module = some md)
    (hnid : nid ∈ md.data.map Prod.fst) :
    ∃ s₂ evs, removeNodeId s nid =
        some (s₂, evs ++ [DFEvent.nodeRemoved nid]) ∧
      s₂.module = s.module ∧ s₂ = { s with drawflow := s₂.drawflow } ∧
      WF s₂.drawflow ∧
      (∀ md₂, aget s₂.drawflow.drawflow s.module = some md₂ →
        aget md₂.data nid = none) ∧
      (∀ b p q, inCount s₂.drawflow s.module b q nid p = 0) ∧
      (∀ a p q, outCount s₂.drawflow s.module a p nid q = 0) := by
  obtain ⟨s₁, evs, hrun, hm₁, hframe₁, hWF₁, hshape₁, hzin, hzout⟩ :=
    removeConnectionNodeId_spec hwf hmd
  have hkeys : s₁.drawflow.drawflow.map Prod.fst =
      s.drawflow.drawflow.map Prod.fst := by
    rw [← dataShape_map_fst, hshape₁, dataShape_map_fst]
  have hmd₁s : (aget s₁.drawflow.drawflow s.module).isSome := by
    rw [aget_isSome_iff, hkeys, ← aget_isSome_iff, hmd]
    rfl
  obtain ⟨md₁, hmd₁⟩ := Option.isSome_iff_exists.mp hmd₁s
  have hnodekeys : md₁.data.map Prod.fst = md.data.map Prod.fst := by
    have hshape₁x : s₁.drawflow.drawflow.map (fun p =>
        (p.1, (fun mdl : ModuleData =>
          mdl.data.map (fun np => (np.1, nodeShape np.2))) p.2)) =
        s.drawflow.drawflow.map (fun p =>
        (p.1, (fun mdl : ModuleData =>
          mdl.data.map (fun np => (np.1, nodeShape np.2))) p.2)) := hshape₁
    have hval := @aget_map_congr String ModuleData instDecidableEqString _
      (fun mdl : ModuleData => mdl.data.map (fun np => (np.1, nodeShape np.2)))
      s₁.drawflow.drawflow s.drawflow.drawflow hshape₁x s.module md₁ md
      hmd₁ hmd
    have hfst := congrArg (List.map Prod.fst) hval
    rwa [List.map_map, List.map_map] at hfst
  have hnid₁ : nid ∈ md₁.data.map Prod.fst := by
    rw [hnodekeys]
    exact hnid
  have hgm : getModuleFromNodeId s₁ nid = some s.module :=
    getModule_unique hWF₁ (aget_mem hmd₁) hnid₁
  have hmd₁nd : (md₁.data.map Prod.fst).Nodup :=
    hWF₁.nodeKeysNodup (aget_mem hmd₁)
  set d₂ : DrawflowData :=
    ⟨aset s₁.drawflow.drawflow s.module ⟨adel md₁.data nid⟩⟩ with hd₂
  have hWF₂ : WF d₂ := WF_deleteNode hWF₁ hmd₁ hzin hzout
  have houtC : ∀ m₁ a₁ p₁, outConns d₂ m₁ a₁ p₁ =
      if m₁ = s.module ∧ a₁ = nid then [] else outConns s₁.drawflow m₁ a₁ p₁ :=
    fun m₁ a₁ p₁ => outConns_delete hmd₁nd hmd₁ m₁ a₁ p₁
  have hinC : ∀ m₁ b₁ q₁, inConns d₂ m₁ b₁ q₁ =
      if m₁ = s.module ∧ b₁ = nid then [] else inConns s₁.drawflow m₁ b₁ q₁ :=
    fun m₁ b₁ q₁ => inConns_delete hmd₁nd hmd₁ m₁ b₁ q₁
  refine ⟨{ s₁ with drawflow := d₂ }, evs, ?_, hm₁, ?_, hWF₂, ?_, ?_, ?_⟩
  · unfold removeNodeId
    rw [hrun]
    dsimp only
    rw [hgm]
    dsimp only
    rw [hm₁, hmd₁]
  · rw [hframe₁]
  · intro md₂ hmd₂
    dsimp only at hmd₂
    rw [show aget (aset s₁.drawflow.drawflow s.module ⟨adel md₁.data nid⟩)
        s.module = some (⟨adel md₁.data nid⟩ : ModuleData) from
      aget_aset_self _ _ _] at hmd₂
    obtain rfl := Option.some_injective _ hmd₂
    exact aget_adel_self hmd₁nd
  · intro b p q
    show inCount d₂ s.module b q nid p = 0
    rw [inCount, hinC]
    by_cases hb : b = nid
    · rw [if_pos ⟨rfl, hb⟩]
      rfl
    · rw [if_neg (fun hc => hb hc.2)]
      have h0 := hzin b p q
      rw [inCount] at h0
      exact h0
  · intro a p q
    show outCount d₂ s.module a p nid q = 0
    rw [outCount, houtC]
    by_cases ha : a = nid
    · rw [if_pos ⟨rfl, ha⟩]
      rfl
    · rw [if_neg (fun hc => ha hc.2)]
      have h0 := hzout a p q
      rw [outCount] at h0
      exact h0

/-! ## Dense port relabelling -/

theorem aget_range' :
    ∀ (l : List (Nat × α)) (st N : Nat),
      l.map Prod.fst = List.range' st N → ∀ j,
      aget l j = if st ≤ j ∧ j < st + N
        then (l[(j - st)]?).map Prod.snd else none := by
  intro l
  induction l with
  | nil =>
    intro st N h j
    have hN : N = 0 := by
      rcases N with _ | n
      · rfl
      · simp [List.range'] at h
    subst hN
    rw [if_neg (by omega)]
    rfl
  | cons hd tl ih =>
    intro st N h j
    obtain ⟨k₀, v⟩ := hd
    rcases N with _ | n
    · simp [List.range'] at h
    simp only [List.map_cons, List.range', List.cons.injEq] at h
    obtain ⟨rfl, htl⟩ := h
    by_cases hj : k₀ = j
    · subst hj
      rw [show aget ((k₀, v) :: tl) k₀ = some v from by simp [aget]]
      rw [if_pos (by omega)]
      simp
    · rw [show aget ((k₀, v) :: tl) j = aget tl j from by simp [aget, hj]]
      rw [ih (k₀ + 1) n htl j]
      by_cases hin : k₀ + 1 ≤ j ∧ j < k₀ + 1 + n
      · rw [if_pos hin, if_pos (by omega)]
        have hidx : j - k₀ = (j - (k₀ + 1)) + 1 := by omega
        rw [hidx]
        simp
      · rw [if_neg hin, if_neg (by omega)]

theorem adel_range' :
    ∀ (l : List (Nat × α)) (st N k : Nat),
      l.map Prod.fst = List.range' st N → st ≤ k → k < st + N →
      adel l k = l.take (k - st) ++ l.drop (k - st + 1) := by
  intro l
  induction l with
  | nil =>
    intro st N k h h₁ h₂
    have hN : N = 0 := by
      rcases N with _ | n
      · rfl
      · simp [List.range'] at h
    omega
  | cons hd tl ih =>
    intro st N k h h₁ h₂
    obtain ⟨k₀, v⟩ := hd
    rcases N with _ | n
    · simp [List.range'] at h
    simp only [List.map_cons, List.range', List.cons.injEq] at h
    obtain ⟨rfl, htl⟩ := h
    by_cases hk : k₀ = k
    · subst hk
      rw [show adel ((k₀, v) :: tl) k₀ = tl from by simp [adel]]
      rw [show k₀ - k₀ = 0 from by omega]
      simp
    · rw [show adel ((k₀, v) :: tl) k = (k₀, v) :: adel tl k from by
        simp [adel, hk]]
      rw [ih (k₀ + 1) n k htl (by omega) (by omega)]
      have hpos : k - k₀ = (k - (k₀ + 1)) + 1 := by omega
      rw [hpos]
      simp only [List.take_succ_cons, List.drop_succ_cons, List.cons_append]

theorem enum_relabel_fst (vals : List α) :
    ((vals.enum.map (fun ip => (ip.1 + 1, ip.2))).map Prod.fst) =
      List.range' 1 vals.length := by
  rw [List.map_map]
  rw [show (Prod.fst ∘ fun ip : Nat × α => (ip.1 + 1, ip.2)) =
    (fun ip : Nat × α => ip.1 + 1) from rfl]
  rw [show (fun ip : Nat × α => ip.1 + 1) =
    ((fun i : Nat => i + 1) ∘ Prod.fst) from rfl]
  rw [← List.map_map, List.enum_map_fst]
  rw [List.range'_eq_map_range 1 vals.length]
  congr 1
  funext i
  omega

theorem aget_relabel (vals : List α) (j : Nat) :
    aget (vals.enum.map (fun ip => (ip.1 + 1, ip.2))) j =
      if 1 ≤ j ∧ j ≤ vals.length then vals[(j - 1)]? else none := by
  rw [aget_range' _ 1 vals.length (by
    rw [enum_relabel_fst])]
  by_cases hin : 1 ≤ j ∧ j < 1 + vals.length
  · rw [if_pos hin, if_pos (by omega)]
    rw [List.getElem?_map, List.getElem?_enum]
    rcases hv : vals[(j - 1)]? with _ | v
    · rfl
    · rfl
  · rw [if_neg hin, if_neg (by omega)]

/-- The JS port-renumbering (delete key `k`, rebuild as
`input_(index+1)` over insertion order): on a dense `1..N` port map it
keeps ports below `k` and relabels every port above `k` down by one. -/
theorem relabel_of_adel (l : List (Nat × α)) (N k : Nat)
    (hkeys : l.map Prod.fst = List.range' 1 N) (hk1 : 1 ≤ k) (hkN : k ≤ N) :
    ∀ j, aget ((((adel l k).map Prod.snd).enum).map
        (fun ip => (ip.1 + 1, ip.2))) j =
      if 1 ≤ j ∧ j < k then aget l j
      else if k ≤ j ∧ j ≤ N - 1 then aget l (j + 1)
      else none := by
  intro j
  have hlen : l.length = N := by
    have := congrArg List.length hkeys
    simpa using this
  have hadel : adel l k = l.take (k - 1) ++ l.drop k := by
    rw [adel_range' l 1 N k hkeys (by omega) (by omega)]
    rw [show k - 1 + 1 = k from by omega]
  have hvals : (adel l k).map Prod.snd =
      (l.map Prod.snd).take (k - 1) ++ (l.map Prod.snd).drop k := by
    rw [hadel, List.map_append, List.map_take, List.map_drop]
  have hvlen : ((adel l k).map Prod.snd).length = N - 1 := by
    rw [hvals]
    simp
    omega
  rw [aget_relabel, hvlen]
  have hagetl : ∀ i, 1 ≤ i → i ≤ N →
      aget l i = (l[(i - 1)]?).map Prod.snd := by
    intro i h₁ h₂
    rw [aget_range' l 1 N hkeys i, if_pos (by omega)]
  have htk : (List.take (k - 1) (List.map Prod.snd l)).length = k - 1 := by
    simp [hlen]
    omega
  by_cases hj₁ : 1 ≤ j ∧ j < k
  · rw [if_pos (by omega), if_pos hj₁]
    rw [hvals, List.getElem?_append]
    rw [if_pos (by rw [htk]; omega)]
    rw [hagetl j hj₁.1 (by omega)]
    rw [List.getElem?_take]
    rw [if_pos (by omega)]
    rw [List.getElem?_map]
  · by_cases hj₂ : k ≤ j ∧ j ≤ N - 1
    · rw [if_pos (by omega), if_neg hj₁, if_pos hj₂]
      rw [hvals, List.getElem?_append_right (by rw [htk]; omega)]
      rw [htk, List.getElem?_drop]
      rw [show k + (j - 1 - (k - 1)) = j from by omega]
      rw [hagetl (j + 1) (by omega) (by omega)]
      rw [show j + 1 - 1 = j from by omega]
      rw [List.getElem?_map]
    · rw [if_neg (by omega), if_neg hj₁, if_neg hj₂]

theorem count_map_pairs {a : String} {p : Nat} {refs : List ConnRef} :
    (refs.map (fun r => (r.node, r.port))).count ((a, p) : String × Nat) =
      refs.countP (fun r => r.node = a ∧ r.port = p) := by
  induction refs with
  | nil => rfl
  | cons r rest ih =>
    by_cases hr : r.node = a ∧ r.port = p
    · obtain ⟨rfl, rfl⟩ := hr
      simp [List.count_cons, List.countP_cons, ih]
    · have hne : ¬(((r.node, r.port) : String × Nat) = (a, p)) := by
        simp only [Prod.mk.injEq]
        rintro ⟨h₁, h₂⟩
        exact hr ⟨h₁, h₂⟩
      simp [List.count_cons, List.countP_cons, ih, hne, hr]

/-- A peer holding a reference of the module lives in that module. -/
theorem peer_in_module {s : EditorState} {m a : String} {p : Nat}
    {b : String} {q : Nat} (hwf : WF s.drawflow)
    (hpos : 0 < outCount s.drawflow m a p b q) :
    getModuleFromNodeId s a = some m := by
  have hne : outConns s.drawflow m a p ≠ [] := by
    intro hnil
    rw [outCount, hnil] at hpos
    simp at hpos
  obtain ⟨md, nd, prt, hmd, hnd, hprt, _⟩ := outConns_to_members hne
  exact getModule_unique hwf hmd (List.mem_map_of_mem Prod.fst hnd)

/-- The cascade of `removeNodeInput`: one `removeSingleConnection` per
reference collected from the removed port; counts on other ports — and
the stored lists of every other input port — are untouched. -/
theorem cascadeIn_spec {id : String} {k : Nat} {m : String} :
    ∀ (items : List (String × Nat)) (s : EditorState) (evs : List DFEvent),
      WF s.drawflow →
      getModuleFromNodeId s id = some m →
      (∀ a p, inCount s.drawflow m id k a p =
        items.count ((a, p) : String × Nat)) →
      ∃ s₁ evs₁, cascadeIn id k s evs items = some (s₁, evs₁) ∧
        s₁.module = s.module ∧ s₁ = { s with drawflow := s₁.drawflow } ∧
        WF s₁.drawflow ∧ dataShape s₁.drawflow = dataShape s.drawflow ∧
        (∀ a p, inCount s₁.drawflow m id k a p = 0) ∧
        (∀ m₁ a₁ p₁ b₁ q₁, ¬(m₁ = m ∧ b₁ = id ∧ q₁ = k) →
          outCount s₁.drawflow m₁ a₁ p₁ b₁ q₁ =
            outCount s.drawflow m₁ a₁ p₁ b₁ q₁) ∧
        (∀ m₁ b₁ q₁ a₁ p₁, ¬(m₁ = m ∧ b₁ = id ∧ q₁ = k) →
          inCount s₁.drawflow m₁ b₁ q₁ a₁ p₁ =
            inCount s.drawflow m₁ b₁ q₁ a₁ p₁) ∧
        (∀ m₁ b₁ q₁, ¬(m₁ = m ∧ b₁ = id ∧ q₁ = k) →
          inConns s₁.drawflow m₁ b₁ q₁ = inConns s.drawflow m₁ b₁ q₁) := by
  intro items
  induction items with
  | nil =>
    intro s evs hwf hm hcnt
    refine ⟨s, evs, rfl, rfl, rfl, hwf, rfl, ?_, fun _ _ _ _ _ _ => rfl,
      fun _ _ _ _ _ _ => rfl, fun _ _ _ _ => rfl⟩
    intro a p
    rw [hcnt a p]
    rfl
  | cons it rest ih =>
    intro s evs hwf hm hcnt
    obtain ⟨a₀, p₀⟩ := it
    have hpos_in : 0 < inCount s.drawflow m id k a₀ p₀ := by
      rw [hcnt a₀ p₀, List.count_cons]
      simp
    have hpos : 0 < outCount s.drawflow m a₀ p₀ id k := by
      rw [hwf.mirror m a₀ p₀ id k]
      exact hpos_in
    have hma₀ : getModuleFromNodeId s a₀ = some m := peer_in_module hwf hpos
    obtain ⟨d₂, heq, hWF₂, hshape₂, houtδ, hinδ, hinV, houtV⟩ :=
      removeSingleConnection_spec hwf hma₀ hm hpos
    have hstep : ∀ a p, inCount d₂ m id k a p =
        rest.count ((a, p) : String × Nat) := by
      intro a p
      have h₁ := hinδ m id k a p
      have h₂ := hcnt a p
      by_cases hc : a = a₀ ∧ p = p₀
      · obtain ⟨rfl, rfl⟩ := hc
        rw [if_pos ⟨rfl, rfl, rfl, rfl, rfl⟩] at h₁
        rw [show List.count ((a, p) : String × Nat)
            (((a, p) : String × Nat) :: rest) =
            rest.count ((a, p) : String × Nat) + 1 from by
          simp [List.count_cons]] at h₂
        omega
      · rw [if_neg (fun hcc => hc ⟨hcc.2.2.2.1, hcc.2.2.2.2⟩)] at h₁
        have hbeq : ¬(((a₀, p₀) : String × Nat) = (a, p)) := by
          simp only [Prod.mk.injEq]
          rintro ⟨ha, hp⟩
          exact hc ⟨ha.symm, hp.symm⟩
        rw [show List.count ((a, p) : String × Nat)
            (((a₀, p₀) : String × Nat) :: rest) =
            rest.count ((a, p) : String × Nat) from by
          simp [List.count_cons, hbeq]] at h₂
        omega
    have hm₂ : getModuleFromNodeId { s with drawflow := d₂ } id = some m := by
      rw [@getModule_shape_congr { s with drawflow := d₂ } s hshape₂ id]
      exact hm
    obtain ⟨s₁, evs₁, hrun, hm₁, hframe₁, hWF₁, hshape₁, hzero₁, houtP,
      hinP, hinVP⟩ :=
      ih { s with drawflow := d₂ }
        (evs ++ [DFEvent.connectionRemoved a₀ id p₀ k]) hWF₂ hm₂ hstep
    refine ⟨s₁, evs₁, ?_, hm₁, ?_, hWF₁, hshape₁.trans hshape₂, hzero₁,
      ?_, ?_, ?_⟩
    · show cascadeIn id k s evs (((a₀, p₀) : String × Nat) :: rest) =
        some (s₁, evs₁)
      unfold cascadeIn
      rw [heq]
      dsimp only
      exact hrun
    · rw [hframe₁]
    · intro m₁ a₁ p₁ b₁ q₁ hno
      rw [houtP m₁ a₁ p₁ b₁ q₁ hno]
      dsimp only
      have h₁ := houtδ m₁ a₁ p₁ b₁ q₁
      rw [if_neg (fun hcc => hno ⟨hcc.1, hcc.2.2.2.1, hcc.2.2.2.2⟩)] at h₁
      omega
    · intro m₁ b₁ q₁ a₁ p₁ hno
      rw [hinP m₁ b₁ q₁ a₁ p₁ hno]
      dsimp only
      have h₁ := hinδ m₁ b₁ q₁ a₁ p₁
      rw [if_neg (fun hcc => hno ⟨hcc.1, hcc.2.1, hcc.2.2.1⟩)] at h₁
      omega
    · intro m₁ b₁ q₁ hno
      rw [hinVP m₁ b₁ q₁ hno]
      dsimp only
      exact hinV m₁ b₁ q₁ (fun hcc => hno ⟨hcc.1, hcc.2.1, hcc.2.2⟩)

theorem outPortGet_isSome_pres {d : DrawflowData} {m a : String} {p : Nat}
    {f : Port → Port} {d₁ : DrawflowData}
    (h : modifyOutPort d m a p f = some d₁) (m₁ a₁ : String) (p₁ : Nat) :
    (outPortGet d₁ m₁ a₁ p₁).isSome = (outPortGet d m₁ a₁ p₁).isSome := by
  by_cases hc : m₁ = m ∧ a₁ = a ∧ p₁ = p
  · obtain ⟨rfl, rfl, rfl⟩ := hc
    obtain ⟨prt, h₁, h₂⟩ := modifyOutPort_self h
    rw [h₁, h₂]
    rfl
  · rw [modifyOutPort_other h _ _ _ hc]

/-- The `nodeUpdates` rewrite pass of `removeNodeInput`: each listed
output port is re-pointed through `shiftRef` exactly once, other output
ports and every input port are untouched. -/
theorem rewriteOutRefs_spec {m id : String} {k : Nat} :
    ∀ (items : List ConnRef) (s : EditorState),
      (∀ c ∈ items, (outPortGet s.drawflow m c.node c.port).isSome) →
      (items.map (fun c => (c.node, c.port))).Nodup →
      ∃ s₁, rewriteOutRefs m id k s items = some s₁ ∧
        s₁ = { s with drawflow := s₁.drawflow } ∧
        dataShape s₁.drawflow = dataShape s.drawflow ∧
        (∀ c ∈ items, outConns s₁.drawflow m c.node c.port =
          (outConns s.drawflow m c.node c.port).map (shiftRef id k)) ∧
        (∀ m₁ a₁ p₁, (∀ c ∈ items, ¬(m₁ = m ∧ a₁ = c.node ∧ p₁ = c.port)) →
          outConns s₁.drawflow m₁ a₁ p₁ = outConns s.drawflow m₁ a₁ p₁) ∧
        (∀ m₁ b₁ q₁, inConns s₁.drawflow m₁ b₁ q₁ =
          inConns s.drawflow m₁ b₁ q₁) ∧
        (InPointsNone s.drawflow → InPointsNone s₁.drawflow) := by
  intro items
  induction items with
  | nil =>
    intro s hall hnd
    exact ⟨s, rfl, rfl, rfl, by simp, fun _ _ _ _ => rfl, fun _ _ _ => rfl,
      fun h => h⟩
  | cons c rest ih =>
    intro s hall hnd
    simp only [List.map_cons, List.nodup_cons] at hnd
    obtain ⟨d₁, hmo⟩ := Option.isSome_iff_exists.mp
      (modifyOutPort_isSome
        (fun prt => ⟨prt.connections.map (shiftRef id k)⟩)
        (hall c (List.mem_cons_self _ _)))
    obtain ⟨prt, hget, hold, hnew⟩ := outConns_modifyOutPort_self hmo
    have hpairs : ∀ c' ∈ rest, ¬(c.node = c'.node ∧ c.port = c'.port) := by
      intro c' hc' hcc
      exact hnd.1 (by
        rw [show ((c.node, c.port) : String × Nat) = (c'.node, c'.port) from by
          rw [hcc.1, hcc.2]]
        exact List.mem_map_of_mem _ hc')
    obtain ⟨s₁, hrun, hframe₁, hshape₁, hmap₁, hfr₁, hin₁, hpts₁⟩ :=
      ih { s with drawflow := d₁ }
        (fun c' hc' => by
          show (outPortGet d₁ m c'.node c'.port).isSome = true
          rw [outPortGet_isSome_pres hmo]
          exact hall c' (List.mem_cons_of_mem _ hc'))
        hnd.2
    refine ⟨s₁, ?_, ?_, hshape₁.trans (modifyOutPort_shape hmo), ?_, ?_, ?_,
      fun hp => hpts₁ (InPointsNone_modifyOutPort hp hmo)⟩
    · show rewriteOutRefs m id k s (c :: rest) = some s₁
      unfold rewriteOutRefs
      rw [hmo]
      dsimp only
      exact hrun
    · rw [hframe₁]
    · intro c' hc'
      rcases List.mem_cons.mp hc' with rfl | htl
      · rw [hfr₁ m c'.node c'.port (fun c'' hc'' hcc =>
          hpairs c'' hc'' ⟨hcc.2.1, hcc.2.2⟩)]
        dsimp only
        rw [hnew, hold]
      · rw [hmap₁ c' htl]
        dsimp only
        rw [outConns_modifyOutPort_other hmo m c'.node c'.port
          (fun hcc => hpairs c' htl ⟨hcc.2.1.symm, hcc.2.2.symm⟩)]
    · intro m₁ a₁ p₁ hno
      rw [hfr₁ m₁ a₁ p₁ (fun c'' hc'' => hno c'' (List.mem_cons_of_mem _ hc''))]
      dsimp only
      exact outConns_modifyOutPort_other hmo m₁ a₁ p₁
        (fun hcc => hno c (List.mem_cons_self _ _) ⟨hcc.1, hcc.2.1, hcc.2.2⟩)
    · intro m₁ b₁ q₁
      rw [hin₁ m₁ b₁ q₁]
      dsimp only
      exact inConns_modifyOutPort hmo m₁ b₁ q₁

/-- Disjoint predicates: counting a disjunction splits into a sum. -/
theorem countP_or_disjoint {β : Type} (p q : β → Bool) :
    ∀ (l : List β), (∀ a ∈ l, ¬(p a = true ∧ q a = true)) →
      l.countP (fun a => p a || q a) = l.countP p + l.countP q := by
  intro l
  induction l with
  | nil => intro _; rfl
  | cons a rest ih =>
    intro hd
    have hrest : ∀ x ∈ rest, ¬(p x = true ∧ q x = true) :=
      fun x hx => hd x (List.mem_cons_of_mem _ hx)
    simp only [List.countP_cons, ih hrest, Bool.or_eq_true]
    by_cases hp : p a = true
    · have hq : ¬(q a = true) := fun hq => hd a (List.mem_cons_self _ _) ⟨hp, hq⟩
      simp only [hp, hq, if_pos (Or.inl hp), if_pos trivial, if_neg hq]
      simp [hp, hq]
      omega
    · by_cases hq : q a = true
      · simp [hp, hq]
        omega
      · simp [hp, hq]

/-- Counting targets through the `shiftRef` renumbering: references to
`(id, k)` and `(id, k+1)` both land on `(id, k)`; higher references slide
down by one; others are untouched. -/
theorem countP_map_shift (id : String) (k : Nat) (l : List ConnRef)
    (b : String) (j : Nat) :
    (l.map (shiftRef id k)).countP (fun c => c.node = b ∧ c.port = j) =
      if b = id then
        (if j < k then l.countP (fun c => c.node = b ∧ c.port = j)
         else if j = k then
           l.countP (fun c => c.node = b ∧ c.port = k) +
             l.countP (fun c => c.node = b ∧ c.port = (k + 1))
         else l.countP (fun c => c.node = b ∧ c.port = (j + 1)))
      else l.countP (fun c => c.node = b ∧ c.port = j) := by
  rw [List.countP_map]
  by_cases hb : b = id
  · rw [if_pos hb]
    subst hb
    by_cases h₁ : j < k
    · rw [if_pos h₁]
      apply List.countP_congr
      intro c _
      simp only [Function.comp_apply, decide_eq_true_eq]
      unfold shiftRef
      by_cases hsp : c.node = b ∧ k < c.port
      · rw [if_pos hsp]
        obtain ⟨hcn, hck⟩ := hsp
        dsimp only
        constructor
        · rintro ⟨-, h₃⟩
          exact absurd h₃ (by omega)
        · rintro ⟨-, h₃⟩
          exact absurd h₃ (by omega)
      · rw [if_neg hsp]
    · rw [if_neg h₁]
      by_cases h₂ : j = k
      · rw [if_pos h₂, h₂]
        have hdisj : ∀ a ∈ l,
            ¬((decide (a.node = b ∧ a.port = k) : Bool) = true ∧
              (decide (a.node = b ∧ a.port = (k + 1)) : Bool) = true) := by
          intro a _
          simp only [decide_eq_true_eq]
          rintro ⟨⟨-, h₃⟩, ⟨-, h₄⟩⟩
          omega
        rw [← countP_or_disjoint _ _ l hdisj]
        apply List.countP_congr
        intro c _
        simp only [Function.comp_apply, Bool.or_eq_true, decide_eq_true_eq]
        unfold shiftRef
        by_cases hsp : c.node = b ∧ k < c.port
        · rw [if_pos hsp]
          obtain ⟨hcn, hck⟩ := hsp
          dsimp only
          constructor
          · rintro ⟨h₃, h₄⟩
            exact Or.inr ⟨h₃, by omega⟩
          · rintro (⟨h₃, h₄⟩ | ⟨h₃, h₄⟩)
            · exact absurd h₄ (by omega)
            · exact ⟨h₃, by omega⟩
        · rw [if_neg hsp]
          constructor
          · rintro ⟨h₃, h₄⟩
            exact Or.inl ⟨h₃, h₄⟩
          · rintro (⟨h₃, h₄⟩ | ⟨h₃, h₄⟩)
            · exact ⟨h₃, h₄⟩
            · exact absurd ⟨h₃, by omega⟩ hsp
      · rw [if_neg h₂]
        have hjk : k < j := by omega
        apply List.countP_congr
        intro c _
        simp only [Function.comp_apply, decide_eq_true_eq]
        unfold shiftRef
        by_cases hsp : c.node = b ∧ k < c.port
        · rw [if_pos hsp]
          obtain ⟨hcn, hck⟩ := hsp
          dsimp only
          constructor
          · rintro ⟨h₃, h₄⟩
            exact ⟨h₃, by omega⟩
          · rintro ⟨h₃, h₄⟩
            exact ⟨h₃, by omega⟩
        · rw [if_neg hsp]
          constructor
          · rintro ⟨h₃, h₄⟩
            exact absurd ⟨h₃, by omega⟩ hsp
          · rintro ⟨h₃, h₄⟩
            exact absurd ⟨h₃, by omega⟩ hsp
  · rw [if_neg hb]
    apply List.countP_congr
    intro c _
    simp only [Function.comp_apply, decide_eq_true_eq]
    unfold shiftRef
    by_cases hsp : c.node = id ∧ k < c.port
    · rw [if_pos hsp]
      dsimp only
      constructor
      · rintro ⟨h₃, h₄⟩
        exact absurd (h₃.symm.trans hsp.1) hb
      · rintro ⟨h₃, h₄⟩
        exact absurd (h₃.symm.trans hsp.1) hb
    · rw [if_neg hsp]


theorem mem_adel_of_ne {l : List (κ × α)} {k : κ} {x : κ × α}
    (hx : x ∈ l) (hne : x.1 ≠ k) : x ∈ adel l k := by
  induction l with
  | nil => simp at hx
  | cons hd tl ih =>
    obtain ⟨a, b⟩ := hd
    rcases List.mem_cons.mp hx with rfl | htl
    · have hak : ¬(a = k) := hne
      rw [show adel ((a, b) :: tl) k = (a, b) :: adel tl k from by
        simp [adel, hak]]
      exact List.mem_cons_self _ _
    · by_cases hh : a = k
      · rw [show adel ((a, b) :: tl) k = tl from by simp [adel, hh]]
        exact htl
      · rw [show adel ((a, b) :: tl) k = (a, b) :: adel tl k from by
          simp [adel, hh]]
        exact List.mem_cons_of_mem _ (ih htl)

/-- Membership through the accumulator loop of `List.eraseDups`. -/
theorem mem_eraseDups_loop {β : Type} [BEq β] [LawfulBEq β] :
    ∀ (as bs : List β) (x : β),
      x ∈ List.eraseDups.loop as bs ↔ x ∈ as ∨ x ∈ bs := by
  intro as
  induction as with
  | nil =>
    intro bs x
    show x ∈ bs.reverse ↔ x ∈ ([] : List β) ∨ x ∈ bs
    simp
  | cons a tl ih =>
    intro bs x
    rw [show List.eraseDups.loop (a :: tl) bs =
        (match List.elem a bs with
         | true => List.eraseDups.loop tl bs
         | false => List.eraseDups.loop tl (a :: bs)) from rfl]
    cases hel : List.elem a bs with
    | true =>
      have ha : a ∈ bs := List.mem_of_elem_eq_true hel
      rw [ih]
      simp only [List.mem_cons]
      constructor
      · rintro (h | h)
        · exact Or.inl (Or.inr h)
        · exact Or.inr h
      · rintro ((rfl | h) | h)
        · exact Or.inr ha
        · exact Or.inl h
        · exact Or.inr h
    | false =>
      rw [ih]
      simp only [List.mem_cons]
      tauto

/-- The accumulator loop of `List.eraseDups` preserves `Nodup`. -/
theorem nodup_eraseDups_loop {β : Type} [BEq β] [LawfulBEq β] :
    ∀ (as bs : List β), bs.Nodup → (List.eraseDups.loop as bs).Nodup := by
  intro as
  induction as with
  | nil =>
    intro bs h
    show bs.reverse.Nodup
    simpa using h
  | cons a tl ih =>
    intro bs h
    rw [show List.eraseDups.loop (a :: tl) bs =
        (match List.elem a bs with
         | true => List.eraseDups.loop tl bs
         | false => List.eraseDups.loop tl (a :: bs)) from rfl]
    cases hel : List.elem a bs with
    | true => exact ih bs h
    | false =>
      apply ih
      refine List.nodup_cons.mpr ⟨?_, h⟩
      intro hmem
      have := List.elem_eq_true_of_mem hmem
      rw [hel] at this
      exact Bool.false_ne_true this

theorem mem_eraseDups {β : Type} [BEq β] [LawfulBEq β] {l : List β} {x : β} :
    x ∈ l.eraseDups ↔ x ∈ l := by
  show x ∈ List.eraseDups.loop l [] ↔ x ∈ l
  rw [mem_eraseDups_loop]
  simp

theorem eraseDups_nodup {β : Type} [BEq β] [LawfulBEq β] (l : List β) :
    l.eraseDups.Nodup :=
  nodup_eraseDups_loop l [] List.nodup_nil

/-- A connection list whose reference counts are all zero is empty. -/
theorem conns_nil_of_countP {l : List ConnRef}
    (h : ∀ a p, l.countP (fun c => c.node = a ∧ c.port = p) = 0) :
    l = [] := by
  cases l with
  | nil => rfl
  | cons c rest =>
    exfalso
    have := h c.node c.port
    simp [List.countP_cons] at this

/-- Dropping the keys of the relabelled port map returns the underlying
values. -/
theorem enum_relabel_snd (vals : List α) :
    ((vals.enum.map (fun ip => (ip.1 + 1, ip.2))).map Prod.snd) = vals := by
  rw [List.map_map]
  rw [show (Prod.snd ∘ fun ip : Nat × α => (ip.1 + 1, ip.2)) =
    (Prod.snd : Nat × α → α) from rfl]
  exact List.enum_map_snd vals

/-- Replacing a node record while keeping the output side intact leaves
every output-port lookup unchanged. -/
theorem outPortGet_setNode {d : DrawflowData} {m : String} {md : ModuleData}
    {nid : String} {nd nd₁ : DFNode}
    (hmd : aget d.drawflow m = some md) (hnd : aget md.data nid = some nd)
    (hout : nd₁.outputs = nd.outputs) (m₁ a : String) (p : Nat) :
    outPortGet (⟨aset d.drawflow m ⟨aset md.data nid nd₁⟩⟩ : DrawflowData)
        m₁ a p = outPortGet d m₁ a p := by
  by_cases hm₁ : m₁ = m
  · subst hm₁
    show (match aget (aset d.drawflow m₁ ⟨aset md.data nid nd₁⟩) m₁ with
      | none => none
      | some md₂ =>
        match aget md₂.data a with
        | none => none
        | some nd₂ => aget nd₂.outputs p) = outPortGet d m₁ a p
    rw [aget_aset_self]
    dsimp only
    by_cases ha : a = nid
    · subst ha
      rw [aget_aset_self]
      dsimp only
      rw [hout]
      unfold outPortGet
      rw [hmd]
      dsimp only
      rw [hnd]
    · rw [aget_aset_ne _ _ ha]
      unfold outPortGet
      rw [hmd]
  · show (match aget (aset d.drawflow m ⟨aset md.data nid nd₁⟩) m₁ with
      | none => none
      | some md₂ =>
        match aget md₂.data a with
        | none => none
        | some nd₂ => aget nd₂.outputs p) = outPortGet d m₁ a p
    rw [aget_aset_ne _ _ hm₁]
    rfl

/-- Replacing a node record: input-port lookups read the new record at the
replaced node and are untouched elsewhere. -/
theorem inPortGet_setNode {d : DrawflowData} {m : String} {md : ModuleData}
    {nid : String} {nd₁ : DFNode}
    (hmd : aget d.drawflow m = some md) (m₁ b : String) (q : Nat) :
    inPortGet (⟨aset d.drawflow m ⟨aset md.data nid nd₁⟩⟩ : DrawflowData)
        m₁ b q =
      if m₁ = m ∧ b = nid then aget nd₁.inputs q else inPortGet d m₁ b q := by
  by_cases hm₁ : m₁ = m
  · subst hm₁
    show (match aget (aset d.drawflow m₁ ⟨aset md.data nid nd₁⟩) m₁ with
      | none => none
      | some md₂ =>
        match aget md₂.data b with
        | none => none
        | some nd₂ => aget nd₂.inputs q) =
      if m₁ = m₁ ∧ b = nid then aget nd₁.inputs q else inPortGet d m₁ b q
    rw [aget_aset_self]
    dsimp only
    by_cases hb : b = nid
    · subst hb
      rw [aget_aset_self, if_pos ⟨rfl, rfl⟩]
    · rw [aget_aset_ne _ _ hb, if_neg (fun hc => hb hc.2)]
      unfold inPortGet
      rw [hmd]
  · show (match aget (aset d.drawflow m ⟨aset md.data nid nd₁⟩) m₁ with
      | none => none
      | some md₂ =>
        match aget md₂.data b with
        | none => none
        | some nd₂ => aget nd₂.inputs q) =
      if m₁ = m ∧ b = nid then aget nd₁.inputs q else inPortGet d m₁ b q
    rw [aget_aset_ne _ _ hm₁, if_neg (fun hc => hm₁ hc.1)]
    rfl

/-- Replacing a node record with one whose input ports are drawn from the
old record keeps the no-waypoints property of input-side references. -/
theorem InPointsNone_setNode {d : DrawflowData} {m : String} {md : ModuleData}
    {nid : String} {nd nd₁ : DFNode}
    (hp : InPointsNone d) (hmd : aget d.drawflow m = some md)
    (hnd : aget md.data nid = some nd)
    (hsub : ∀ prt ∈ nd₁.inputs.map Prod.snd, prt ∈ nd.inputs.map Prod.snd) :
    InPointsNone (⟨aset d.drawflow m ⟨aset md.data nid nd₁⟩⟩ :
      DrawflowData) := by
  intro mp hmp np hnp qp hqp c hc
  rcases mem_of_mem_aset hmp with hold | hnew
  · exact hp mp hold np hnp qp hqp c hc
  · subst hnew
    rcases mem_of_mem_aset hnp with hold' | hnew'
    · exact hp (m, md) (aget_mem hmd) np hold' qp hqp c hc
    · subst hnew'
      have hqsnd : qp.2 ∈ nd.inputs.map Prod.snd :=
        hsub qp.2 (List.mem_map_of_mem Prod.snd hqp)
      obtain ⟨qp', hqp', hqeq⟩ := List.mem_map.mp hqsnd
      exact hp (m, md) (aget_mem hmd) (nid, nd) (aget_mem hnd) qp' hqp' c
        (by rw [hqeq]; exact hc)

/-- Replacing a node record with one whose input labels are again a dense
`1..N` sequence and whose outputs are unchanged preserves the skeleton
invariant. -/
theorem shapeWF_setNode {d : DrawflowData} {m : String} {md : ModuleData}
    {nid : String} {nd nd₁ : DFNode}
    (hwf : WF d) (hmd : aget d.drawflow m = some md)
    (hnd : aget md.data nid = some nd)
    (hkin : nd₁.inputs.map Prod.fst = List.range' 1 nd₁.inputs.length)
    (hout : nd₁.outputs = nd.outputs) :
    shapeWF (dataShape (⟨aset d.drawflow m ⟨aset md.data nid nd₁⟩⟩ :
      DrawflowData)) := by
  have transfer : ∀ x ∈ aset d.drawflow m
      (⟨aset md.data nid nd₁⟩ : ModuleData),
      ∃ z, z ∈ d.drawflow ∧ z.1 = x.1 ∧
        x.2.data.map Prod.fst = z.2.data.map Prod.fst ∧
        ∀ y ∈ x.2.data, y ∈ z.2.data ∨ (y = (nid, nd₁) ∧ z = (m, md)) := by
    intro x hx
    rcases mem_of_mem_aset hx with hold | hnew
    · exact ⟨x, hold, rfl, rfl, fun y hy => Or.inl hy⟩
    · subst hnew
      refine ⟨(m, md), aget_mem hmd, rfl, ?_, ?_⟩
      · exact aset_map_fst_of_mem nd₁
          (aget_isSome_iff.mp (by rw [hnd]; rfl))
      · intro y hy
        rcases mem_of_mem_aset hy with h | h
        · exact Or.inl h
        · exact Or.inr ⟨h, rfl⟩
  refine ⟨?_, ?_, ?_, ?_⟩
  · rw [dataShape_map_fst]
    show ((aset d.drawflow m ⟨aset md.data nid nd₁⟩).map Prod.fst).Nodup
    rw [aset_map_fst_of_mem _ (aget_isSome_iff.mp (by rw [hmd]; rfl))]
    have := hwf.shape.1
    rwa [dataShape_map_fst] at this
  · intro mp hmp
    obtain ⟨x, hx, rfl⟩ := List.mem_map.mp hmp
    rcases transfer x hx with ⟨z, hz, hzkey, hzfst, hzmem⟩
    dsimp only
    rw [show (x.2.data.map (fun np => (np.1, nodeShape np.2))).map Prod.fst =
      x.2.data.map Prod.fst from by rw [List.map_map]; rfl]
    rw [hzfst]
    exact hwf.nodeKeysNodup hz
  · intro mp₁ hmp₁ mp₂ hmp₂ np₁ hnp₁ np₂ hnp₂ hkeyeq
    obtain ⟨x₁, hx₁, rfl⟩ := List.mem_map.mp hmp₁
    obtain ⟨x₂, hx₂, rfl⟩ := List.mem_map.mp hmp₂
    obtain ⟨y₁, hy₁, rfl⟩ := List.mem_map.mp hnp₁
    obtain ⟨y₂, hy₂, rfl⟩ := List.mem_map.mp hnp₂
    rcases transfer x₁ hx₁ with ⟨z₁, hz₁, hz₁key, _, hz₁mem⟩
    rcases transfer x₂ hx₂ with ⟨z₂, hz₂, hz₂key, _, hz₂mem⟩
    dsimp only at hkeyeq ⊢
    rw [← hz₁key, ← hz₂key]
    have hw₁ : ∃ w₁ ∈ z₁.2.data, w₁.1 = y₁.1 := by
      rcases hz₁mem y₁ hy₁ with h | ⟨h, hzz⟩
      · exact ⟨y₁, h, rfl⟩
      · subst hzz
        exact ⟨(nid, nd), aget_mem hnd, by rw [h]⟩
    have hw₂ : ∃ w₂ ∈ z₂.2.data, w₂.1 = y₂.1 := by
      rcases hz₂mem y₂ hy₂ with h | ⟨h, hzz⟩
      · exact ⟨y₂, h, rfl⟩
      · subst hzz
        exact ⟨(nid, nd), aget_mem hnd, by rw [h]⟩
    obtain ⟨w₁, hw₁m, hw₁k⟩ := hw₁
    obtain ⟨w₂, hw₂m, hw₂k⟩ := hw₂
    exact hwf.nodeUnique hz₁ hz₂ hw₁m hw₂m
      (by rw [hw₁k, hw₂k]; exact hkeyeq)
  · intro mp hmp np hnp
    obtain ⟨x, hx, rfl⟩ := List.mem_map.mp hmp
    obtain ⟨y, hy, rfl⟩ := List.mem_map.mp hnp
    rcases transfer x hx with ⟨z, hz, hzkey, _, hzmem⟩
    rcases hzmem y hy with h | ⟨h, hzz⟩
    · have hcan := hwf.canonical hz h
      dsimp only
      unfold nodeShape
      constructor
      · rw [show (y.2.inputs.map Prod.fst).length = y.2.inputs.length from by
          rw [List.length_map]]
        exact hcan.1
      · rw [show (y.2.outputs.map Prod.fst).length = y.2.outputs.length from by
          rw [List.length_map]]
        exact hcan.2
    · subst h
      have hcan := hwf.canonical (aget_mem hmd)
        (aget_mem hnd : ((nid, nd) : String × DFNode) ∈ md.data)
      dsimp only at hcan ⊢
      unfold nodeShape
      constructor
      · rw [show (nd₁.inputs.map Prod.fst).length = nd₁.inputs.length from by
          rw [List.length_map]]
        exact hkin
      · rw [hout]
        rw [show (nd.outputs.map Prod.fst).length = nd.outputs.length from by
          rw [List.length_map]]
        exact hcan.2

/-- `removeNodeInput` on a node with dense input labels `1..N`: the
cascade empties port `k`, the surviving ports close ranks (labels stay
dense), each port's connection list moves down with its port, peer
output references are renumbered through `shiftRef`, and the store
invariant survives. -/
theorem removeNodeInput_spec {s : EditorState} {m : String} {md : ModuleData}
    {nd : DFNode} {id : String} {k N : Nat}
    (hwf : WF s.drawflow)
    (hm : getModuleFromNodeId s id = some m)
    (hmd : aget s.drawflow.drawflow m = some md)
    (hnd : aget md.data id = some nd)
    (hkeys : nd.inputs.map Prod.fst = List.range' 1 N)
    (hk1 : 1 ≤ k) (hkN : k ≤ N) :
    ∃ s₃ evs, removeNodeInput s id k = some (s₃, evs) ∧
      s₃.module = s.module ∧ s₃ = { s with drawflow := s₃.drawflow } ∧
      WF s₃.drawflow ∧
      (∀ md₃ nd₃, aget s₃.drawflow.drawflow m = some md₃ →
        aget md₃.data id = some nd₃ →
        nd₃.inputs.map Prod.fst = List.range' 1 (N - 1)) ∧
      (∀ j, inConns s₃.drawflow m id j =
        if 1 ≤ j ∧ j < k then inConns s.drawflow m id j
        else if k ≤ j ∧ j ≤ N - 1 then inConns s.drawflow m id (j + 1)
        else []) ∧
      (∀ m₁ b₁ q₁, ¬(m₁ = m ∧ b₁ = id) →
        inConns s₃.drawflow m₁ b₁ q₁ = inConns s.drawflow m₁ b₁ q₁) ∧
      (∀ a p j, outCount s₃.drawflow m a p id j =
        if 1 ≤ j ∧ j < k then outCount s.drawflow m a p id j
        else if k ≤ j ∧ j ≤ N - 1 then outCount s.drawflow m a p id (j + 1)
        else 0) ∧
      (∀ m₁ a₁ p₁ b₁ q₁, ¬(m₁ = m ∧ b₁ = id) →
        outCount s₃.drawflow m₁ a₁ p₁ b₁ q₁ =
          outCount s.drawflow m₁ a₁ p₁ b₁ q₁) := by
  have hNlen : nd.inputs.length = N := by
    have := congrArg List.length hkeys
    simpa using this
  have hksome : (aget nd.inputs k).isSome := by
    rw [aget_isSome_iff, hkeys, List.mem_range']
    exact ⟨k - 1, by omega, by omega⟩
  obtain ⟨remPort, hrem⟩ := Option.isSome_iff_exists.mp hksome
  have hgn : getNodeFromId s id = some nd := by
    unfold getNodeFromId
    rw [hm]
    dsimp only
    rw [hmd]
    dsimp only
    exact hnd
  have hinK : inConns s.drawflow m id k = remPort.connections := by
    unfold inConns
    rw [hmd]
    dsimp only
    rw [hnd]
    dsimp only
    rw [hrem]
  have hcnt : ∀ a p, inCount s.drawflow m id k a p =
      (remPort.connections.map (fun r => (r.node, r.port))).count
        ((a, p) : String × Nat) := by
    intro a p
    rw [inCount, hinK, count_map_pairs]
  obtain ⟨s₁, evs₁, hcas, hmod₁, hframe₁, hwf₁, hshape₁, hzero₁, houtP,
    hinP, hinVP⟩ :=
    cascadeIn_spec (remPort.connections.map (fun r => (r.node, r.port))) s []
      hwf hm hcnt
  have hkeysS : s₁.drawflow.drawflow.map Prod.fst =
      s.drawflow.drawflow.map Prod.fst := by
    rw [← dataShape_map_fst, hshape₁, dataShape_map_fst]
  have hmd₁s : (aget s₁.drawflow.drawflow m).isSome := by
    rw [aget_isSome_iff, hkeysS, ← aget_isSome_iff, hmd]
    rfl
  obtain ⟨md₁, hmd₁⟩ := Option.isSome_iff_exists.mp hmd₁s
  have hshape₁x : s₁.drawflow.drawflow.map (fun p =>
      (p.1, (fun mdl : ModuleData =>
        mdl.data.map (fun np => (np.1, nodeShape np.2))) p.2)) =
      s.drawflow.drawflow.map (fun p =>
      (p.1, (fun mdl : ModuleData =>
        mdl.data.map (fun np => (np.1, nodeShape np.2))) p.2)) := hshape₁
  have hgmd := @aget_map_congr String ModuleData instDecidableEqString _
    (fun mdl : ModuleData => mdl.data.map (fun np => (np.1, nodeShape np.2)))
    s₁.drawflow.drawflow s.drawflow.drawflow hshape₁x m md₁ md hmd₁ hmd
  have hnodekeys : md₁.data.map Prod.fst = md.data.map Prod.fst := by
    have hfst := congrArg (List.map Prod.fst) hgmd
    rwa [List.map_map, List.map_map] at hfst
  have hnd₁s : (aget md₁.data id).isSome := by
    rw [aget_isSome_iff, hnodekeys, ← aget_isSome_iff, hnd]
    rfl
  obtain ⟨nd₁, hnd₁⟩ := Option.isSome_iff_exists.mp hnd₁s
  have hns : nodeShape nd₁ = nodeShape nd :=
    @aget_map_congr String DFNode instDecidableEqString _ nodeShape
      md₁.data md.data hgmd id nd₁ nd hnd₁ hnd
  have hkeys₁ : nd₁.inputs.map Prod.fst = List.range' 1 N := by
    have hfst := congrArg Prod.fst hns
    unfold nodeShape at hfst
    dsimp only at hfst
    rw [hfst]
    exact hkeys
  have hN₁len : nd₁.inputs.length = N := by
    have := congrArg List.length hkeys₁
    simpa using this
  have hin₁ : ∀ j, inConns s₁.drawflow m id j =
      (match aget nd₁.inputs j with
       | none => []
       | some prt => prt.connections) := by
    intro j
    unfold inConns
    rw [hmd₁]
    dsimp only
    rw [hnd₁]
  have hport_none : ∀ j, ¬(1 ≤ j ∧ j ≤ N) →
      inConns s₁.drawflow m id j = [] := by
    intro j hj
    rw [hin₁ j]
    rcases hg : aget nd₁.inputs j with _ | prt
    · rfl
    · exfalso
      have hmem : j ∈ nd₁.inputs.map Prod.fst :=
        aget_isSome_iff.mp (by rw [hg]; rfl)
      rw [hkeys₁, List.mem_range'] at hmem
      obtain ⟨i, hi, hij⟩ := hmem
      omega
  have hrel : ∀ j, aget (relabelPorts nd₁.inputs k) j =
      if 1 ≤ j ∧ j < k then aget nd₁.inputs j
      else if k ≤ j ∧ j ≤ N - 1 then aget nd₁.inputs (j + 1)
      else none := relabel_of_adel nd₁.inputs N k hkeys₁ hk1 hkN
  have hlenc : ((adel nd₁.inputs k).map Prod.snd).length = N - 1 := by
    rw [adel_range' nd₁.inputs 1 N k hkeys₁ (by omega) (by omega)]
    rw [List.length_map, List.length_append, List.length_take,
      List.length_drop, hN₁len]
    omega
  have hrebkeys : (relabelPorts nd₁.inputs k).map Prod.fst =
      List.range' 1 (N - 1) := by
    rw [show (relabelPorts nd₁.inputs k).map Prod.fst =
      List.range' 1 ((adel nd₁.inputs k).map Prod.snd).length from
      enum_relabel_fst _]
    rw [hlenc]
  have hreblen : (relabelPorts nd₁.inputs k).length = N - 1 := by
    show ((((adel nd₁.inputs k).map Prod.snd).enum).map
      (fun ip => (ip.1 + 1, ip.2))).length = N - 1
    rw [List.length_map, List.enum_length]
    exact hlenc
  have hmd₁nd : (md₁.data.map Prod.fst).Nodup :=
    hwf₁.nodeKeysNodup (aget_mem hmd₁)
  have hnd₁keysnd : (nd₁.inputs.map Prod.fst).Nodup := by
    rw [hkeys₁]
    exact List.nodup_range' 1 N
  have hsub₂ : ∀ prt ∈ (setNodeInputs nd₁
      (relabelPorts nd₁.inputs k)).inputs.map Prod.snd,
      prt ∈ nd₁.inputs.map Prod.snd := by
    intro prt hprt
    rw [show (setNodeInputs nd₁ (relabelPorts nd₁.inputs k)).inputs =
      relabelPorts nd₁.inputs k from rfl] at hprt
    rw [show (relabelPorts nd₁.inputs k).map Prod.snd =
      (adel nd₁.inputs k).map Prod.snd from enum_relabel_snd _] at hprt
    obtain ⟨jp, hjp, rfl⟩ := List.mem_map.mp hprt
    exact List.mem_map_of_mem Prod.snd (mem_of_mem_adel hjp)
  have hpts₂ : InPointsNone (⟨aset s₁.drawflow.drawflow m ⟨aset md₁.data id (setNodeInputs nd₁ (relabelPorts nd₁.inputs k))⟩⟩ : DrawflowData) :=
    InPointsNone_setNode hwf₁.pts hmd₁ hnd₁ hsub₂
  have hshape₂ : shapeWF (dataShape (⟨aset s₁.drawflow.drawflow m ⟨aset md₁.data id (setNodeInputs nd₁ (relabelPorts nd₁.inputs k))⟩⟩ : DrawflowData)) :=
    shapeWF_setNode hwf₁ hmd₁ hnd₁ (by rw [show (setNodeInputs nd₁ (relabelPorts nd₁.inputs k)).inputs = relabelPorts nd₁.inputs k from rfl, hrebkeys, hreblen]) rfl
  have houtPG₂ : ∀ m₁ a p, outPortGet (⟨aset s₁.drawflow.drawflow m ⟨aset md₁.data id (setNodeInputs nd₁ (relabelPorts nd₁.inputs k))⟩⟩ : DrawflowData) m₁ a p =
      outPortGet s₁.drawflow m₁ a p :=
    fun m₁ a p => outPortGet_setNode hmd₁ hnd₁
      (rfl : (setNodeInputs nd₁ (relabelPorts nd₁.inputs k)).outputs =
        nd₁.outputs) m₁ a p
  have hinPG₂ : ∀ m₁ b q, inPortGet (⟨aset s₁.drawflow.drawflow m ⟨aset md₁.data id (setNodeInputs nd₁ (relabelPorts nd₁.inputs k))⟩⟩ : DrawflowData) m₁ b q =
      if m₁ = m ∧ b = id then aget (relabelPorts nd₁.inputs k) q
      else inPortGet s₁.drawflow m₁ b q :=
    fun m₁ b q => inPortGet_setNode hmd₁ m₁ b q
  have houtC₂ : ∀ m₁ a p, outConns (⟨aset s₁.drawflow.drawflow m ⟨aset md₁.data id (setNodeInputs nd₁ (relabelPorts nd₁.inputs k))⟩⟩ : DrawflowData) m₁ a p =
      outConns s₁.drawflow m₁ a p := by
    intro m₁ a p
    rw [outConns_eq, outConns_eq, houtPG₂]
  have hinC₂ : ∀ m₁ b q, inConns (⟨aset s₁.drawflow.drawflow m ⟨aset md₁.data id (setNodeInputs nd₁ (relabelPorts nd₁.inputs k))⟩⟩ : DrawflowData) m₁ b q =
      if m₁ = m ∧ b = id then
        (match aget (relabelPorts nd₁.inputs k) q with
         | none => []
         | some prt => prt.connections)
      else inConns s₁.drawflow m₁ b q := by
    intro m₁ b q
    rw [inConns_eq, hinPG₂]
    by_cases hc : m₁ = m ∧ b = id
    · rw [if_pos hc, if_pos hc]
      rcases aget (relabelPorts nd₁.inputs k) q with _ | prt
      · rfl
      · rfl
    · rw [if_neg hc, if_neg hc, ← inConns_eq]
  have hinID₂ : ∀ j, inConns (⟨aset s₁.drawflow.drawflow m ⟨aset md₁.data id (setNodeInputs nd₁ (relabelPorts nd₁.inputs k))⟩⟩ : DrawflowData) m id j =
      if 1 ≤ j ∧ j < k then inConns s₁.drawflow m id j
      else if k ≤ j ∧ j ≤ N - 1 then inConns s₁.drawflow m id (j + 1)
      else [] := by
    intro j
    rw [hinC₂, if_pos ⟨rfl, rfl⟩, hrel j]
    by_cases h₁ : 1 ≤ j ∧ j < k
    · rw [if_pos h₁, if_pos h₁, hin₁ j]
    · rw [if_neg h₁, if_neg h₁]
      by_cases h₂ : k ≤ j ∧ j ≤ N - 1
      · rw [if_pos h₂, if_pos h₂, hin₁ (j + 1)]
      · rw [if_neg h₂, if_neg h₂]
  have hitem_mem : ∀ c ∈ (((((adel nd₁.inputs k).map Prod.snd).map
      Port.connections).flatten).eraseDups : List ConnRef),
      ∃ j prt, (j, prt) ∈ nd₁.inputs ∧ c ∈ prt.connections := by
    intro c hc
    obtain ⟨l', hl', hcl'⟩ := List.mem_flatten.mp (mem_eraseDups.mp hc)
    obtain ⟨prt, hprt, rfl⟩ := List.mem_map.mp hl'
    obtain ⟨jp, hjp, rfl⟩ := List.mem_map.mp hprt
    exact ⟨jp.1, jp.2, mem_of_mem_adel hjp, hcl'⟩
  have hptsnone : ∀ c ∈ (((((adel nd₁.inputs k).map Prod.snd).map
      Port.connections).flatten).eraseDups : List ConnRef),
      c.points = none := by
    intro c hc
    obtain ⟨j, prt, hjp, hcin⟩ := hitem_mem c hc
    exact hwf₁.pts (m, md₁) (aget_mem hmd₁) (id, nd₁) (aget_mem hnd₁)
      (j, prt) hjp c hcin
  have hnodupPairs : ((((((adel nd₁.inputs k).map Prod.snd).map
      Port.connections).flatten).eraseDups : List ConnRef).map
      (fun c => (c.node, c.port))).Nodup := by
    apply List.Nodup.map_on ?_ (eraseDups_nodup _)
    intro c₁ h₁ c₂ h₂ hpair
    have hp₁ := hptsnone c₁ h₁
    have hp₂ := hptsnone c₂ h₂
    obtain ⟨n₁, p₁, pts₁⟩ := c₁
    obtain ⟨n₂, p₂, pts₂⟩ := c₂
    simp only [Prod.mk.injEq] at hpair
    dsimp only at hp₁ hp₂
    rw [hpair.1, hpair.2, hp₁, hp₂]
  have hinCount_mem : ∀ c ∈ (((((adel nd₁.inputs k).map Prod.snd).map
      Port.connections).flatten).eraseDups : List ConnRef),
      ∃ j, 0 < inCount s₁.drawflow m id j c.node c.port := by
    intro c hc
    obtain ⟨j, prt, hjp, hcin⟩ := hitem_mem c hc
    refine ⟨j, ?_⟩
    rw [inCount, hin₁ j, mem_aget_of_nodup hnd₁keysnd hjp]
    dsimp only
    apply List.countP_pos_iff.mpr
    exact ⟨c, hcin, by simp⟩
  have hall : ∀ c ∈ (((((adel nd₁.inputs k).map Prod.snd).map
      Port.connections).flatten).eraseDups : List ConnRef),
      (outPortGet (⟨aset s₁.drawflow.drawflow m ⟨aset md₁.data id (setNodeInputs nd₁ (relabelPorts nd₁.inputs k))⟩⟩ : DrawflowData) m c.node c.port).isSome := by
    intro c hc
    rw [houtPG₂]
    obtain ⟨j, hpos⟩ := hinCount_mem c hc
    have hposO : 0 < outCount s₁.drawflow m c.node c.port id j := by
      rw [hwf₁.mirror m c.node c.port id j]
      exact hpos
    exact outPortGet_isSome_of_pos hposO
  obtain ⟨s₃', hrun₃, hframe₃, hshape₃, hmap₃, hfr₃, hinV₃, hpts₃⟩ :=
    rewriteOutRefs_spec
      (((((adel nd₁.inputs k).map Prod.snd).map
        Port.connections).flatten).eraseDups : List ConnRef)
      { s₁ with drawflow := (⟨aset s₁.drawflow.drawflow m ⟨aset md₁.data id (setNodeInputs nd₁ (relabelPorts nd₁.inputs k))⟩⟩ : DrawflowData) }
      hall hnodupPairs
  have hzk : ∀ a p, outCount s₁.drawflow m a p id k = 0 := by
    intro a p
    rw [hwf₁.mirror m a p id k]
    exact hzero₁ a p
  have hout_of_range : ∀ a p j, ¬(1 ≤ j ∧ j ≤ N) →
      outCount s₁.drawflow m a p id j = 0 := by
    intro a p j hj
    rw [hwf₁.mirror m a p id j, inCount, hport_none j hj]
    rfl
  have hcomplete : ∀ b qb j, 1 ≤ j → j ≤ N → j ≠ k →
      0 < inCount s₁.drawflow m id j b qb →
      (⟨b, qb, none⟩ : ConnRef) ∈ (((((adel nd₁.inputs k).map Prod.snd).map
        Port.connections).flatten).eraseDups : List ConnRef) := by
    intro b qb j hj1 hjN hjk hpos
    have hsome : (aget nd₁.inputs j).isSome := by
      rw [aget_isSome_iff, hkeys₁, List.mem_range']
      exact ⟨j - 1, by omega, by omega⟩
    obtain ⟨prt, hprt⟩ := Option.isSome_iff_exists.mp hsome
    rw [inCount, hin₁ j, hprt] at hpos
    dsimp only at hpos
    obtain ⟨c, hcmem, hcpred⟩ := List.countP_pos_iff.mp hpos
    simp only [decide_eq_true_eq] at hcpred
    have hcpts : c.points = none :=
      hwf₁.pts (m, md₁) (aget_mem hmd₁) (id, nd₁) (aget_mem hnd₁)
        (j, prt) (aget_mem hprt) c hcmem
    have hc : c = ⟨b, qb, none⟩ := by
      obtain ⟨cn, cp, cpts⟩ := c
      dsimp only at hcpred hcpts
      rw [hcpred.1, hcpred.2, hcpts]
    apply mem_eraseDups.mpr
    apply List.mem_flatten.mpr
    refine ⟨prt.connections, ?_, by rw [← hc]; exact hcmem⟩
    apply List.mem_map_of_mem Port.connections
    exact List.mem_map_of_mem Prod.snd
      (mem_adel_of_ne (aget_mem hprt) hjk)
  have houtD : ∀ a₁ p₁ b₁ q₁, outCount s₃'.drawflow m a₁ p₁ b₁ q₁ =
      if b₁ = id then
        (if 1 ≤ q₁ ∧ q₁ < k then outCount s₁.drawflow m a₁ p₁ id q₁
         else if k ≤ q₁ ∧ q₁ ≤ N - 1 then
           outCount s₁.drawflow m a₁ p₁ id (q₁ + 1)
         else 0)
      else outCount s₁.drawflow m a₁ p₁ b₁ q₁ := by
    intro a₁ p₁ b₁ q₁
    by_cases hmem : ((a₁, p₁) : String × Nat) ∈
        ((((((adel nd₁.inputs k).map Prod.snd).map
          Port.connections).flatten).eraseDups : List ConnRef)).map
          (fun c => (c.node, c.port))
    · obtain ⟨c, hcitems, hcpair⟩ := List.mem_map.mp hmem
      simp only [Prod.mk.injEq] at hcpair
      have hval := hmap₃ c hcitems
      rw [hcpair.1, hcpair.2] at hval
      dsimp only at hval
      rw [houtC₂] at hval
      rw [outCount, hval, countP_map_shift]
      by_cases hb : b₁ = id
      · rw [if_pos hb, if_pos hb, hb]
        by_cases h₁ : q₁ < k
        · rw [if_pos h₁]
          by_cases h₁' : 1 ≤ q₁
          · rw [if_pos ⟨h₁', h₁⟩]
            rfl
          · rw [if_neg (fun hcc => h₁' hcc.1),
              if_neg (by omega : ¬(k ≤ q₁ ∧ q₁ ≤ N - 1))]
            have h0 : outCount s₁.drawflow m a₁ p₁ id q₁ = 0 :=
              hout_of_range a₁ p₁ q₁ (by omega)
            rw [outCount] at h0
            exact h0
        · rw [if_neg h₁]
          by_cases h₂ : q₁ = k
          · subst q₁
            rw [if_pos rfl, if_neg (by omega : ¬(1 ≤ k ∧ k < k))]
            have h0 := hzk a₁ p₁
            rw [outCount] at h0
            rw [h0]
            by_cases h₃ : k ≤ N - 1
            · rw [if_pos ⟨le_refl k, h₃⟩, Nat.zero_add]
              rfl
            · rw [if_neg (fun hcc => h₃ hcc.2)]
              have h0' := hout_of_range a₁ p₁ (k + 1) (by omega)
              rw [outCount] at h0'
              rw [h0']
          · rw [if_neg h₂, if_neg (by omega : ¬(1 ≤ q₁ ∧ q₁ < k))]
            by_cases h₃ : q₁ ≤ N - 1
            · rw [if_pos ⟨by omega, h₃⟩]
              rfl
            · rw [if_neg (fun hcc => h₃ hcc.2)]
              have h0' := hout_of_range a₁ p₁ (q₁ + 1) (by omega)
              rw [outCount] at h0'
              exact h0'
      · rw [if_neg hb, if_neg hb]
        rfl
    · have hval : outConns s₃'.drawflow m a₁ p₁ =
          outConns s₁.drawflow m a₁ p₁ := by
        rw [hfr₃ m a₁ p₁ (fun c hc hcc => hmem (by
          rw [hcc.2.1, hcc.2.2]
          exact List.mem_map_of_mem _ hc))]
        dsimp only
        rw [houtC₂]
      rw [outCount, hval]
      by_cases hb : b₁ = id
      · rw [if_pos hb, hb]
        have hz : ∀ j, outCount s₁.drawflow m a₁ p₁ id j = 0 := by
          intro j
          by_cases hrange : 1 ≤ j ∧ j ≤ N
          · by_cases hjk : j = k
            · subst j
              exact hzk a₁ p₁
            · by_contra hne
              have hpos : 0 < outCount s₁.drawflow m a₁ p₁ id j := by
                omega
              rw [hwf₁.mirror m a₁ p₁ id j] at hpos
              exact hmem (List.mem_map_of_mem _
                (hcomplete a₁ p₁ j hrange.1 hrange.2 hjk hpos))
          · exact hout_of_range a₁ p₁ j hrange
        have hzq := hz q₁
        rw [outCount] at hzq
        rw [hzq]
        by_cases h₁ : 1 ≤ q₁ ∧ q₁ < k
        · rw [if_pos h₁, hz q₁]
        · rw [if_neg h₁]
          by_cases h₂ : k ≤ q₁ ∧ q₁ ≤ N - 1
          · rw [if_pos h₂, hz (q₁ + 1)]
          · rw [if_neg h₂]
      · rw [if_neg hb]
        rfl
  have hinD : ∀ b₁ q₁, inConns s₃'.drawflow m b₁ q₁ =
      if b₁ = id then
        (if 1 ≤ q₁ ∧ q₁ < k then inConns s₁.drawflow m id q₁
         else if k ≤ q₁ ∧ q₁ ≤ N - 1 then inConns s₁.drawflow m id (q₁ + 1)
         else [])
      else inConns s₁.drawflow m b₁ q₁ := by
    intro b₁ q₁
    rw [hinV₃ m b₁ q₁]
    dsimp only
    by_cases hb : b₁ = id
    · rw [if_pos hb, hb]
      exact hinID₂ q₁
    · rw [if_neg hb, hinC₂, if_neg (fun hc => hb hc.2)]
  have hinOther : ∀ m₁ b₁ q₁, m₁ ≠ m →
      inConns s₃'.drawflow m₁ b₁ q₁ = inConns s₁.drawflow m₁ b₁ q₁ := by
    intro m₁ b₁ q₁ hm₁
    rw [hinV₃ m₁ b₁ q₁]
    dsimp only
    rw [hinC₂, if_neg (fun hc => hm₁ hc.1)]
  have houtOther : ∀ m₁ a₁ p₁, m₁ ≠ m →
      outConns s₃'.drawflow m₁ a₁ p₁ = outConns s₁.drawflow m₁ a₁ p₁ := by
    intro m₁ a₁ p₁ hm₁
    rw [hfr₃ m₁ a₁ p₁ (fun c hc hcc => hm₁ hcc.1)]
    dsimp only
    rw [houtC₂]
  have hwf₃ : WF s₃'.drawflow := by
    refine ⟨?_, hpts₃ hpts₂, ?_, ?_⟩
    · rw [hshape₃]
      exact hshape₂
    · intro m₁ a₁ p₁ b₁ q₁
      by_cases hm₁ : m₁ = m
      · subst m₁
        rw [houtD, inCount, hinD]
        by_cases hb : b₁ = id
        · rw [if_pos hb, if_pos hb]
          by_cases h₁ : 1 ≤ q₁ ∧ q₁ < k
          · rw [if_pos h₁, if_pos h₁]
            exact hwf₁.mirror m a₁ p₁ id q₁
          · rw [if_neg h₁, if_neg h₁]
            by_cases h₂ : k ≤ q₁ ∧ q₁ ≤ N - 1
            · rw [if_pos h₂, if_pos h₂]
              exact hwf₁.mirror m a₁ p₁ id (q₁ + 1)
            · rw [if_neg h₂, if_neg h₂]
              rfl
        · rw [if_neg hb, if_neg hb]
          exact hwf₁.mirror m a₁ p₁ b₁ q₁
      · rw [outCount, inCount, houtOther m₁ a₁ p₁ hm₁,
          hinOther m₁ b₁ q₁ hm₁]
        exact hwf₁.mirror m₁ a₁ p₁ b₁ q₁
    · intro m₁ a₁ p₁ b₁ q₁
      by_cases hm₁ : m₁ = m
      · subst m₁
        rw [houtD]
        by_cases hb : b₁ = id
        · rw [if_pos hb]
          by_cases h₁ : 1 ≤ q₁ ∧ q₁ < k
          · rw [if_pos h₁]
            exact hwf₁.nodup m a₁ p₁ id q₁
          · rw [if_neg h₁]
            by_cases h₂ : k ≤ q₁ ∧ q₁ ≤ N - 1
            · rw [if_pos h₂]
              exact hwf₁.nodup m a₁ p₁ id (q₁ + 1)
            · rw [if_neg h₂]
              omega
        · rw [if_neg hb]
          exact hwf₁.nodup m a₁ p₁ b₁ q₁
      · rw [outCount, houtOther m₁ a₁ p₁ hm₁]
        exact hwf₁.nodup m₁ a₁ p₁ b₁ q₁
  refine ⟨s₃', evs₁, ?_, ?_, ?_, hwf₃, ?_, ?_, ?_, ?_, ?_⟩
  · unfold removeNodeInput
    rw [hgn]
    dsimp only
    rw [hrem]
    dsimp only
    rw [hcas]
    dsimp only
    rw [hm]
    dsimp only
    rw [hmd₁]
    dsimp only
    rw [hnd₁]
    dsimp only
    show (rewriteOutRefs m id k { s₁ with drawflow := (⟨aset s₁.drawflow.drawflow m ⟨aset md₁.data id (setNodeInputs nd₁ (relabelPorts nd₁.inputs k))⟩⟩ : DrawflowData) } (((((adel nd₁.inputs k).map Prod.snd).map Port.connections).flatten).eraseDups : List ConnRef)).map
        (fun st => (st, evs₁)) = some (s₃', evs₁)
    rw [hrun₃]
    rfl
  · rw [hframe₃]
    dsimp only
    exact hmod₁
  · rw [hframe₃]
    dsimp only
    rw [show ({ s with drawflow := s₃'.drawflow } : EditorState) =
      { s₁ with drawflow := s₃'.drawflow } from by rw [hframe₁]]
  · intro md₃ nd₃ hmd₃ hnd₃
    have hmd₂' : aget (aset s₁.drawflow.drawflow m ⟨aset md₁.data id (setNodeInputs nd₁ (relabelPorts nd₁.inputs k))⟩) m =
        some (⟨aset md₁.data id (setNodeInputs nd₁ (relabelPorts nd₁.inputs k))⟩ : ModuleData) :=
      aget_aset_self _ _ _
    have hnd₂' : aget (aset md₁.data id (setNodeInputs nd₁ (relabelPorts nd₁.inputs k))) id =
        some (setNodeInputs nd₁ (relabelPorts nd₁.inputs k)) :=
      aget_aset_self _ _ _
    have hshape₃x : s₃'.drawflow.drawflow.map (fun p =>
        (p.1, (fun mdl : ModuleData =>
          mdl.data.map (fun np => (np.1, nodeShape np.2))) p.2)) =
        (aset s₁.drawflow.drawflow m ⟨aset md₁.data id (setNodeInputs nd₁ (relabelPorts nd₁.inputs k))⟩).map (fun p =>
        (p.1, (fun mdl : ModuleData =>
          mdl.data.map (fun np => (np.1, nodeShape np.2))) p.2)) := hshape₃
    have hgmd₃ := @aget_map_congr String ModuleData instDecidableEqString _
      (fun mdl : ModuleData => mdl.data.map (fun np => (np.1, nodeShape np.2)))
      s₃'.drawflow.drawflow _ hshape₃x m md₃ _ hmd₃ hmd₂'
    have hns₃ : nodeShape nd₃ =
        nodeShape (setNodeInputs nd₁ (relabelPorts nd₁.inputs k)) :=
      @aget_map_congr String DFNode instDecidableEqString _ nodeShape
        md₃.data _ hgmd₃ id nd₃ _ hnd₃ hnd₂'
    have hfst := congrArg Prod.fst hns₃
    unfold nodeShape at hfst
    dsimp only at hfst
    rw [hfst]
    exact hrebkeys
  · intro j
    have hj := hinD id j
    rw [if_pos rfl] at hj
    rw [hj]
    by_cases h₁ : 1 ≤ j ∧ j < k
    · rw [if_pos h₁, if_pos h₁]
      exact hinVP m id j (fun hcc => by omega)
    · rw [if_neg h₁, if_neg h₁]
      by_cases h₂ : k ≤ j ∧ j ≤ N - 1
      · rw [if_pos h₂, if_pos h₂]
        exact hinVP m id (j + 1) (fun hcc => by omega)
      · rw [if_neg h₂, if_neg h₂]
  · intro m₁ b₁ q₁ hno
    by_cases hm₁ : m₁ = m
    · subst m₁
      have hb : b₁ ≠ id := fun hc => hno ⟨rfl, hc⟩
      rw [hinD, if_neg hb]
      exact hinVP m b₁ q₁ (fun hcc => hb hcc.2.1)
    · rw [hinOther m₁ b₁ q₁ hm₁]
      exact hinVP m₁ b₁ q₁ (fun hcc => hm₁ hcc.1)
  · intro a p j
    rw [houtD, if_pos rfl]
    by_cases h₁ : 1 ≤ j ∧ j < k
    · rw [if_pos h₁, if_pos h₁]
      exact houtP m a p id j (fun hcc => by omega)
    · rw [if_neg h₁, if_neg h₁]
      by_cases h₂ : k ≤ j ∧ j ≤ N - 1
      · rw [if_pos h₂, if_pos h₂]
        exact houtP m a p id (j + 1) (fun hcc => by omega)
      · rw [if_neg h₂, if_neg h₂]
  · intro m₁ a₁ p₁ b₁ q₁ hno
    by_cases hm₁ : m₁ = m
    · subst m₁
      have hb : b₁ ≠ id := fun hc => hno ⟨rfl, hc⟩
      rw [houtD, if_neg hb]
      exact houtP m a₁ p₁ b₁ q₁ (fun hcc => hb hcc.2.1)
    · rw [outCount, houtOther m₁ a₁ p₁ hm₁]
      exact houtP m₁ a₁ p₁ b₁ q₁ (fun hcc => hm₁ hcc.1)


theorem peer_in_module_in {s : EditorState} {m b : String} {q : Nat}
    {a : String} {p : Nat} (hwf : WF s.drawflow)
    (hpos : 0 < inCount s.drawflow m b q a p) :
    getModuleFromNodeId s b = some m := by
  have hne : inConns s.drawflow m b q ≠ [] := by
    intro hnil
    rw [inCount, hnil] at hpos
    simp at hpos
  obtain ⟨md, nd, prt, hmd, hnd, hprt, _⟩ := inConns_to_members hne
  exact getModule_unique hwf hmd (List.mem_map_of_mem Prod.fst hnd)

theorem inPortGet_isSome_pres {d : DrawflowData} {m b : String} {q : Nat}
    {f : Port → Port} {d₁ : DrawflowData}
    (h : modifyInPort d m b q f = some d₁) (m₁ b₁ : String) (q₁ : Nat) :
    (inPortGet d₁ m₁ b₁ q₁).isSome = (inPortGet d m₁ b₁ q₁).isSome := by
  by_cases hc : m₁ = m ∧ b₁ = b ∧ q₁ = q
  · obtain ⟨rfl, rfl, rfl⟩ := hc
    obtain ⟨prt, h₁, h₂⟩ := modifyInPort_self h
    rw [h₁, h₂]
    rfl
  · rw [modifyInPort_other h _ _ _ hc]

theorem shiftRef_points (id : String) (k : Nat) (c : ConnRef) :
    (shiftRef id k c).points = c.points := by
  unfold shiftRef
  split
  · rfl
  · rfl

/-- Replacing a node record while keeping the input side intact leaves
every input-port lookup unchanged. -/
theorem inPortGet_setNodeOut {d : DrawflowData} {m : String}
    {md : ModuleData} {nid : String} {nd nd₁ : DFNode}
    (hmd : aget d.drawflow m = some md) (hnd : aget md.data nid = some nd)
    (hin : nd₁.inputs = nd.inputs) (m₁ b : String) (q : Nat) :
    inPortGet (⟨aset d.drawflow m ⟨aset md.data nid nd₁⟩⟩ : DrawflowData)
        m₁ b q = inPortGet d m₁ b q := by
  by_cases hm₁ : m₁ = m
  · subst hm₁
    show (match aget (aset d.drawflow m₁ ⟨aset md.data nid nd₁⟩) m₁ with
      | none => none
      | some md₂ =>
        match aget md₂.data b with
        | none => none
        | some nd₂ => aget nd₂.inputs q) = inPortGet d m₁ b q
    rw [aget_aset_self]
    dsimp only
    by_cases hb : b = nid
    · subst hb
      rw [aget_aset_self]
      dsimp only
      rw [hin]
      unfold inPortGet
      rw [hmd]
      dsimp only
      rw [hnd]
    · rw [aget_aset_ne _ _ hb]
      unfold inPortGet
      rw [hmd]
  · show (match aget (aset d.drawflow m ⟨aset md.data nid nd₁⟩) m₁ with
      | none => none
      | some md₂ =>
        match aget md₂.data b with
        | none => none
        | some nd₂ => aget nd₂.inputs q) = inPortGet d m₁ b q
    rw [aget_aset_ne _ _ hm₁]
    rfl

/-- Replacing a node record: output-port lookups read the new record at
the replaced node and are untouched elsewhere. -/
theorem outPortGet_setNodeOut {d : DrawflowData} {m : String}
    {md : ModuleData} {nid : String} {nd₁ : DFNode}
    (hmd : aget d.drawflow m = some md) (m₁ a : String) (p : Nat) :
    outPortGet (⟨aset d.drawflow m ⟨aset md.data nid nd₁⟩⟩ : DrawflowData)
        m₁ a p =
      if m₁ = m ∧ a = nid then aget nd₁.outputs p
      else outPortGet d m₁ a p := by
  by_cases hm₁ : m₁ = m
  · subst hm₁
    show (match aget (aset d.drawflow m₁ ⟨aset md.data nid nd₁⟩) m₁ with
      | none => none
      | some md₂ =>
        match aget md₂.data a with
        | none => none
        | some nd₂ => aget nd₂.outputs p) =
      if m₁ = m₁ ∧ a = nid then aget nd₁.outputs p else outPortGet d m₁ a p
    rw [aget_aset_self]
    dsimp only
    by_cases ha : a = nid
    · subst ha
      rw [aget_aset_self, if_pos ⟨rfl, rfl⟩]
    · rw [aget_aset_ne _ _ ha, if_neg (fun hc => ha hc.2)]
      unfold outPortGet
      rw [hmd]
  · show (match aget (aset d.drawflow m ⟨aset md.data nid nd₁⟩) m₁ with
      | none => none
      | some md₂ =>
        match aget md₂.data a with
        | none => none
        | some nd₂ => aget nd₂.outputs p) =
      if m₁ = m ∧ a = nid then aget nd₁.outputs p else outPortGet d m₁ a p
    rw [aget_aset_ne _ _ hm₁, if_neg (fun hc => hm₁ hc.1)]
    rfl

/-- Replacing a node record with one whose output labels are again a
dense `1..N` sequence and whose inputs are unchanged preserves the
skeleton invariant. -/
theorem shapeWF_setNodeOut {d : DrawflowData} {m : String} {md : ModuleData}
    {nid : String} {nd nd₁ : DFNode}
    (hwf : WF d) (hmd : aget d.drawflow m = some md)
    (hnd : aget md.data nid = some nd)
    (hkout : nd₁.outputs.map Prod.fst = List.range' 1 nd₁.outputs.length)
    (hin : nd₁.inputs = nd.inputs) :
    shapeWF (dataShape (⟨aset d.drawflow m ⟨aset md.data nid nd₁⟩⟩ :
      DrawflowData)) := by
  have transfer : ∀ x ∈ aset d.drawflow m
      (⟨aset md.data nid nd₁⟩ : ModuleData),
      ∃ z, z ∈ d.drawflow ∧ z.1 = x.1 ∧
        x.2.data.map Prod.fst = z.2.data.map Prod.fst ∧
        ∀ y ∈ x.2.data, y ∈ z.2.data ∨ (y = (nid, nd₁) ∧ z = (m, md)) := by
    intro x hx
    rcases mem_of_mem_aset hx with hold | hnew
    · exact ⟨x, hold, rfl, rfl, fun y hy => Or.inl hy⟩
    · subst hnew
      refine ⟨(m, md), aget_mem hmd, rfl, ?_, ?_⟩
      · exact aset_map_fst_of_mem nd₁
          (aget_isSome_iff.mp (by rw [hnd]; rfl))
      · intro y hy
        rcases mem_of_mem_aset hy with h | h
        · exact Or.inl h
        · exact Or.inr ⟨h, rfl⟩
  refine ⟨?_, ?_, ?_, ?_⟩
  · rw [dataShape_map_fst]
    show ((aset d.drawflow m ⟨aset md.data nid nd₁⟩).map Prod.fst).Nodup
    rw [aset_map_fst_of_mem _ (aget_isSome_iff.mp (by rw [hmd]; rfl))]
    have := hwf.shape.1
    rwa [dataShape_map_fst] at this
  · intro mp hmp
    obtain ⟨x, hx, rfl⟩ := List.mem_map.mp hmp
    rcases transfer x hx with ⟨z, hz, hzkey, hzfst, hzmem⟩
    dsimp only
    rw [show (x.2.data.map (fun np => (np.1, nodeShape np.2))).map Prod.fst =
      x.2.data.map Prod.fst from by rw [List.map_map]; rfl]
    rw [hzfst]
    exact hwf.nodeKeysNodup hz
  · intro mp₁ hmp₁ mp₂ hmp₂ np₁ hnp₁ np₂ hnp₂ hkeyeq
    obtain ⟨x₁, hx₁, rfl⟩ := List.mem_map.mp hmp₁
    obtain ⟨x₂, hx₂, rfl⟩ := List.mem_map.mp hmp₂
    obtain ⟨y₁, hy₁, rfl⟩ := List.mem_map.mp hnp₁
    obtain ⟨y₂, hy₂, rfl⟩ := List.mem_map.mp hnp₂
    rcases transfer x₁ hx₁ with ⟨z₁, hz₁, hz₁key, _, hz₁mem⟩
    rcases transfer x₂ hx₂ with ⟨z₂, hz₂, hz₂key, _, hz₂mem⟩
    dsimp only at hkeyeq ⊢
    rw [← hz₁key, ← hz₂key]
    have hw₁ : ∃ w₁ ∈ z₁.2.data, w₁.1 = y₁.1 := by
      rcases hz₁mem y₁ hy₁ with h | ⟨h, hzz⟩
      · exact ⟨y₁, h, rfl⟩
      · subst hzz
        exact ⟨(nid, nd), aget_mem hnd, by rw [h]⟩
    have hw₂ : ∃ w₂ ∈ z₂.2.data, w₂.1 = y₂.1 := by
      rcases hz₂mem y₂ hy₂ with h | ⟨h, hzz⟩
      · exact ⟨y₂, h, rfl⟩
      · subst hzz
        exact ⟨(nid, nd), aget_mem hnd, by rw [h]⟩
    obtain ⟨w₁, hw₁m, hw₁k⟩ := hw₁
    obtain ⟨w₂, hw₂m, hw₂k⟩ := hw₂
    exact hwf.nodeUnique hz₁ hz₂ hw₁m hw₂m
      (by rw [hw₁k, hw₂k]; exact hkeyeq)
  · intro mp hmp np hnp
    obtain ⟨x, hx, rfl⟩ := List.mem_map.mp hmp
    obtain ⟨y, hy, rfl⟩ := List.mem_map.mp hnp
    rcases transfer x hx with ⟨z, hz, hzkey, _, hzmem⟩
    rcases hzmem y hy with h | ⟨h, hzz⟩
    · have hcan := hwf.canonical hz h
      dsimp only
      unfold nodeShape
      constructor
      · rw [show (y.2.inputs.map Prod.fst).length = y.2.inputs.length from by
          rw [List.length_map]]
        exact hcan.1
      · rw [show (y.2.outputs.map Prod.fst).length = y.2.outputs.length from by
          rw [List.length_map]]
        exact hcan.2
    · subst h
      have hcan := hwf.canonical (aget_mem hmd)
        (aget_mem hnd : ((nid, nd) : String × DFNode) ∈ md.data)
      dsimp only at hcan ⊢
      unfold nodeShape
      constructor
      · rw [hin]
        rw [show (nd.inputs.map Prod.fst).length = nd.inputs.length from by
          rw [List.length_map]]
        exact hcan.1
      · rw [show (nd₁.outputs.map Prod.fst).length = nd₁.outputs.length from by
          rw [List.length_map]]
        exact hkout

/-- The cascade of `removeNodeOutput`: one `removeSingleConnection` per
reference collected from the removed output port. -/
theorem cascadeOut_spec {id : String} {k : Nat} {m : String} :
    ∀ (items : List (String × Nat)) (s : EditorState) (evs : List DFEvent),
      WF s.drawflow →
      getModuleFromNodeId s id = some m →
      (∀ b q, outCount s.drawflow m id k b q =
        items.count ((b, q) : String × Nat)) →
      ∃ s₁ evs₁, cascadeOut id k s evs items = some (s₁, evs₁) ∧
        s₁.module = s.module ∧ s₁ = { s with drawflow := s₁.drawflow } ∧
        WF s₁.drawflow ∧ dataShape s₁.drawflow = dataShape s.drawflow ∧
        (∀ b q, outCount s₁.drawflow m id k b q = 0) ∧
        (∀ m₁ b₁ q₁ a₁ p₁, ¬(m₁ = m ∧ a₁ = id ∧ p₁ = k) →
          inCount s₁.drawflow m₁ b₁ q₁ a₁ p₁ =
            inCount s.drawflow m₁ b₁ q₁ a₁ p₁) ∧
        (∀ m₁ a₁ p₁ b₁ q₁, ¬(m₁ = m ∧ a₁ = id ∧ p₁ = k) →
          outCount s₁.drawflow m₁ a₁ p₁ b₁ q₁ =
            outCount s.drawflow m₁ a₁ p₁ b₁ q₁) ∧
        (∀ m₁ a₁ p₁, ¬(m₁ = m ∧ a₁ = id ∧ p₁ = k) →
          outConns s₁.drawflow m₁ a₁ p₁ = outConns s.drawflow m₁ a₁ p₁) := by
  intro items
  induction items with
  | nil =>
    intro s evs hwf hm hcnt
    refine ⟨s, evs, rfl, rfl, rfl, hwf, rfl, ?_, fun _ _ _ _ _ _ => rfl,
      fun _ _ _ _ _ _ => rfl, fun _ _ _ _ => rfl⟩
    intro b q
    rw [hcnt b q]
    rfl
  | cons it rest ih =>
    intro s evs hwf hm hcnt
    obtain ⟨b₀, q₀⟩ := it
    have hpos : 0 < outCount s.drawflow m id k b₀ q₀ := by
      rw [hcnt b₀ q₀, List.count_cons]
      simp
    have hpos_in : 0 < inCount s.drawflow m b₀ q₀ id k := by
      rw [← hwf.mirror m id k b₀ q₀]
      exact hpos
    have hmb₀ : getModuleFromNodeId s b₀ = some m :=
      peer_in_module_in hwf hpos_in
    obtain ⟨d₂, heq, hWF₂, hshape₂, houtδ, hinδ, hinV, houtV⟩ :=
      removeSingleConnection_spec hwf hm hmb₀ hpos
    have hstep : ∀ b q, outCount d₂ m id k b q =
        rest.count ((b, q) : String × Nat) := by
      intro b q
      have h₁ := houtδ m id k b q
      have h₂ := hcnt b q
      by_cases hc : b = b₀ ∧ q = q₀
      · obtain ⟨rfl, rfl⟩ := hc
        rw [if_pos ⟨rfl, rfl, rfl, rfl, rfl⟩] at h₁
        rw [show List.count ((b, q) : String × Nat)
            (((b, q) : String × Nat) :: rest) =
            rest.count ((b, q) : String × Nat) + 1 from by
          simp [List.count_cons]] at h₂
        omega
      · rw [if_neg (fun hcc => hc ⟨hcc.2.2.2.1, hcc.2.2.2.2⟩)] at h₁
        have hbeq : ¬(((b₀, q₀) : String × Nat) = (b, q)) := by
          simp only [Prod.mk.injEq]
          rintro ⟨hb, hq⟩
          exact hc ⟨hb.symm, hq.symm⟩
        rw [show List.count ((b, q) : String × Nat)
            (((b₀, q₀) : String × Nat) :: rest) =
            rest.count ((b, q) : String × Nat) from by
          simp [List.count_cons, hbeq]] at h₂
        omega
    have hm₂ : getModuleFromNodeId { s with drawflow := d₂ } id = some m := by
      rw [@getModule_shape_congr { s with drawflow := d₂ } s hshape₂ id]
      exact hm
    obtain ⟨s₁, evs₁, hrun, hm₁, hframe₁, hWF₁, hshape₁, hzero₁, hinP,
      houtP, houtVP⟩ :=
      ih { s with drawflow := d₂ }
        (evs ++ [DFEvent.connectionRemoved id b₀ k q₀]) hWF₂ hm₂ hstep
    refine ⟨s₁, evs₁, ?_, hm₁, ?_, hWF₁, hshape₁.trans hshape₂, hzero₁,
      ?_, ?_, ?_⟩
    · show cascadeOut id k s evs (((b₀, q₀) : String × Nat) :: rest) =
        some (s₁, evs₁)
      unfold cascadeOut
      rw [heq]
      dsimp only
      exact hrun
    · rw [hframe₁]
    · intro m₁ b₁ q₁ a₁ p₁ hno
      rw [hinP m₁ b₁ q₁ a₁ p₁ hno]
      dsimp only
      have h₁ := hinδ m₁ b₁ q₁ a₁ p₁
      rw [if_neg (fun hcc => hno ⟨hcc.1, hcc.2.2.2.1, hcc.2.2.2.2⟩)] at h₁
      omega
    · intro m₁ a₁ p₁ b₁ q₁ hno
      rw [houtP m₁ a₁ p₁ b₁ q₁ hno]
      dsimp only
      have h₁ := houtδ m₁ a₁ p₁ b₁ q₁
      rw [if_neg (fun hcc => hno ⟨hcc.1, hcc.2.1, hcc.2.2.1⟩)] at h₁
      omega
    · intro m₁ a₁ p₁ hno
      rw [houtVP m₁ a₁ p₁ hno]
      dsimp only
      exact houtV m₁ a₁ p₁ (fun hcc => hno ⟨hcc.1, hcc.2.1, hcc.2.2⟩)

/-- The `nodeUpdates` rewrite pass of `removeNodeOutput`: each listed
input port is re-pointed through `shiftRef` exactly once, other input
ports and every output port are untouched. -/
theorem rewriteInRefs_spec {m id : String} {k : Nat} :
    ∀ (items : List (String × Nat)) (s : EditorState),
      (∀ it ∈ items, (inPortGet s.drawflow m it.1 it.2).isSome) →
      items.Nodup →
      ∃ s₁, rewriteInRefs m id k s items = some s₁ ∧
        s₁ = { s with drawflow := s₁.drawflow } ∧
        dataShape s₁.drawflow = dataShape s.drawflow ∧
        (∀ it ∈ items, inConns s₁.drawflow m it.1 it.2 =
          (inConns s.drawflow m it.1 it.2).map (shiftRef id k)) ∧
        (∀ m₁ b₁ q₁, (∀ it ∈ items, ¬(m₁ = m ∧ b₁ = it.1 ∧ q₁ = it.2)) →
          inConns s₁.drawflow m₁ b₁ q₁ = inConns s.drawflow m₁ b₁ q₁) ∧
        (∀ m₁ a₁ p₁, outConns s₁.drawflow m₁ a₁ p₁ =
          outConns s.drawflow m₁ a₁ p₁) ∧
        (InPointsNone s.drawflow → InPointsNone s₁.drawflow) := by
  intro items
  induction items with
  | nil =>
    intro s hall hnd
    exact ⟨s, rfl, rfl, rfl, by simp, fun _ _ _ _ => rfl, fun _ _ _ => rfl,
      fun h => h⟩
  | cons it rest ih =>
    intro s hall hnd
    rw [List.nodup_cons] at hnd
    obtain ⟨d₁, hmo⟩ := Option.isSome_iff_exists.mp
      (modifyInPort_isSome
        (fun prt => ⟨prt.connections.map (shiftRef id k)⟩)
        (hall it (List.mem_cons_self _ _)))
    obtain ⟨prt, hget, hold, hnew⟩ := inConns_modifyInPort_self hmo
    have hpairs : ∀ it' ∈ rest, ¬(it.1 = it'.1 ∧ it.2 = it'.2) := by
      intro it' hit' hcc
      apply hnd.1
      rw [show it = it' from Prod.ext hcc.1 hcc.2]
      exact hit'
    obtain ⟨s₁, hrun, hframe₁, hshape₁, hmap₁, hfr₁, hout₁, hpts₁⟩ :=
      ih { s with drawflow := d₁ }
        (fun it' hit' => by
          show (inPortGet d₁ m it'.1 it'.2).isSome = true
          rw [inPortGet_isSome_pres hmo]
          exact hall it' (List.mem_cons_of_mem _ hit'))
        hnd.2
    have hfpts : ∀ prt : Port,
        (∀ c ∈ prt.connections, c.points = none) →
        ∀ c ∈ ((fun prt : Port =>
          (⟨prt.connections.map (shiftRef id k)⟩ : Port)) prt).connections,
          c.points = none := by
      intro prt hprt c hc
      obtain ⟨c', hc', rfl⟩ := List.mem_map.mp hc
      rw [shiftRef_points]
      exact hprt c' hc'
    refine ⟨s₁, ?_, ?_, hshape₁.trans (modifyInPort_shape hmo), ?_, ?_, ?_,
      fun hp => hpts₁ (InPointsNone_modifyInPort hp hfpts hmo)⟩
    · show rewriteInRefs m id k s (it :: rest) = some s₁
      unfold rewriteInRefs
      rw [hmo]
      dsimp only
      exact hrun
    · rw [hframe₁]
    · intro it' hit'
      rcases List.mem_cons.mp hit' with rfl | htl
      · rw [hfr₁ m it'.1 it'.2 (fun it'' hit'' hcc =>
          hpairs it'' hit'' ⟨hcc.2.1, hcc.2.2⟩)]
        dsimp only
        rw [hnew, hold]
      · rw [hmap₁ it' htl]
        dsimp only
        rw [inConns_modifyInPort_other hmo m it'.1 it'.2
          (fun hcc => hpairs it' htl ⟨hcc.2.1.symm, hcc.2.2.symm⟩)]
    · intro m₁ b₁ q₁ hno
      rw [hfr₁ m₁ b₁ q₁ (fun it'' hit'' => hno it'' (List.mem_cons_of_mem _ hit''))]
      dsimp only
      exact inConns_modifyInPort_other hmo m₁ b₁ q₁
        (fun hcc => hno it (List.mem_cons_self _ _) ⟨hcc.1, hcc.2.1, hcc.2.2⟩)
    · intro m₁ a₁ p₁
      rw [hout₁ m₁ a₁ p₁]
      dsimp only
      exact outConns_modifyInPort hmo m₁ a₁ p₁

/-- `removeNodeOutput` on a node with dense output labels `1..N`: the
output-side mirror of `removeNodeInput_spec`. -/
theorem removeNodeOutput_spec {s : EditorState} {m : String} {md : ModuleData}
    {nd : DFNode} {id : String} {k N : Nat}
    (hwf : WF s.drawflow)
    (hm : getModuleFromNodeId s id = some m)
    (hmd : aget s.drawflow.drawflow m = some md)
    (hnd : aget md.data id = some nd)
    (hkeys : nd.outputs.map Prod.fst = List.range' 1 N)
    (hk1 : 1 ≤ k) (hkN : k ≤ N) :
    ∃ s₃ evs, removeNodeOutput s id k = some (s₃, evs) ∧
      s₃.module = s.module ∧ s₃ = { s with drawflow := s₃.drawflow } ∧
      WF s₃.drawflow ∧
      (∀ md₃ nd₃, aget s₃.drawflow.drawflow m = some md₃ →
        aget md₃.data id = some nd₃ →
        nd₃.outputs.map Prod.fst = List.range' 1 (N - 1)) ∧
      (∀ j, outConns s₃.drawflow m id j =
        if 1 ≤ j ∧ j < k then outConns s.drawflow m id j
        else if k ≤ j ∧ j ≤ N - 1 then outConns s.drawflow m id (j + 1)
        else []) ∧
      (∀ m₁ a₁ p₁, ¬(m₁ = m ∧ a₁ = id) →
        outConns s₃.drawflow m₁ a₁ p₁ = outConns s.drawflow m₁ a₁ p₁) ∧
      (∀ b q j, inCount s₃.drawflow m b q id j =
        if 1 ≤ j ∧ j < k then inCount s.drawflow m b q id j
        else if k ≤ j ∧ j ≤ N - 1 then inCount s.drawflow m b q id (j + 1)
        else 0) ∧
      (∀ m₁ b₁ q₁ a₁ p₁, ¬(m₁ = m ∧ a₁ = id) →
        inCount s₃.drawflow m₁ b₁ q₁ a₁ p₁ =
          inCount s.drawflow m₁ b₁ q₁ a₁ p₁) := by
  have hNlen : nd.outputs.length = N := by
    have := congrArg List.length hkeys
    simpa using this
  have hksome : (aget nd.outputs k).isSome := by
    rw [aget_isSome_iff, hkeys, List.mem_range']
    exact ⟨k - 1, by omega, by omega⟩
  obtain ⟨remPort, hrem⟩ := Option.isSome_iff_exists.mp hksome
  have hgn : getNodeFromId s id = some nd := by
    unfold getNodeFromId
    rw [hm]
    dsimp only
    rw [hmd]
    dsimp only
    exact hnd
  have houtK : outConns s.drawflow m id k = remPort.connections := by
    unfold outConns
    rw [hmd]
    dsimp only
    rw [hnd]
    dsimp only
    rw [hrem]
  have hcnt : ∀ b q, outCount s.drawflow m id k b q =
      (remPort.connections.map (fun r => (r.node, r.port))).count
        ((b, q) : String × Nat) := by
    intro b q
    rw [outCount, houtK, count_map_pairs]
  obtain ⟨s₁, evs₁, hcas, hmod₁, hframe₁, hwf₁, hshape₁, hzero₁, hinP,
    houtP, houtVP⟩ :=
    cascadeOut_spec (remPort.connections.map (fun r => (r.node, r.port))) s []
      hwf hm hcnt
  have hkeysS : s₁.drawflow.drawflow.map Prod.fst =
      s.drawflow.drawflow.map Prod.fst := by
    rw [← dataShape_map_fst, hshape₁, dataShape_map_fst]
  have hmd₁s : (aget s₁.drawflow.drawflow m).isSome := by
    rw [aget_isSome_iff, hkeysS, ← aget_isSome_iff, hmd]
    rfl
  obtain ⟨md₁, hmd₁⟩ := Option.isSome_iff_exists.mp hmd₁s
  have hshape₁x : s₁.drawflow.drawflow.map (fun p =>
      (p.1, (fun mdl : ModuleData =>
        mdl.data.map (fun np => (np.1, nodeShape np.2))) p.2)) =
      s.drawflow.drawflow.map (fun p =>
      (p.1, (fun mdl : ModuleData =>
        mdl.data.map (fun np => (np.1, nodeShape np.2))) p.2)) := hshape₁
  have hgmd := @aget_map_congr String ModuleData instDecidableEqString _
    (fun mdl : ModuleData => mdl.data.map (fun np => (np.1, nodeShape np.2)))
    s₁.drawflow.drawflow s.drawflow.drawflow hshape₁x m md₁ md hmd₁ hmd
  have hnodekeys : md₁.data.map Prod.fst = md.data.map Prod.fst := by
    have hfst := congrArg (List.map Prod.fst) hgmd
    rwa [List.map_map, List.map_map] at hfst
  have hnd₁s : (aget md₁.data id).isSome := by
    rw [aget_isSome_iff, hnodekeys, ← aget_isSome_iff, hnd]
    rfl
  obtain ⟨nd₁, hnd₁⟩ := Option.isSome_iff_exists.mp hnd₁s
  have hns : nodeShape nd₁ = nodeShape nd :=
    @aget_map_congr String DFNode instDecidableEqString _ nodeShape
      md₁.data md.data hgmd id nd₁ nd hnd₁ hnd
  have hkeys₁ : nd₁.outputs.map Prod.fst = List.range' 1 N := by
    have hsnd := congrArg Prod.snd hns
    unfold nodeShape at hsnd
    dsimp only at hsnd
    rw [hsnd]
    exact hkeys
  have hN₁len : nd₁.outputs.length = N := by
    have := congrArg List.length hkeys₁
    simpa using this
  have hout₁ : ∀ j, outConns s₁.drawflow m id j =
      (match aget nd₁.outputs j with
       | none => []
       | some prt => prt.connections) := by
    intro j
    unfold outConns
    rw [hmd₁]
    dsimp only
    rw [hnd₁]
  have hport_none : ∀ j, ¬(1 ≤ j ∧ j ≤ N) →
      outConns s₁.drawflow m id j = [] := by
    intro j hj
    rw [hout₁ j]
    rcases hg : aget nd₁.outputs j with _ | prt
    · rfl
    · exfalso
      have hmem : j ∈ nd₁.outputs.map Prod.fst :=
        aget_isSome_iff.mp (by rw [hg]; rfl)
      rw [hkeys₁, List.mem_range'] at hmem
      obtain ⟨i, hi, hij⟩ := hmem
      omega
  have hrel : ∀ j, aget (relabelPorts nd₁.outputs k) j =
      if 1 ≤ j ∧ j < k then aget nd₁.outputs j
      else if k ≤ j ∧ j ≤ N - 1 then aget nd₁.outputs (j + 1)
      else none := relabel_of_adel nd₁.outputs N k hkeys₁ hk1 hkN
  have hlenc : ((adel nd₁.outputs k).map Prod.snd).length = N - 1 := by
    rw [adel_range' nd₁.outputs 1 N k hkeys₁ (by omega) (by omega)]
    rw [List.length_map, List.length_append, List.length_take,
      List.length_drop, hN₁len]
    omega
  have hrebkeys : (relabelPorts nd₁.outputs k).map Prod.fst =
      List.range' 1 (N - 1) := by
    rw [show (relabelPorts nd₁.outputs k).map Prod.fst =
      List.range' 1 ((adel nd₁.outputs k).map Prod.snd).length from
      enum_relabel_fst _]
    rw [hlenc]
  have hreblen : (relabelPorts nd₁.outputs k).length = N - 1 := by
    show ((((adel nd₁.outputs k).map Prod.snd).enum).map
      (fun ip => (ip.1 + 1, ip.2))).length = N - 1
    rw [List.length_map, List.enum_length]
    exact hlenc
  have hmd₁nd : (md₁.data.map Prod.fst).Nodup :=
    hwf₁.nodeKeysNodup (aget_mem hmd₁)
  have hnd₁keysnd : (nd₁.outputs.map Prod.fst).Nodup := by
    rw [hkeys₁]
    exact List.nodup_range' 1 N
  have hsub₂ : ∀ prt ∈ (setNodeOutputs nd₁
      (relabelPorts nd₁.outputs k)).inputs.map Prod.snd,
      prt ∈ nd₁.inputs.map Prod.snd := fun prt h => h
  have hpts₂ : InPointsNone (⟨aset s₁.drawflow.drawflow m ⟨aset md₁.data id (setNodeOutputs nd₁ (relabelPorts nd₁.outputs k))⟩⟩ : DrawflowData) :=
    InPointsNone_setNode hwf₁.pts hmd₁ hnd₁ hsub₂
  have hshape₂ : shapeWF (dataShape (⟨aset s₁.drawflow.drawflow m ⟨aset md₁.data id (setNodeOutputs nd₁ (relabelPorts nd₁.outputs k))⟩⟩ : DrawflowData)) :=
    shapeWF_setNodeOut hwf₁ hmd₁ hnd₁ (by rw [show (setNodeOutputs nd₁ (relabelPorts nd₁.outputs k)).outputs = relabelPorts nd₁.outputs k from rfl, hrebkeys, hreblen]) rfl
  have hinPG₂ : ∀ m₁ b q, inPortGet (⟨aset s₁.drawflow.drawflow m ⟨aset md₁.data id (setNodeOutputs nd₁ (relabelPorts nd₁.outputs k))⟩⟩ : DrawflowData) m₁ b q =
      inPortGet s₁.drawflow m₁ b q :=
    fun m₁ b q => inPortGet_setNodeOut hmd₁ hnd₁
      (rfl : (setNodeOutputs nd₁ (relabelPorts nd₁.outputs k)).inputs =
        nd₁.inputs) m₁ b q
  have houtPG₂ : ∀ m₁ a p, outPortGet (⟨aset s₁.drawflow.drawflow m ⟨aset md₁.data id (setNodeOutputs nd₁ (relabelPorts nd₁.outputs k))⟩⟩ : DrawflowData) m₁ a p =
      if m₁ = m ∧ a = id then aget (relabelPorts nd₁.outputs k) p
      else outPortGet s₁.drawflow m₁ a p :=
    fun m₁ a p => outPortGet_setNodeOut hmd₁ m₁ a p
  have hinC₂ : ∀ m₁ b q, inConns (⟨aset s₁.drawflow.drawflow m ⟨aset md₁.data id (setNodeOutputs nd₁ (relabelPorts nd₁.outputs k))⟩⟩ : DrawflowData) m₁ b q =
      inConns s₁.drawflow m₁ b q := by
    intro m₁ b q
    rw [inConns_eq, inConns_eq, hinPG₂]
  have houtC₂ : ∀ m₁ a p, outConns (⟨aset s₁.drawflow.drawflow m ⟨aset md₁.data id (setNodeOutputs nd₁ (relabelPorts nd₁.outputs k))⟩⟩ : DrawflowData) m₁ a p =
      if m₁ = m ∧ a = id then
        (match aget (relabelPorts nd₁.outputs k) p with
         | none => []
         | some prt => prt.connections)
      else outConns s₁.drawflow m₁ a p := by
    intro m₁ a p
    rw [outConns_eq, houtPG₂]
    by_cases hc : m₁ = m ∧ a = id
    · rw [if_pos hc, if_pos hc]
      rcases aget (relabelPorts nd₁.outputs k) p with _ | prt
      · rfl
      · rfl
    · rw [if_neg hc, if_neg hc, ← outConns_eq]
  have houtID₂ : ∀ j, outConns (⟨aset s₁.drawflow.drawflow m ⟨aset md₁.data id (setNodeOutputs nd₁ (relabelPorts nd₁.outputs k))⟩⟩ : DrawflowData) m id j =
      if 1 ≤ j ∧ j < k then outConns s₁.drawflow m id j
      else if k ≤ j ∧ j ≤ N - 1 then outConns s₁.drawflow m id (j + 1)
      else [] := by
    intro j
    rw [houtC₂, if_pos ⟨rfl, rfl⟩, hrel j]
    by_cases h₁ : 1 ≤ j ∧ j < k
    · rw [if_pos h₁, if_pos h₁, hout₁ j]
    · rw [if_neg h₁, if_neg h₁]
      by_cases h₂ : k ≤ j ∧ j ≤ N - 1
      · rw [if_pos h₂, if_pos h₂, hout₁ (j + 1)]
      · rw [if_neg h₂, if_neg h₂]
  have hitem_mem : ∀ it ∈ (((((((adel nd₁.outputs k).map Prod.snd).map
      Port.connections).flatten).map (fun r => (r.node, r.port))).eraseDups :
      List (String × Nat))),
      ∃ j prt c, (j, prt) ∈ nd₁.outputs ∧ c ∈ prt.connections ∧
        (c.node, c.port) = it := by
    intro it hit
    obtain ⟨c, hcmem, hcpair⟩ := List.mem_map.mp (mem_eraseDups.mp hit)
    obtain ⟨l', hl', hcl'⟩ := List.mem_flatten.mp hcmem
    obtain ⟨prt, hprt, rfl⟩ := List.mem_map.mp hl'
    obtain ⟨jp, hjp, rfl⟩ := List.mem_map.mp hprt
    exact ⟨jp.1, jp.2, c, mem_of_mem_adel hjp, hcl', hcpair⟩
  have hnodupPairs : ((((((adel nd₁.outputs k).map Prod.snd).map
      Port.connections).flatten).map (fun r => (r.node, r.port))).eraseDups :
      List (String × Nat)).Nodup := eraseDups_nodup _
  have hall : ∀ it ∈ (((((((adel nd₁.outputs k).map Prod.snd).map
      Port.connections).flatten).map (fun r => (r.node, r.port))).eraseDups :
      List (String × Nat))),
      (inPortGet (⟨aset s₁.drawflow.drawflow m ⟨aset md₁.data id (setNodeOutputs nd₁ (relabelPorts nd₁.outputs k))⟩⟩ : DrawflowData) m it.1 it.2).isSome := by
    intro it hit
    rw [hinPG₂]
    obtain ⟨j, prt, c, hjp, hcin, hcpair⟩ := hitem_mem it hit
    have hposO : 0 < outCount s₁.drawflow m id j c.node c.port := by
      rw [outCount, hout₁ j, mem_aget_of_nodup hnd₁keysnd hjp]
      dsimp only
      apply List.countP_pos_iff.mpr
      exact ⟨c, hcin, by simp⟩
    have hposI : 0 < inCount s₁.drawflow m c.node c.port id j := by
      rw [← hwf₁.mirror m id j c.node c.port]
      exact hposO
    have hpair₁ : c.node = it.1 := congrArg Prod.fst hcpair
    have hpair₂ : c.port = it.2 := congrArg Prod.snd hcpair
    rw [← hpair₁, ← hpair₂]
    exact inPortGet_isSome_of_pos hposI
  obtain ⟨s₃', hrun₃, hframe₃, hshape₃, hmap₃, hfr₃, houtV₃, hpts₃⟩ :=
    rewriteInRefs_spec
      (((((((adel nd₁.outputs k).map Prod.snd).map
        Port.connections).flatten).map (fun r => (r.node, r.port))).eraseDups :
        List (String × Nat)))
      { s₁ with drawflow := (⟨aset s₁.drawflow.drawflow m ⟨aset md₁.data id (setNodeOutputs nd₁ (relabelPorts nd₁.outputs k))⟩⟩ : DrawflowData) }
      hall hnodupPairs
  have hzk : ∀ b q, inCount s₁.drawflow m b q id k = 0 := by
    intro b q
    rw [← hwf₁.mirror m id k b q]
    exact hzero₁ b q
  have hin_of_range : ∀ b q j, ¬(1 ≤ j ∧ j ≤ N) →
      inCount s₁.drawflow m b q id j = 0 := by
    intro b q j hj
    rw [← hwf₁.mirror m id j b q, outCount, hport_none j hj]
    rfl
  have hcomplete : ∀ b qb j, 1 ≤ j → j ≤ N → j ≠ k →
      0 < outCount s₁.drawflow m id j b qb →
      ((b, qb) : String × Nat) ∈ (((((((adel nd₁.outputs k).map Prod.snd).map
        Port.connections).flatten).map (fun r => (r.node, r.port))).eraseDups :
        List (String × Nat))) := by
    intro b qb j hj1 hjN hjk hpos
    have hsome : (aget nd₁.outputs j).isSome := by
      rw [aget_isSome_iff, hkeys₁, List.mem_range']
      exact ⟨j - 1, by omega, by omega⟩
    obtain ⟨prt, hprt⟩ := Option.isSome_iff_exists.mp hsome
    rw [outCount, hout₁ j, hprt] at hpos
    dsimp only at hpos
    obtain ⟨c, hcmem, hcpred⟩ := List.countP_pos_iff.mp hpos
    simp only [decide_eq_true_eq] at hcpred
    apply mem_eraseDups.mpr
    rw [show ((b, qb) : String × Nat) = (c.node, c.port) from by
      rw [hcpred.1, hcpred.2]]
    apply List.mem_map_of_mem (fun r : ConnRef => (r.node, r.port))
    apply List.mem_flatten.mpr
    refine ⟨prt.connections, ?_, hcmem⟩
    apply List.mem_map_of_mem Port.connections
    exact List.mem_map_of_mem Prod.snd
      (mem_adel_of_ne (aget_mem hprt) hjk)
  have hinCn : ∀ b₁ q₁ a₁ p₁, inCount s₃'.drawflow m b₁ q₁ a₁ p₁ =
      if a₁ = id then
        (if 1 ≤ p₁ ∧ p₁ < k then inCount s₁.drawflow m b₁ q₁ id p₁
         else if k ≤ p₁ ∧ p₁ ≤ N - 1 then
           inCount s₁.drawflow m b₁ q₁ id (p₁ + 1)
         else 0)
      else inCount s₁.drawflow m b₁ q₁ a₁ p₁ := by
    intro b₁ q₁ a₁ p₁
    by_cases hmem : ((b₁, q₁) : String × Nat) ∈
        (((((((adel nd₁.outputs k).map Prod.snd).map
          Port.connections).flatten).map (fun r => (r.node, r.port))).eraseDups :
          List (String × Nat)))
    · have hval := hmap₃ ((b₁, q₁) : String × Nat) hmem
      dsimp only at hval
      rw [hinC₂] at hval
      rw [inCount, hval, countP_map_shift]
      by_cases ha : a₁ = id
      · rw [if_pos ha, if_pos ha, ha]
        by_cases h₁ : p₁ < k
        · rw [if_pos h₁]
          by_cases h₁' : 1 ≤ p₁
          · rw [if_pos ⟨h₁', h₁⟩]
            rfl
          · rw [if_neg (fun hcc => h₁' hcc.1),
              if_neg (by omega : ¬(k ≤ p₁ ∧ p₁ ≤ N - 1))]
            have h0 : inCount s₁.drawflow m b₁ q₁ id p₁ = 0 :=
              hin_of_range b₁ q₁ p₁ (by omega)
            rw [inCount] at h0
            exact h0
        · rw [if_neg h₁]
          by_cases h₂ : p₁ = k
          · subst p₁
            rw [if_pos rfl, if_neg (by omega : ¬(1 ≤ k ∧ k < k))]
            have h0 := hzk b₁ q₁
            rw [inCount] at h0
            rw [h0]
            by_cases h₃ : k ≤ N - 1
            · rw [if_pos ⟨le_refl k, h₃⟩, Nat.zero_add]
              rfl
            · rw [if_neg (fun hcc => h₃ hcc.2)]
              have h0' := hin_of_range b₁ q₁ (k + 1) (by omega)
              rw [inCount] at h0'
              rw [h0']
          · rw [if_neg h₂, if_neg (by omega : ¬(1 ≤ p₁ ∧ p₁ < k))]
            by_cases h₃ : p₁ ≤ N - 1
            · rw [if_pos ⟨by omega, h₃⟩]
              rfl
            · rw [if_neg (fun hcc => h₃ hcc.2)]
              have h0' := hin_of_range b₁ q₁ (p₁ + 1) (by omega)
              rw [inCount] at h0'
              exact h0'
      · rw [if_neg ha, if_neg ha]
        rfl
    · have hval : inConns s₃'.drawflow m b₁ q₁ =
          inConns s₁.drawflow m b₁ q₁ := by
        rw [hfr₃ m b₁ q₁ (fun it hit hcc => hmem (by
          rw [hcc.2.1, hcc.2.2]
          rw [show ((it.1, it.2) : String × Nat) = it from rfl]
          exact hit))]
        dsimp only
        rw [hinC₂]
      rw [inCount, hval]
      by_cases ha : a₁ = id
      · rw [if_pos ha, ha]
        have hz : ∀ j, inCount s₁.drawflow m b₁ q₁ id j = 0 := by
          intro j
          by_cases hrange : 1 ≤ j ∧ j ≤ N
          · by_cases hjk : j = k
            · subst j
              exact hzk b₁ q₁
            · by_contra hne
              have hpos : 0 < inCount s₁.drawflow m b₁ q₁ id j := by
                omega
              rw [← hwf₁.mirror m id j b₁ q₁] at hpos
              exact hmem (hcomplete b₁ q₁ j hrange.1 hrange.2 hjk hpos)
          · exact hin_of_range b₁ q₁ j hrange
        have hzq := hz p₁
        rw [inCount] at hzq
        rw [hzq]
        by_cases h₁ : 1 ≤ p₁ ∧ p₁ < k
        · rw [if_pos h₁, hz p₁]
        · rw [if_neg h₁]
          by_cases h₂ : k ≤ p₁ ∧ p₁ ≤ N - 1
          · rw [if_pos h₂, hz (p₁ + 1)]
          · rw [if_neg h₂]
      · rw [if_neg ha]
        rfl
  have houtVD : ∀ j, outConns s₃'.drawflow m id j =
      if 1 ≤ j ∧ j < k then outConns s₁.drawflow m id j
      else if k ≤ j ∧ j ≤ N - 1 then outConns s₁.drawflow m id (j + 1)
      else [] := by
    intro j
    rw [houtV₃ m id j]
    dsimp only
    exact houtID₂ j
  have houtVOther : ∀ m₁ a₁ p₁, ¬(m₁ = m ∧ a₁ = id) →
      outConns s₃'.drawflow m₁ a₁ p₁ = outConns s₁.drawflow m₁ a₁ p₁ := by
    intro m₁ a₁ p₁ hno
    rw [houtV₃ m₁ a₁ p₁]
    dsimp only
    rw [houtC₂, if_neg hno]
  have hinVOther : ∀ m₁ b₁ q₁, m₁ ≠ m →
      inConns s₃'.drawflow m₁ b₁ q₁ = inConns s₁.drawflow m₁ b₁ q₁ := by
    intro m₁ b₁ q₁ hm₁
    rw [hfr₃ m₁ b₁ q₁ (fun it hit hcc => hm₁ hcc.1)]
    dsimp only
    rw [hinC₂]
  have hwf₃ : WF s₃'.drawflow := by
    refine ⟨?_, hpts₃ hpts₂, ?_, ?_⟩
    · rw [hshape₃]
      exact hshape₂
    · intro m₁ a₁ p₁ b₁ q₁
      by_cases hm₁ : m₁ = m
      · subst m₁
        rw [outCount, hinCn]
        by_cases ha : a₁ = id
        · rw [if_pos ha, ha, houtVD]
          by_cases h₁ : 1 ≤ p₁ ∧ p₁ < k
          · rw [if_pos h₁, if_pos h₁]
            exact hwf₁.mirror m id p₁ b₁ q₁
          · rw [if_neg h₁, if_neg h₁]
            by_cases h₂ : k ≤ p₁ ∧ p₁ ≤ N - 1
            · rw [if_pos h₂, if_pos h₂]
              exact hwf₁.mirror m id (p₁ + 1) b₁ q₁
            · rw [if_neg h₂, if_neg h₂]
              rfl
        · rw [if_neg ha, houtVOther m a₁ p₁ (fun hcc => ha hcc.2)]
          exact hwf₁.mirror m a₁ p₁ b₁ q₁
      · rw [outCount, inCount, houtVOther m₁ a₁ p₁ (fun hcc => hm₁ hcc.1),
          hinVOther m₁ b₁ q₁ hm₁]
        exact hwf₁.mirror m₁ a₁ p₁ b₁ q₁
    · intro m₁ a₁ p₁ b₁ q₁
      by_cases hm₁ : m₁ = m
      · subst m₁
        by_cases ha : a₁ = id
        · rw [outCount, ha, houtVD]
          by_cases h₁ : 1 ≤ p₁ ∧ p₁ < k
          · rw [if_pos h₁]
            exact hwf₁.nodup m id p₁ b₁ q₁
          · rw [if_neg h₁]
            by_cases h₂ : k ≤ p₁ ∧ p₁ ≤ N - 1
            · rw [if_pos h₂]
              exact hwf₁.nodup m id (p₁ + 1) b₁ q₁
            · rw [if_neg h₂]
              simp
        · rw [outCount, houtVOther m a₁ p₁ (fun hcc => ha hcc.2)]
          exact hwf₁.nodup m a₁ p₁ b₁ q₁
      · rw [outCount, houtVOther m₁ a₁ p₁ (fun hcc => hm₁ hcc.1)]
        exact hwf₁.nodup m₁ a₁ p₁ b₁ q₁
  refine ⟨s₃', evs₁, ?_, ?_, ?_, hwf₃, ?_, ?_, ?_, ?_, ?_⟩
  · unfold removeNodeOutput
    rw [hgn]
    dsimp only
    rw [hrem]
    dsimp only
    rw [hcas]
    dsimp only
    rw [hm]
    dsimp only
    rw [hmd₁]
    dsimp only
    rw [hnd₁]
    dsimp only
    show (rewriteInRefs m id k { s₁ with drawflow := (⟨aset s₁.drawflow.drawflow m ⟨aset md₁.data id (setNodeOutputs nd₁ (relabelPorts nd₁.outputs k))⟩⟩ : DrawflowData) } (((((((adel nd₁.outputs k).map Prod.snd).map Port.connections).flatten).map (fun r => (r.node, r.port))).eraseDups : List (String × Nat)))).map
        (fun st => (st, evs₁)) = some (s₃', evs₁)
    rw [hrun₃]
    rfl
  · rw [hframe₃]
    dsimp only
    exact hmod₁
  · rw [hframe₃]
    dsimp only
    rw [show ({ s with drawflow := s₃'.drawflow } : EditorState) =
      { s₁ with drawflow := s₃'.drawflow } from by rw [hframe₁]]
  · intro md₃ nd₃ hmd₃ hnd₃
    have hmd₂' : aget (aset s₁.drawflow.drawflow m ⟨aset md₁.data id (setNodeOutputs nd₁ (relabelPorts nd₁.outputs k))⟩) m =
        some (⟨aset md₁.data id (setNodeOutputs nd₁ (relabelPorts nd₁.outputs k))⟩ : ModuleData) :=
      aget_aset_self _ _ _
    have hnd₂' : aget (aset md₁.data id (setNodeOutputs nd₁ (relabelPorts nd₁.outputs k))) id =
        some (setNodeOutputs nd₁ (relabelPorts nd₁.outputs k)) :=
      aget_aset_self _ _ _
    have hshape₃x : s₃'.drawflow.drawflow.map (fun p =>
        (p.1, (fun mdl : ModuleData =>
          mdl.data.map (fun np => (np.1, nodeShape np.2))) p.2)) =
        (aset s₁.drawflow.drawflow m ⟨aset md₁.data id (setNodeOutputs nd₁ (relabelPorts nd₁.outputs k))⟩).map (fun p =>
        (p.1, (fun mdl : ModuleData =>
          mdl.data.map (fun np => (np.1, nodeShape np.2))) p.2)) := hshape₃
    have hgmd₃ := @aget_map_congr String ModuleData instDecidableEqString _
      (fun mdl : ModuleData => mdl.data.map (fun np => (np.1, nodeShape np.2)))
      s₃'.drawflow.drawflow _ hshape₃x m md₃ _ hmd₃ hmd₂'
    have hns₃ : nodeShape nd₃ =
        nodeShape (setNodeOutputs nd₁ (relabelPorts nd₁.outputs k)) :=
      @aget_map_congr String DFNode instDecidableEqString _ nodeShape
        md₃.data _ hgmd₃ id nd₃ _ hnd₃ hnd₂'
    have hsnd := congrArg Prod.snd hns₃
    unfold nodeShape at hsnd
    dsimp only at hsnd
    rw [hsnd]
    exact hrebkeys
  · intro j
    rw [houtVD j]
    by_cases h₁ : 1 ≤ j ∧ j < k
    · rw [if_pos h₁, if_pos h₁]
      exact houtVP m id j (fun hcc => by omega)
    · rw [if_neg h₁, if_neg h₁]
      by_cases h₂ : k ≤ j ∧ j ≤ N - 1
      · rw [if_pos h₂, if_pos h₂]
        exact houtVP m id (j + 1) (fun hcc => by omega)
      · rw [if_neg h₂, if_neg h₂]
  · intro m₁ a₁ p₁ hno
    by_cases hm₁ : m₁ = m
    · subst m₁
      have ha : a₁ ≠ id := fun hc => hno ⟨rfl, hc⟩
      rw [houtVOther m a₁ p₁ (fun hcc => ha hcc.2)]
      exact houtVP m a₁ p₁ (fun hcc => ha hcc.2.1)
    · rw [houtVOther m₁ a₁ p₁ (fun hcc => hm₁ hcc.1)]
      exact houtVP m₁ a₁ p₁ (fun hcc => hm₁ hcc.1)
  · intro b q j
    rw [hinCn b q id j, if_pos rfl]
    by_cases h₁ : 1 ≤ j ∧ j < k
    · rw [if_pos h₁, if_pos h₁]
      exact hinP m b q id j (fun hcc => by omega)
    · rw [if_neg h₁, if_neg h₁]
      by_cases h₂ : k ≤ j ∧ j ≤ N - 1
      · rw [if_pos h₂, if_pos h₂]
        exact hinP m b q id (j + 1) (fun hcc => by omega)
      · rw [if_neg h₂, if_neg h₂]
  · intro m₁ b₁ q₁ a₁ p₁ hno
    by_cases hm₁ : m₁ = m
    · subst m₁
      have ha : a₁ ≠ id := fun hc => hno ⟨rfl, hc⟩
      rw [hinCn b₁ q₁ a₁ p₁, if_neg ha]
      exact hinP m b₁ q₁ a₁ p₁ (fun hcc => ha hcc.2.1)
    · rw [inCount, hinVOther m₁ b₁ q₁ hm₁]
      exact hinP m₁ b₁ q₁ a₁ p₁ (fun hcc => hm₁ hcc.1)


theorem firstIdx_none_of_all {p : α → Bool} :
    ∀ {l : List α}, (∀ y ∈ l, p y = false) → firstIdx p l = none := by
  intro l
  induction l with
  | nil => intro _; rfl
  | cons hd tl ih =>
    intro h
    have hp : p hd = false := h hd (List.mem_cons_self _ _)
    show (if p hd then some 0 else (firstIdx p tl).map (· + 1)) = none
    rw [hp]
    rw [if_neg (by simp : ¬(false = true))]
    rw [ih (fun y hy => h y (List.mem_cons_of_mem _ hy))]
    rfl

theorem countP_pos_of_jsFindIndex {pred : α → Bool} {l : List α}
    (h : jsFindIndex l pred > -1) : 0 < l.countP pred := by
  by_contra hc
  have h0 : l.countP pred = 0 := by omega
  have hall : ∀ y ∈ l, pred y = false := by
    intro y hy
    have := List.countP_eq_zero.mp h0 y hy
    exact Bool.eq_false_iff.mpr this
  rw [show jsFindIndex l pred = -1 from by
    unfold jsFindIndex
    rw [firstIdx_none_of_all hall]] at h
  omega

/-- Decompose a successful `getNodeFromId` into its lookup chain. -/
theorem getNodeFromId_eq {s : EditorState} {id : String} {nd : DFNode}
    (h : getNodeFromId s id = some nd) :
    ∃ m md, getModuleFromNodeId s id = some m ∧
      aget s.drawflow.drawflow m = some md ∧ aget md.data id = some nd := by
  unfold getNodeFromId at h
  split at h
  · exact absurd h (by simp)
  next m hm =>
    split at h
    · exact absurd h (by simp)
    next md hmd => exact ⟨m, md, hm, hmd, h⟩

/-- A successful `removeSingleConnection` preserves the store invariant:
its mutating path only runs when the connection exists on the output
side, and the mirror guarantees the matching input-side reference. -/
theorem removeSingleConnection_WF {s : EditorState} {a b : String}
    {p q : Nat} {out : EditorState × List DFEvent × Bool}
    (hwf : WF s.drawflow)
    (h : removeSingleConnection s a b p q = some out) :
    WF out.1.drawflow := by
  have h₀ := h
  unfold removeSingleConnection at h
  dsimp only at h
  split at h
  next hc =>
    split at h
    · exact absurd h (by simp)
    next m hm =>
      split at h
      · exact absurd h (by simp)
      next md hmd =>
        split at h
        · exact absurd h (by simp)
        next outNode hnd =>
          split at h
          · exact absurd h (by simp)
          next outPort hprt =>
            split at h
            next hex =>
              have hconns : outConns s.drawflow m a p =
                  outPort.connections := by
                unfold outConns
                rw [hmd]
                dsimp only
                rw [hnd]
                dsimp only
                rw [hprt]
              have hpos : 0 < outCount s.drawflow m a p b q := by
                rw [outCount, hconns]
                exact countP_pos_of_jsFindIndex hex
              have hmb : getModuleFromNodeId s b = some m := by
                rw [← hc]
                exact hm
              obtain ⟨d₂, heq₂, hWF₂, _⟩ :=
                removeSingleConnection_spec hwf hm hmb hpos
              rw [heq₂] at h₀
              obtain rfl := Option.some_injective _ h₀
              exact hWF₂
            next =>
              rw [Option.some_inj] at h
              rw [← h]
              exact hwf
  next =>
    rw [Option.some_inj] at h
    rw [← h]
    exact hwf

/-- A successful `removeConnectionNodeId` preserves the store invariant:
with the active module present the DOM-derived cascade removes mirrored
pairs; with it absent the element lists are empty and nothing happens. -/
theorem removeConnectionNodeId_WF {s : EditorState} {nid : String}
    {out : EditorState × List DFEvent} (hwf : WF s.drawflow)
    (h : removeConnectionNodeId s nid = some out) :
    WF out.1.drawflow := by
  rcases hmd : aget s.drawflow.drawflow s.module with _ | md
  · unfold removeConnectionNodeId at h
    rw [hmd] at h
    dsimp only at h
    rw [show ((([] : List ConnElem)).reverse : List ConnElem) = [] from
      rfl] at h
    rw [show elemPassOut s [] [] = some (s, []) from rfl] at h
    dsimp only at h
    rw [hmd] at h
    dsimp only at h
    rw [show ((([] : List ConnElem)).reverse : List ConnElem) = [] from
      rfl] at h
    rw [show elemPassIn s [] [] = some (s, []) from rfl] at h
    obtain rfl := Option.some_injective _ h
    exact hwf
  · obtain ⟨s₂, evs, heq, _, _, hWF₂, _⟩ :=
      removeConnectionNodeId_spec hwf hmd
    rw [heq] at h
    obtain rfl := Option.some_injective _ h
    exact hWF₂

/-- `removeNodeId` on a node of the active module preserves the store
invariant (the side condition of C1). -/
theorem removeNodeId_WF {s : EditorState} {nid : String}
    {out : EditorState × List DFEvent} (hwf : WF s.drawflow)
    (hcond : ∃ md, aget s.drawflow.drawflow s.module = some md ∧
      nid ∈ md.data.map Prod.fst)
    (h : removeNodeId s nid = some out) : WF out.1.drawflow := by
  obtain ⟨md, hmd, hnid⟩ := hcond
  obtain ⟨s₂, evs, heq, _, _, hWF₂, _⟩ := removeNodeId_spec hwf hmd hnid
  rw [heq] at h
  obtain rfl := Option.some_injective _ h
  exact hWF₂

/-- A successful `removeConnection` of an existing connection of the
active module preserves the store invariant. -/
theorem removeConnection_WF {s : EditorState} {a b : String} {p q : Nat}
    {out : EditorState × List DFEvent} (hwf : WF s.drawflow)
    (hpos : 0 < outCount s.drawflow s.module a p b q)
    (h : removeConnection s a b p q = some out) :
    WF out.1.drawflow := by
  obtain ⟨d₂, heq, hWF₂, _⟩ := removeConnection_spec hwf hpos
  rw [heq] at h
  obtain rfl := Option.some_injective _ h
  exact hWF₂

/-- A successful `removeNodeInput` preserves the store invariant: success
implies the node exists and the removed label is one of its dense input
labels. -/
theorem removeNodeInput_WF {s : EditorState} {id : String} {k : Nat}
    {out : EditorState × List DFEvent} (hwf : WF s.drawflow)
    (h : removeNodeInput s id k = some out) : WF out.1.drawflow := by
  have h₀ := h
  unfold removeNodeInput at h
  dsimp only at h
  split at h
  · exact absurd h (by simp)
  next nd hgn =>
    split at h
    · exact absurd h (by simp)
    next remPort hrem =>
      obtain ⟨m, md, hm, hmd, hnd⟩ := getNodeFromId_eq hgn
      have hkeys : nd.inputs.map Prod.fst =
          List.range' 1 nd.inputs.length :=
        (hwf.canonical (aget_mem hmd)
          (aget_mem hnd : ((id, nd) : String × DFNode) ∈ md.data)).1
      have hkmem : k ∈ nd.inputs.map Prod.fst :=
        aget_isSome_iff.mp (by rw [hrem]; rfl)
      rw [hkeys, List.mem_range'] at hkmem
      obtain ⟨i, hi, hik⟩ := hkmem
      obtain ⟨s₃, evs, heq, _, _, hWF₃, _⟩ :=
        @removeNodeInput_spec s m md nd id k nd.inputs.length hwf hm hmd hnd
          hkeys (by omega) (by omega)
      rw [heq] at h₀
      obtain rfl := Option.some_injective _ h₀
      exact hWF₃

/-- A successful `removeNodeOutput` preserves the store invariant. -/
theorem removeNodeOutput_WF {s : EditorState} {id : String} {k : Nat}
    {out : EditorState × List DFEvent} (hwf : WF s.drawflow)
    (h : removeNodeOutput s id k = some out) : WF out.1.drawflow := by
  have h₀ := h
  unfold removeNodeOutput at h
  dsimp only at h
  split at h
  · exact absurd h (by simp)
  next nd hgn =>
    split at h
    · exact absurd h (by simp)
    next remPort hrem =>
      obtain ⟨m, md, hm, hmd, hnd⟩ := getNodeFromId_eq hgn
      have hkeys : nd.outputs.map Prod.fst =
          List.range' 1 nd.outputs.length :=
        (hwf.canonical (aget_mem hmd)
          (aget_mem hnd : ((id, nd) : String × DFNode) ∈ md.data)).2
      have hkmem : k ∈ nd.outputs.map Prod.fst :=
        aget_isSome_iff.mp (by rw [hrem]; rfl)
      rw [hkeys, List.mem_range'] at hkmem
      obtain ⟨i, hi, hik⟩ := hkmem
      obtain ⟨s₃, evs, heq, _, _, hWF₃, _⟩ :=
        @removeNodeOutput_spec s m md nd id k nd.outputs.length hwf hm hmd hnd
          hkeys (by omega) (by omega)
      rw [heq] at h₀
      obtain rfl := Option.some_injective _ h₀
      exact hWF₃

/-- One mutation step, run without a `TypeError` and meeting its side
condition, preserves the store invariant. -/
theorem applyOp_WF {s s₁ : EditorState} {op : GraphOp}
    (hwf : WF s.drawflow) (hok : opOK s op)
    (h : applyOp s op = some s₁) : WF s₁.drawflow := by
  cases op with
  | conn a b p q =>
    obtain ⟨out, hout, rfl⟩ := Option.map_eq_some'.mp h
    exact (WF_addConnection hwf hout).1
  | singleConn a b p q =>
    obtain ⟨out, hout, rfl⟩ := Option.map_eq_some'.mp h
    exact removeSingleConnection_WF hwf hout
  | remConn a b p q =>
    obtain ⟨out, hout, rfl⟩ := Option.map_eq_some'.mp h
    exact removeConnection_WF hwf hok hout
  | connNodeId nid =>
    obtain ⟨out, hout, rfl⟩ := Option.map_eq_some'.mp h
    exact removeConnectionNodeId_WF hwf hout
  | nodeId nid =>
    obtain ⟨out, hout, rfl⟩ := Option.map_eq_some'.mp h
    exact removeNodeId_WF hwf hok hout
  | nodeInput nid k =>
    obtain ⟨out, hout, rfl⟩ := Option.map_eq_some'.mp h
    exact removeNodeInput_WF hwf hout
  | nodeOutput nid k =>
    obtain ⟨out, hout, rfl⟩ := Option.map_eq_some'.mp h
    exact removeNodeOutput_WF hwf hout

/-! ## Heap-model lemmas -/

theorem closedB_mono {n m : Nat} (hnm : n ≤ m) :
    ∀ x, closedB n x = true → closedB m x = true := by
  intro x
  induction x with
  | hnum q => intro hx; rfl
  | hstr t => intro hx; rfl
  | hbool b => intro hx; rfl
  | hnull => intro hx; rfl
  | href a =>
    intro hx
    simp only [closedB, decide_eq_true_eq] at hx ⊢
    omega
  | hfNil => intro hx; rfl
  | hfCons k v r ihv ihr =>
    intro hx
    simp only [closedB, Bool.and_eq_true] at hx ⊢
    exact ⟨ihv hx.1, ihr hx.2⟩

theorem refsAbove_anti {n m : Nat} (hnm : m ≤ n) :
    ∀ x, refsAbove n x = true → refsAbove m x = true := by
  intro x
  induction x with
  | hnum q => intro hx; rfl
  | hstr t => intro hx; rfl
  | hbool b => intro hx; rfl
  | hnull => intro hx; rfl
  | href a =>
    intro hx
    simp only [refsAbove, decide_eq_true_eq] at hx ⊢
    omega
  | hfNil => intro hx; rfl
  | hfCons k v r ihv ihr =>
    intro hx
    simp only [refsAbove, Bool.and_eq_true] at hx ⊢
    exact ⟨ihv hx.1, ihr hx.2⟩

theorem heapClosed_spec {h : Heap} : heapClosed h = true ↔ HeapClosedP h := by
  unfold heapClosed HeapClosedP
  rw [List.all_eq_true]
  constructor
  · intro hall p hp
    have := hall p hp
    simp only [Bool.and_eq_true, decide_eq_true_eq] at this
    exact this
  · intro hall p hp
    have := hall p hp
    simp only [Bool.and_eq_true, decide_eq_true_eq]
    exact this

theorem aget_append_fresh {l : List (κ × α)} {k : κ} {v : α}
    (h : ∀ p ∈ l, p.1 ≠ k) : aget (l ++ [(k, v)]) k = some v := by
  induction l with
  | nil => simp [aget]
  | cons hd tl ih =>
    obtain ⟨a, b⟩ := hd
    have hne : a ≠ k := h (a, b) (List.mem_cons_self _ _)
    simp only [List.cons_append, aget, if_neg hne]
    exact ih (fun p hp => h p (List.mem_cons_of_mem _ hp))

theorem aget_append_ne {l : List (κ × α)} {k k₁ : κ} {v : α}
    (h : k₁ ≠ k) : aget (l ++ [(k, v)]) k₁ = aget l k₁ := by
  induction l with
  | nil =>
    have hne : ¬(k = k₁) := fun hc => h hc.symm
    simp [aget, hne]
  | cons hd tl ih =>
    obtain ⟨a, b⟩ := hd
    by_cases hh : a = k₁
    · simp [aget, hh]
    · simp only [List.cons_append, aget, if_neg hh]
      exact ih

theorem readbackGo_congr {d₁ d₂ : Nat → Option JVal} {n : Nat}
    (hd : ∀ a, a < n → d₁ a = d₂ a) :
    ∀ x, closedB n x = true → readbackGo d₁ x = readbackGo d₂ x := by
  intro x
  induction x with
  | hnum q => intro hx; rfl
  | hstr t => intro hx; rfl
  | hbool b => intro hx; rfl
  | hnull => intro hx; rfl
  | href a =>
    intro hx
    simp only [closedB, decide_eq_true_eq] at hx
    exact hd a hx
  | hfNil => intro hx; rfl
  | hfCons k v r ihv ihr =>
    intro hx
    simp only [closedB, Bool.and_eq_true] at hx
    simp only [readbackGo, ihv hx.1, ihr hx.2]

/-- Readback depends only on the cells below `n` when the heap region
below `n` is closed and the value references only that region. -/
theorem readback_agree {n : Nat} :
    ∀ fuel (h h₁ : Heap) x,
      (∀ b, b < n → aget h₁.mem b = aget h.mem b) →
      (∀ b cell, b < n → aget h.mem b = some cell → closedB n cell = true) →
      closedB n x = true →
      readback fuel h₁ x = readback fuel h x := by
  intro fuel
  induction fuel with
  | zero => intro h h₁ x _ _ _; rfl
  | succ fuel ih =>
    intro h h₁ x hag hcl hx
    unfold readback
    refine readbackGo_congr (fun a ha => ?_) x hx
    rw [hag a ha]
    rcases hc : aget h.mem a with _ | cell
    · rfl
    · simp only [Option.some_bind]
      exact ih h h₁ cell hag hcl (hcl a cell ha hc)

/-- `jsonCloneGo` only grows the heap and never touches existing cells,
provided its reference-cloner does. -/
theorem jsonCloneGo_mono {cr : Heap → Nat → Option (Heap × HVal)}
    (hcr : ∀ h a h₁ x₁, cr h a = some (h₁, x₁) →
      h.next ≤ h₁.next ∧ ∀ b, b < h.next → aget h₁.mem b = aget h.mem b) :
    ∀ x h h₁ x₁, jsonCloneGo cr h x = some (h₁, x₁) →
      h.next ≤ h₁.next ∧ ∀ b, b < h.next → aget h₁.mem b = aget h.mem b := by
  intro x
  induction x with
  | hnum q =>
    intro h h₁ x₁ hcl
    obtain ⟨rfl, rfl⟩ : h = h₁ ∧ HVal.hnum q = x₁ := by
      simpa [jsonCloneGo] using hcl
    exact ⟨le_refl _, fun b _ => rfl⟩
  | hstr t =>
    intro h h₁ x₁ hcl
    obtain ⟨rfl, rfl⟩ : h = h₁ ∧ HVal.hstr t = x₁ := by
      simpa [jsonCloneGo] using hcl
    exact ⟨le_refl _, fun b _ => rfl⟩
  | hbool bb =>
    intro h h₁ x₁ hcl
    obtain ⟨rfl, rfl⟩ : h = h₁ ∧ HVal.hbool bb = x₁ := by
      simpa [jsonCloneGo] using hcl
    exact ⟨le_refl _, fun b _ => rfl⟩
  | hnull =>
    intro h h₁ x₁ hcl
    obtain ⟨rfl, rfl⟩ : h = h₁ ∧ HVal.hnull = x₁ := by
      simpa [jsonCloneGo] using hcl
    exact ⟨le_refl _, fun b _ => rfl⟩
  | href a =>
    intro h h₁ x₁ hcl
    exact hcr h a h₁ x₁ hcl
  | hfNil =>
    intro h h₁ x₁ hcl
    obtain ⟨rfl, rfl⟩ : h = h₁ ∧ HVal.hfNil = x₁ := by
      simpa [jsonCloneGo] using hcl
    exact ⟨le_refl _, fun b _ => rfl⟩
  | hfCons k v r ihv ihr =>
    intro h h₁ x₁ hcl
    unfold jsonCloneGo at hcl
    split at hcl
    next => exact absurd hcl (by simp)
    next hᵥ v₁ hveq =>
      split at hcl
      next => exact absurd hcl (by simp)
      next h₂ r₁ hreq =>
        have hpair : h₂ = h₁ ∧ HVal.hfCons k v₁ r₁ = x₁ := by
          simpa using hcl
        rw [← hpair.1]
        obtain ⟨hle₁, hag₁⟩ := ihv h hᵥ v₁ hveq
        obtain ⟨hle₂, hag₂⟩ := ihr hᵥ h₂ r₁ hreq
        refine ⟨le_trans hle₁ hle₂, fun b hb => ?_⟩
        rw [hag₂ b (lt_of_lt_of_le hb hle₁), hag₁ b hb]

/-- `jsonClone` only grows the heap and never touches existing cells. -/
theorem jsonClone_mono :
    ∀ fuel h x h₁ x₁, jsonClone fuel h x = some (h₁, x₁) →
      h.next ≤ h₁.next ∧ ∀ b, b < h.next → aget h₁.mem b = aget h.mem b := by
  intro fuel
  induction fuel with
  | zero => intro h x h₁ x₁ hcl; exact absurd hcl (by simp [jsonClone])
  | succ fuel ih =>
    intro h x h₁ x₁ hcl
    unfold jsonClone at hcl
    refine jsonCloneGo_mono (fun h' a h₂ x₂ hc => ?_) x h h₁ x₁ hcl
    split at hc
    next => exact absurd hc (by simp)
    next cell hcell =>
      split at hc
      next => exact absurd hc (by simp)
      next h₃ cell₁ heq =>
        obtain ⟨rfl, rfl⟩ : (⟨h₃.mem ++ [(h₃.next, cell₁)], h₃.next + 1⟩ :
            Heap) = h₂ ∧ HVal.href h₃.next = x₂ := by simpa using hc
        obtain ⟨hle, hag⟩ := ih h' cell h₃ cell₁ heq
        refine ⟨by simp; omega, fun b hb => ?_⟩
        dsimp only
        rw [aget_append_ne (by omega), hag b hb]

theorem jsonClone_succ (fuel : Nat) (h : Heap) (x : HVal) :
    jsonClone (fuel + 1) h x = jsonCloneGo (cloneRef fuel) h x := rfl

theorem cloneRef_mono {fuel : Nat} {h : Heap} {a : Nat} {h₁ : Heap}
    {x₁ : HVal} (hc : cloneRef fuel h a = some (h₁, x₁)) :
    h.next ≤ h₁.next ∧ ∀ b, b < h.next → aget h₁.mem b = aget h.mem b := by
  unfold cloneRef at hc
  split at hc
  next => exact absurd hc (by simp)
  next cell hcell =>
    split at hc
    next => exact absurd hc (by simp)
    next h₃ cell₁ heq =>
      obtain ⟨rfl, rfl⟩ : (⟨h₃.mem ++ [(h₃.next, cell₁)], h₃.next + 1⟩ :
          Heap) = h₁ ∧ HVal.href h₃.next = x₁ := by simpa using hc
      obtain ⟨hle, hag⟩ := jsonClone_mono fuel h cell h₃ cell₁ heq
      refine ⟨by simp; omega, fun b hb => ?_⟩
      dsimp only
      rw [aget_append_ne (by omega), hag b hb]

/-- `jsonCloneGo` keeps the heap well formed; the copied value references
only fresh cells and only cells of the final heap. -/
theorem jsonCloneGo_closed {cr : Heap → Nat → Option (Heap × HVal)}
    (hmono : ∀ h a h₁ x₁, cr h a = some (h₁, x₁) →
      h.next ≤ h₁.next ∧ ∀ b, b < h.next → aget h₁.mem b = aget h.mem b)
    (hcr : ∀ h a h₁ x₁, HeapClosedP h → a < h.next → cr h a = some (h₁, x₁) →
      HeapClosedP h₁ ∧ closedB h₁.next x₁ = true ∧
        refsAbove h.next x₁ = true) :
    ∀ x h h₁ x₁, HeapClosedP h → closedB h.next x = true →
      jsonCloneGo cr h x = some (h₁, x₁) →
      HeapClosedP h₁ ∧ closedB h₁.next x₁ = true ∧
        refsAbove h.next x₁ = true := by
  intro x
  induction x with
  | hnum q =>
    intro h h₁ x₁ hH hx hcl
    obtain ⟨rfl, rfl⟩ : h = h₁ ∧ HVal.hnum q = x₁ := by
      simpa [jsonCloneGo] using hcl
    exact ⟨hH, rfl, rfl⟩
  | hstr t =>
    intro h h₁ x₁ hH hx hcl
    obtain ⟨rfl, rfl⟩ : h = h₁ ∧ HVal.hstr t = x₁ := by
      simpa [jsonCloneGo] using hcl
    exact ⟨hH, rfl, rfl⟩
  | hbool bb =>
    intro h h₁ x₁ hH hx hcl
    obtain ⟨rfl, rfl⟩ : h = h₁ ∧ HVal.hbool bb = x₁ := by
      simpa [jsonCloneGo] using hcl
    exact ⟨hH, rfl, rfl⟩
  | hnull =>
    intro h h₁ x₁ hH hx hcl
    obtain ⟨rfl, rfl⟩ : h = h₁ ∧ HVal.hnull = x₁ := by
      simpa [jsonCloneGo] using hcl
    exact ⟨hH, rfl, rfl⟩
  | href a =>
    intro h h₁ x₁ hH hx hcl
    simp only [closedB, decide_eq_true_eq] at hx
    exact hcr h a h₁ x₁ hH hx hcl
  | hfNil =>
    intro h h₁ x₁ hH hx hcl
    obtain ⟨rfl, rfl⟩ : h = h₁ ∧ HVal.hfNil = x₁ := by
      simpa [jsonCloneGo] using hcl
    exact ⟨hH, rfl, rfl⟩
  | hfCons k v r ihv ihr =>
    intro h h₁ x₁ hH hx hcl
    simp only [closedB, Bool.and_eq_true] at hx
    unfold jsonCloneGo at hcl
    split at hcl
    next => exact absurd hcl (by simp)
    next hᵥ v₁ hveq =>
      split at hcl
      next => exact absurd hcl (by simp)
      next h₂ r₁ hreq =>
        have hpair : h₂ = h₁ ∧ HVal.hfCons k v₁ r₁ = x₁ := by
          simpa using hcl
        rw [← hpair.1, ← hpair.2]
        obtain ⟨hle₁, _⟩ := jsonCloneGo_mono hmono v h hᵥ v₁ hveq
        obtain ⟨hle₂, _⟩ := jsonCloneGo_mono hmono r hᵥ h₂ r₁ hreq
        obtain ⟨hHᵥ, hcv, hrv⟩ := ihv h hᵥ v₁ hH hx.1 hveq
        obtain ⟨hH₂, hcr₁, hrr⟩ :=
          ihr hᵥ h₂ r₁ hHᵥ (closedB_mono hle₁ r hx.2) hreq
        refine ⟨hH₂, ?_, ?_⟩
        · simp only [closedB, Bool.and_eq_true]
          exact ⟨closedB_mono hle₂ v₁ hcv, hcr₁⟩
        · simp only [refsAbove, Bool.and_eq_true]
          exact ⟨hrv, refsAbove_anti hle₁ r₁ hrr⟩

/-- `jsonClone` keeps the heap well formed; the copy references only
fresh cells. -/
theorem jsonClone_closed :
    ∀ fuel h x h₁ x₁, HeapClosedP h → closedB h.next x = true →
      jsonClone fuel h x = some (h₁, x₁) →
      HeapClosedP h₁ ∧ closedB h₁.next x₁ = true ∧
        refsAbove h.next x₁ = true := by
  intro fuel
  induction fuel with
  | zero =>
    intro h x h₁ x₁ _ _ hcl
    exact absurd hcl (by simp [jsonClone])
  | succ fuel ih =>
    intro h x h₁ x₁ hH hx hcl
    rw [jsonClone_succ] at hcl
    refine jsonCloneGo_closed (fun h' a h₂ x₂ hc => cloneRef_mono hc)
      ?_ x h h₁ x₁ hH hx hcl
    intro h' a h₂ x₂ hH' ha hc
    unfold cloneRef at hc
    split at hc
    next => exact absurd hc (by simp)
    next cell hcell =>
      split at hc
      next => exact absurd hc (by simp)
      next h₃ cell₁ heq =>
        obtain ⟨rfl, rfl⟩ : (⟨h₃.mem ++ [(h₃.next, cell₁)], h₃.next + 1⟩ :
            Heap) = h₂ ∧ HVal.href h₃.next = x₂ := by simpa using hc
        have hcell_cl : closedB h'.next cell = true :=
          (hH' (a, cell) (aget_mem hcell)).2
        obtain ⟨hH₃, hc₁, _⟩ := ih h' cell h₃ cell₁ hH' hcell_cl heq
        obtain ⟨hle, _⟩ := jsonClone_mono fuel h' cell h₃ cell₁ heq
        refine ⟨?_, ?_, ?_⟩
        · intro p hp
          dsimp only at hp ⊢
          rcases List.mem_append.mp hp with hold | hnew
          · obtain ⟨hlt, hcl'⟩ := hH₃ p hold
            exact ⟨by omega, closedB_mono (by omega) _ hcl'⟩
          · have : p = (h₃.next, cell₁) := by simpa using hnew
            subst this
            exact ⟨by omega, closedB_mono (by omega) _ hc₁⟩
        · simp [closedB]
        · simp only [refsAbove, decide_eq_true_eq]
          omega

/-- The reference-clone step keeps the heap well formed; the returned
reference is fresh. -/
theorem cloneRef_closed {fuel : Nat} {h : Heap} {a : Nat} {h₁ : Heap}
    {x₁ : HVal} (hH : HeapClosedP h) (ha : a < h.next)
    (hc : cloneRef fuel h a = some (h₁, x₁)) :
    HeapClosedP h₁ ∧ closedB h₁.next x₁ = true ∧
      refsAbove h.next x₁ = true := by
  unfold cloneRef at hc
  split at hc
  next => exact absurd hc (by simp)
  next cell hcell =>
    split at hc
    next => exact absurd hc (by simp)
    next h₃ cell₁ heq =>
      obtain ⟨rfl, rfl⟩ : (⟨h₃.mem ++ [(h₃.next, cell₁)], h₃.next + 1⟩ :
          Heap) = h₁ ∧ HVal.href h₃.next = x₁ := by simpa using hc
      have hcell_cl : closedB h.next cell = true :=
        (hH (a, cell) (aget_mem hcell)).2
      obtain ⟨hH₃, hc₁, _⟩ :=
        jsonClone_closed fuel h cell h₃ cell₁ hH hcell_cl heq
      obtain ⟨hle, _⟩ := jsonClone_mono fuel h cell h₃ cell₁ heq
      refine ⟨?_, ?_, ?_⟩
      · intro p hp
        dsimp only at hp ⊢
        rcases List.mem_append.mp hp with hold | hnew
        · obtain ⟨hlt, hcl'⟩ := hH₃ p hold
          exact ⟨by omega, closedB_mono (by omega) _ hcl'⟩
        · have : p = (h₃.next, cell₁) := by simpa using hnew
          subst this
          exact ⟨by omega, closedB_mono (by omega) _ hc₁⟩
      · simp [closedB]
      · simp only [refsAbove, decide_eq_true_eq]
        omega

/-- The copy denotes the same JSON tree as the original. -/
theorem jsonClone_readback :
    ∀ fuel h x h₁ x₁, HeapClosedP h → closedB h.next x = true →
      jsonClone fuel h x = some (h₁, x₁) →
      readback fuel h₁ x₁ = readback fuel h x := by
  intro fuel
  induction fuel with
  | zero => intro h x h₁ x₁ _ _ _; rfl
  | succ fuel ih =>
    have go : ∀ x h h₁ x₁, HeapClosedP h → closedB h.next x = true →
        jsonCloneGo (cloneRef fuel) h x = some (h₁, x₁) →
        readback (fuel + 1) h₁ x₁ = readback (fuel + 1) h x := by
      intro x
      induction x with
      | hnum q =>
        intro h h₁ x₁ hH hx hcl
        obtain ⟨rfl, rfl⟩ : h = h₁ ∧ HVal.hnum q = x₁ := by
          simpa [jsonCloneGo] using hcl
        rfl
      | hstr t =>
        intro h h₁ x₁ hH hx hcl
        obtain ⟨rfl, rfl⟩ : h = h₁ ∧ HVal.hstr t = x₁ := by
          simpa [jsonCloneGo] using hcl
        rfl
      | hbool bb =>
        intro h h₁ x₁ hH hx hcl
        obtain ⟨rfl, rfl⟩ : h = h₁ ∧ HVal.hbool bb = x₁ := by
          simpa [jsonCloneGo] using hcl
        rfl
      | hnull =>
        intro h h₁ x₁ hH hx hcl
        obtain ⟨rfl, rfl⟩ : h = h₁ ∧ HVal.hnull = x₁ := by
          simpa [jsonCloneGo] using hcl
        rfl
      | href a =>
        intro h h₁ x₁ hH hx hcl
        simp only [closedB, decide_eq_true_eq] at hx
        unfold jsonCloneGo cloneRef at hcl
        split at hcl
        next => exact absurd hcl (by simp)
        next cell hcell =>
          split at hcl
          next => exact absurd hcl (by simp)
          next h₃ cell₁ heq =>
            obtain ⟨rfl, rfl⟩ : (⟨h₃.mem ++ [(h₃.next, cell₁)],
                h₃.next + 1⟩ : Heap) = h₁ ∧ HVal.href h₃.next = x₁ := by
              simpa using hcl
            have hcell_cl : closedB h.next cell = true :=
              (hH (a, cell) (aget_mem hcell)).2
            obtain ⟨hH₃, hc₁, _⟩ :=
              jsonClone_closed fuel h cell h₃ cell₁ hH hcell_cl heq
            have hfresh : aget (h₃.mem ++ [(h₃.next, cell₁)]) h₃.next =
                some cell₁ :=
              aget_append_fresh (fun p hp => by
                have := (hH₃ p hp).1
                omega)
            show (aget (h₃.mem ++ [(h₃.next, cell₁)]) h₃.next).bind
                (readback fuel ⟨h₃.mem ++ [(h₃.next, cell₁)],
                  h₃.next + 1⟩) =
              (aget h.mem a).bind (readback fuel h)
            rw [hfresh, hcell]
            simp only [Option.some_bind]
            have hstep₁ : readback fuel
                (⟨h₃.mem ++ [(h₃.next, cell₁)], h₃.next + 1⟩ : Heap)
                  cell₁ =
                readback fuel h₃ cell₁ :=
              readback_agree fuel h₃ _ cell₁
                (fun b hb => aget_append_ne (by omega))
                (fun b cell' hb hc' => (hH₃ (b, cell') (aget_mem hc')).2)
                hc₁
            rw [hstep₁, ih h cell h₃ cell₁ hH hcell_cl heq]
      | hfNil =>
        intro h h₁ x₁ hH hx hcl
        obtain ⟨rfl, rfl⟩ : h = h₁ ∧ HVal.hfNil = x₁ := by
          simpa [jsonCloneGo] using hcl
        rfl
      | hfCons k v r ihv ihr =>
        intro h h₁ x₁ hH hx hcl
        simp only [closedB, Bool.and_eq_true] at hx
        unfold jsonCloneGo at hcl
        split at hcl
        next => exact absurd hcl (by simp)
        next hᵥ v₁ hveq =>
          split at hcl
          next => exact absurd hcl (by simp)
          next h₂ r₁ hreq =>
            have hpair : h₂ = h₁ ∧ HVal.hfCons k v₁ r₁ = x₁ := by
              simpa using hcl
            rw [← hpair.1, ← hpair.2]
            obtain ⟨hle₁, hag₁⟩ := jsonCloneGo_mono
              (fun h' a h₂' x₂ hc => cloneRef_mono hc) v h hᵥ v₁ hveq
            obtain ⟨hle₂, hag₂⟩ := jsonCloneGo_mono
              (fun h' a h₂' x₂ hc => cloneRef_mono hc) r hᵥ h₂ r₁ hreq
            obtain ⟨hHᵥ, hcv, _⟩ := jsonCloneGo_closed
              (fun h' a h₂' x₂ hc => cloneRef_mono hc)
              (fun h' a h₂' x₂ hH' ha hc => cloneRef_closed hH' ha hc)
              v h hᵥ v₁ hH hx.1 hveq
            have hv_half := ihv h hᵥ v₁ hH hx.1 hveq
            have hr_half := ihr hᵥ h₂ r₁ hHᵥ
              (closedB_mono hle₁ r hx.2) hreq
            have hv_final : readback (fuel + 1) h₂ v₁ =
                readback (fuel + 1) h v := by
              rw [← hv_half]
              exact readback_agree (fuel + 1) hᵥ h₂ v₁ hag₂
                (fun b cell' hb hc' => (hHᵥ (b, cell') (aget_mem hc')).2)
                hcv
            have hr_final : readback (fuel + 1) h₂ r₁ =
                readback (fuel + 1) h r := by
              rw [hr_half]
              exact readback_agree (fuel + 1) h hᵥ r hag₁
                (fun b cell' hb hc' => (hH (b, cell') (aget_mem hc')).2)
                hx.2
            show (match readback (fuel + 1) h₂ v₁,
                readback (fuel + 1) h₂ r₁ with
              | some jv, some jr => some (JVal.jobjCons k jv jr)
              | _, _ => none) =
              (match readback (fuel + 1) h v, readback (fuel + 1) h r with
              | some jv, some jr => some (JVal.jobjCons k jv jr)
              | _, _ => none)
            rw [hv_final, hr_final]
    intro h x h₁ x₁ hH hx hcl
    rw [jsonClone_succ] at hcl
    exact go x h h₁ x₁ hH hx hcl


/-- When serialisation succeeds, so does the clone. -/
theorem jsonClone_total :
    ∀ fuel h x, HeapClosedP h → closedB h.next x = true →
      (readback fuel h x).isSome → (jsonClone fuel h x).isSome := by
  intro fuel
  induction fuel with
  | zero =>
    intro h x _ _ hrb
    simp [readback] at hrb
  | succ fuel ih =>
    intro h x hH hx hrb
    have go : ∀ x₀, closedB h.next x₀ = true →
        (readbackGo (fun a => (aget h.mem a).bind (readback fuel h))
          x₀).isSome →
        ∀ h₀, HeapClosedP h₀ → h.next ≤ h₀.next →
          (∀ b, b < h.next → aget h₀.mem b = aget h.mem b) →
          (jsonCloneGo (cloneRef fuel) h₀ x₀).isSome := by
      intro x₀
      induction x₀ with
      | hnum q => intro _ _ h₀ _ _ _; simp [jsonCloneGo]
      | hstr t => intro _ _ h₀ _ _ _; simp [jsonCloneGo]
      | hbool bb => intro _ _ h₀ _ _ _; simp [jsonCloneGo]
      | hnull => intro _ _ h₀ _ _ _; simp [jsonCloneGo]
      | href a =>
        intro hx₀ hrb₀ h₀ hH₀ hle hag
        simp only [closedB, decide_eq_true_eq] at hx₀
        rcases hcell : aget h.mem a with _ | cell
        · rw [show readbackGo
              (fun a => (aget h.mem a).bind (readback fuel h))
              (.href a) = (aget h.mem a).bind (readback fuel h) from rfl,
            hcell] at hrb₀
          simp at hrb₀
        · have hcell_cl : closedB h.next cell = true :=
            (hH (a, cell) (aget_mem hcell)).2
          have hrb_cell : (readback fuel h cell).isSome := by
            rw [show readbackGo
                (fun a => (aget h.mem a).bind (readback fuel h))
                (.href a) = (aget h.mem a).bind (readback fuel h) from rfl,
              hcell] at hrb₀
            simpa using hrb₀
          have hrb₀_cell : (readback fuel h₀ cell).isSome := by
            rw [readback_agree fuel h h₀ cell hag
              (fun b cell' hb hc' => (hH (b, cell') (aget_mem hc')).2)
              hcell_cl]
            exact hrb_cell
          have hclone := ih h₀ cell hH₀
            (closedB_mono hle cell hcell_cl) hrb₀_cell
          obtain ⟨⟨h₃, cell₁⟩, heq⟩ := Option.isSome_iff_exists.mp hclone
          show (cloneRef fuel h₀ a).isSome
          unfold cloneRef
          rw [hag a hx₀, hcell]
          dsimp only
          rw [heq]
          rfl
      | hfNil => intro _ _ h₀ _ _ _; simp [jsonCloneGo]
      | hfCons k v r ihv ihr =>
        intro hx₀ hrb₀ h₀ hH₀ hle hag
        simp only [closedB, Bool.and_eq_true] at hx₀
        have hsplit : (readbackGo
            (fun a => (aget h.mem a).bind (readback fuel h)) v).isSome ∧
            (readbackGo
              (fun a => (aget h.mem a).bind (readback fuel h)) r).isSome := by
          rw [show readbackGo
              (fun a => (aget h.mem a).bind (readback fuel h))
              (.hfCons k v r) = (match readbackGo
                (fun a => (aget h.mem a).bind (readback fuel h)) v,
                readbackGo (fun a => (aget h.mem a).bind (readback fuel h))
                  r with
              | some jv, some jr => some (JVal.jobjCons k jv jr)
              | _, _ => none) from rfl] at hrb₀
          rcases hv : readbackGo
              (fun a => (aget h.mem a).bind (readback fuel h)) v with _ | jv
          · rw [hv] at hrb₀; simp at hrb₀
          · rcases hr : readbackGo
                (fun a => (aget h.mem a).bind (readback fuel h)) r with _ | jr
            · rw [hv, hr] at hrb₀; simp at hrb₀
            · simp [hv, hr]
        have hclv := ihv hx₀.1 hsplit.1 h₀ hH₀ hle hag
        obtain ⟨⟨hᵥ, v₁⟩, hveq⟩ := Option.isSome_iff_exists.mp hclv
        obtain ⟨hleᵥ, hagᵥ⟩ := jsonCloneGo_mono
          (fun h' a h₂' x₂ hc => cloneRef_mono hc) v h₀ hᵥ v₁ hveq
        obtain ⟨hHᵥ, _, _⟩ := jsonCloneGo_closed
          (fun h' a h₂' x₂ hc => cloneRef_mono hc)
          (fun h' a h₂' x₂ hH' ha hc => cloneRef_closed hH' ha hc)
          v h₀ hᵥ v₁ hH₀ (closedB_mono hle v hx₀.1) hveq
        have hclr := ihr hx₀.2 hsplit.2 hᵥ hHᵥ (le_trans hle hleᵥ)
          (fun b hb => by
            rw [hagᵥ b (lt_of_lt_of_le hb hle), hag b hb])
        obtain ⟨⟨h₂, r₁⟩, hreq⟩ := Option.isSome_iff_exists.mp hclr
        show (jsonCloneGo (cloneRef fuel) h₀ (.hfCons k v r)).isSome
        unfold jsonCloneGo
        rw [hveq]
        dsimp only
        rw [hreq]
        rfl
    rw [jsonClone_succ]
    exact go x hx hrb h hH (le_refl _) (fun b _ => rfl)

theorem setField_next (h : Heap) (b : Nat) (k : String) (w : HVal) :
    (setField h b k w).next = h.next := by
  unfold setField
  split
  next => rfl
  next cell hcell => rfl

theorem setField_agree {h : Heap} {b n : Nat} (hb : n ≤ b) (k : String)
    (w : HVal) : ∀ c, c < n →
      aget (setField h b k w).mem c = aget h.mem c := by
  intro c hc
  unfold setField
  split
  next => rfl
  next cell hcell =>
    dsimp only
    exact aget_aset_ne _ _ (by omega)

/-! ## Claim theorems -/

/-- C2: the claim states that `addConnection` with the same node id on
both ends is a no-op that stores nothing and emits no `connectionCreated`
event.  The code has no self-loop check — the module comparison at
drawflow.js:1611 trivially succeeds for equal ids, its own doc comment
notwithstanding — so on a reachable single-node editor the call appends
the mirrored self-loop reference pair and dispatches `connectionCreated`.
This theorem evaluates the code at that failing input. -/
theorem C2_self_loop_appended :
    addNode initialState "a" 1 1 0 0 "" JVal.jnull "" false =
      some (selfLoopState, [DFEvent.nodeCreated "1"], "1") ∧
    addConnection selfLoopState "1" "1" 1 1 =
      some ({ selfLoopState with drawflow := ⟨[("Home", ⟨[("1",
          { selfLoopNode with
              inputs := [(1, ⟨[⟨"1", 1, none⟩]⟩)],
              outputs := [(1, ⟨[⟨"1", 1, none⟩]⟩)] })]⟩)]⟩ },
        [DFEvent.connectionCreated "1" "1" 1 1]) := by
  exact ⟨rfl, rfl⟩

/-- C3: on a well-formed store, for two distinct nodes of the same module
with an existing output port `p` and input port `q`, two identical
`addConnection` calls leave exactly one stored reference on the output
port and exactly one on the input port; the second call returns the state
unchanged and emits no event. -/
theorem C3_duplicate_connect_idempotent (s : EditorState)
    (m idOut idIn : String) (p q : Nat) (hwf : WF s.drawflow)
    (hne : idOut ≠ idIn)
    (hm : getModuleFromNodeId s idOut = some m)
    (hm' : getModuleFromNodeId s idIn = some m)
    (hout : (outPortGet s.drawflow m idOut p).isSome)
    (hin : (inPortGet s.drawflow m idIn q).isSome) :
    ∃ s₁ ev₁, addConnection s idOut idIn p q = some (s₁, ev₁) ∧
      addConnection s₁ idOut idIn p q = some (s₁, []) ∧
      outCount s₁.drawflow m idOut p idIn q = 1 ∧
      inCount s₁.drawflow m idIn q idOut p = 1 := by
  obtain ⟨cp, hcp⟩ := Option.isSome_iff_exists.mp hout
  have hconns : outConns s.drawflow m idOut p = cp.connections := by
    rw [outConns_eq, hcp]
    rfl
  by_cases hex : cp.connections.any
      (fun c => decide (c.node = idIn ∧ c.port = q)) = true
  · have hcnt : 0 < outCount s.drawflow m idOut p idIn q := by
      obtain ⟨c, hc, hpc⟩ := List.any_eq_true.mp hex
      rw [outCount, hconns]
      exact List.countP_pos_iff.mpr ⟨c, hc, hpc⟩
    have hone : outCount s.drawflow m idOut p idIn q = 1 :=
      le_antisymm (hwf.nodup m idOut p idIn q) hcnt
    refine ⟨s, [], addConnection_exist_noop hm hm' hcnt,
      addConnection_exist_noop hm hm' hcnt, hone, ?_⟩
    rw [← hwf.mirror m idOut p idIn q]
    exact hone
  · have hnoex : cp.connections.any
        (fun c => decide (c.node = idIn ∧ c.port = q)) = false :=
      Bool.not_eq_true _ ▸ Bool.of_not_eq_true hex
    have hzero : outCount s.drawflow m idOut p idIn q = 0 := by
      rw [outCount, hconns]
      rw [List.countP_eq_zero]
      intro c hc
      exact fun hpc => hex (List.any_eq_true.mpr ⟨c, hc, hpc⟩)
    obtain ⟨d₂, hadd, hoc, hic⟩ :=
      addConnection_push_spec hne hm hm' hcp hnoex hin
    have hshape := (WF_addConnection hwf hadd).2
    have hm₁ : getModuleFromNodeId { s with drawflow := d₂ } idOut = some m := by
      rw [@getModule_shape_congr { s with drawflow := d₂ } s hshape idOut]
      exact hm
    have hm₁' : getModuleFromNodeId { s with drawflow := d₂ } idIn = some m := by
      rw [@getModule_shape_congr { s with drawflow := d₂ } s hshape idIn]
      exact hm'
    have hcnt₁ : 0 < outCount d₂ m idOut p idIn q := by
      rw [hoc]
      exact Nat.succ_pos _
    refine ⟨{ s with drawflow := d₂ },
      [DFEvent.connectionCreated idOut idIn p q], hadd, ?_, ?_, ?_⟩
    · exact addConnection_exist_noop hm₁ hm₁' hcnt₁
    · rw [hoc, hzero]
    · rw [hic, ← hwf.mirror m idOut p idIn q, hzero]

/-- Witness for C3 at a concrete input: two fresh one-in/one-out nodes. -/
theorem C3_duplicate_connect_idempotent_witness :
    ∃ s₁ ev₁, addConnection twoNodeState "1" "2" 1 1 = some (s₁, ev₁) ∧
      addConnection s₁ "1" "2" 1 1 = some (s₁, []) ∧
      outCount s₁.drawflow "Home" "1" 1 "2" 1 = 1 ∧
      inCount s₁.drawflow "Home" "2" 1 "1" 1 = 1 :=
  C3_duplicate_connect_idempotent twoNodeState "Home" "1" "2" 1 1
    ⟨by unfold shapeWF; decide, by unfold InPointsNone; decide,
      (mirrorCheck_iff _).mp (by decide), outNoDup_of_check (by decide)⟩
    (by decide) rfl rfl rfl rfl

/-- C5 (counterexample): the claim states that after `removeNodeId(A)`
no connection reference anywhere in the store names `A`.
`removeConnectionNodeId` reads the removable connections off the DOM of
the *active* module only (drawflow.js:3027-3042); for a node of a
non-active module it removes nothing, and the deletion then leaves its
peer holding a dangling reference.  On `twoModConnState` (active module
`Home`, connected pair in `modA`), removing node `1` deletes the record
but node `2`'s input port still holds one reference naming `1`. -/
theorem C5_counterexample :
    (removeNodeId twoModConnState "1").map (fun out =>
      ((aget out.1.drawflow.drawflow "modA").map (fun md => aget md.data "1"),
        inCount out.1.drawflow "modA" "2" 1 "1" 1)) =
      some (some none, 1) := by rfl

/-- C5 (amended): for a node of the *active* module of a well-formed
store, `removeNodeId` deletes the node record, removes every connection
reference naming the node — on either side of any port of the active
module — and dispatches `nodeRemoved` last.  For nodes of non-active
modules the cascade is skipped (the counterexample). -/
theorem C5_remove_node_cascade (s : EditorState) (md : ModuleData)
    (nid : String) (hwf : WF s.drawflow)
    (hmd : aget s.drawflow.drawflow s.module = some md)
    (hnid : nid ∈ md.data.map Prod.fst) :
    ∃ s₂ evs, removeNodeId s nid =
        some (s₂, evs ++ [DFEvent.nodeRemoved nid]) ∧
      (∀ md₂, aget s₂.drawflow.drawflow s.module = some md₂ →
        aget md₂.data nid = none) ∧
      (∀ b p q, inCount s₂.drawflow s.module b q nid p = 0) ∧
      (∀ a p q, outCount s₂.drawflow s.module a p nid q = 0) := by
  obtain ⟨s₂, evs, h₁, _, _, _, h₂, h₃, h₄⟩ := removeNodeId_spec hwf hmd hnid
  exact ⟨s₂, evs, h₁, h₂, h₃, h₄⟩

/-- Witness for C5 at a concrete input: the connected active-module
pair of `connState`. -/
theorem C5_remove_node_cascade_witness :
    ∃ s₂ evs, removeNodeId connState "1" =
        some (s₂, evs ++ [DFEvent.nodeRemoved "1"]) ∧
      (∀ md₂, aget s₂.drawflow.drawflow connState.module = some md₂ →
        aget md₂.data "1" = none) ∧
      (∀ b p q, inCount s₂.drawflow connState.module b q "1" p = 0) ∧
      (∀ a p q, outCount s₂.drawflow connState.module a p "1" q = 0) :=
  C5_remove_node_cascade connState ⟨[
    ("1", ⟨"1", "a", JVal.jnull, "", "", false, [(1, ⟨[]⟩)],
      [(1, ⟨[⟨"2", 1, none⟩]⟩)], 0, 0⟩),
    ("2", ⟨"2", "b", JVal.jnull, "", "", false,
      [(1, ⟨[⟨"1", 1, none⟩]⟩)], [(1, ⟨[]⟩)], 0, 0⟩)]⟩ "1"
    ⟨by unfold shapeWF; decide, by unfold InPointsNone; decide,
      (mirrorCheck_iff _).mp (by decide), outNoDup_of_check (by decide)⟩
    rfl (by decide)

/-- C9: snapshot isolation of `getNodeFromId` (drawflow.js:2021-2027).
The returned record is `JSON.parse(JSON.stringify(node))`, modelled by
`jsonClone` on the heap of JS objects: for a well-formed heap and a node
record `x` whose serialisation is the JSON tree `v`, the clone succeeds,
denotes the same tree `v`, and references only freshly allocated cells;
mutating any field of any fresh cell (`setField`, i.e. *any* subsequent
mutation of the returned object) leaves every original cell — in
particular the store's node record — byte-for-byte unchanged, and the
store-side record still denotes `v`. -/
theorem C9_getNode_snapshot (fuel : Nat) (h : Heap) (x : HVal) (v : JVal)
    (hheap : heapClosed h = true) (hx : closedB h.next x = true)
    (hrb : readback fuel h x = some v) :
    ∃ h₁ x₁, jsonClone fuel h x = some (h₁, x₁) ∧
      readback fuel h₁ x₁ = some v ∧
      refsAbove h.next x₁ = true ∧
      ∀ b k w, h.next ≤ b →
        readback fuel (setField h₁ b k w) x = some v ∧
        ∀ c, c < h.next → aget (setField h₁ b k w).mem c = aget h.mem c := by
  have hH := heapClosed_spec.mp hheap
  have htot := jsonClone_total fuel h x hH hx (by rw [hrb]; rfl)
  obtain ⟨⟨h₁, x₁⟩, hcl⟩ := Option.isSome_iff_exists.mp htot
  have hregion : ∀ b cell, b < h.next → aget h.mem b = some cell →
      closedB h.next cell = true :=
    fun b cell hb hc => (hH (b, cell) (aget_mem hc)).2
  refine ⟨h₁, x₁, hcl, ?_, ?_, ?_⟩
  · rw [jsonClone_readback fuel h x h₁ x₁ hH hx hcl]
    exact hrb
  · exact (jsonClone_closed fuel h x h₁ x₁ hH hx hcl).2.2
  · intro b k w hb
    have hag : ∀ c, c < h.next →
        aget (setField h₁ b k w).mem c = aget h.mem c := by
      intro c hc
      rw [setField_agree hb k w c hc]
      exact (jsonClone_mono fuel h x h₁ x₁ hcl).2 c hc
    refine ⟨?_, hag⟩
    rw [readback_agree fuel h (setField h₁ b k w) x hag hregion hx]
    exact hrb

/-- Witness for C9 at a concrete input: a node record with a nested
payload object. -/
theorem C9_getNode_snapshot_witness :
    ∃ h₁ x₁, jsonClone 5 snapHeap snapVal = some (h₁, x₁) ∧
      readback 5 h₁ x₁ = some snapJson ∧
      refsAbove snapHeap.next x₁ = true ∧
      ∀ b k w, snapHeap.next ≤ b →
        readback 5 (setField h₁ b k w) snapVal = some snapJson ∧
        ∀ c, c < snapHeap.next →
          aget (setField h₁ b k w).mem c = aget snapHeap.mem c :=
  C9_getNode_snapshot 5 snapHeap snapVal snapJson (by decide) (by decide)
    (by decide)

/-- C6 (counterexample): the claim states that `removeNodeId` on an id not
present in any module returns normally and never crashes.  On a fresh
editor, `removeNodeId "99"` reaches
`delete this.drawflow.drawflow[undefined].data[...]` (drawflow.js:2908)
and throws a TypeError, modelled by `none`. -/
theorem C6_counterexample : removeNodeId initialState "99" = none := by rfl

/-- C6 (amended): for every well-formed store and every id not present in
any module, `removeNodeId` removes nothing and *throws*: the element
queries find no connection elements, the module lookup yields `undefined`,
and the store deletion dereferences a missing module
(drawflow.js:2900-2908).  It is not a silent no-op returning normally. -/
theorem C6_remove_unknown_id_throws (s : EditorState) (id : String)
    (hwf : WF s.drawflow)
    (hid : ∀ mp ∈ s.drawflow.drawflow, id ∉ mp.2.data.map Prod.fst) :
    removeNodeId s id = none := by
  unfold removeNodeId
  rw [removeConnectionNodeId_unknown hwf hid]
  dsimp only
  rw [getModule_eq_none hid]

/-- Witness for C6 at a concrete input. -/
theorem C6_remove_unknown_id_throws_witness :
    WF initialState.drawflow ∧
    (∀ mp ∈ initialState.drawflow.drawflow, "99" ∉ mp.2.data.map Prod.fst) ∧
    removeNodeId initialState "99" = none :=
  ⟨WF_initialState, by decide,
    C6_remove_unknown_id_throws initialState "99" WF_initialState (by decide)⟩

/-- C7: `import(export())` reproduces an identical logical graph: the
store after the round trip is equal — the same module set, and per module
the same node ids, names, data payloads, port maps, connection lists and
reroute waypoints — and the active module is unchanged.  `export` returns
a JSON deep clone of the store (drawflow.js:3257) and `import` clears and
installs a JSON deep clone of its argument (drawflow.js:3282-3296); on
tree-shaped store data both clones are the identity. -/
theorem C7_import_export_roundtrip (s : EditorState) :
    (importData s (exportData s).1 true).1.drawflow = s.drawflow ∧
    (importData s (exportData s).1 true).1.module = s.module := by
  unfold importData exportData clearEditor
  dsimp only
  rw [deepCloneData_id, deepCloneData_id]
  exact ⟨rfl, rfl⟩

/-- C8 (divergence): the zoom level is an IEEE-754 double and the code
has only pre-guards, never clamping (drawflow.js:1282, 1304).  Under
binary64 arithmetic, from the constructor defaults seven `zoom_in` calls
end at the double `1.6000000000000005` (`7205759403792796 * 2^-52`) —
strictly above `zoom_max` and not the double `1.6` — because the sixth
call steps from `1.5000000000000004` past the bound and the seventh
call's guard then fails; and six `zoom_out` calls end at the double
`0.40000000000000013` (`7205759403792796 * 2^-54`), a full step below
`zoom_min = 0.5`, because after five calls the zoom is
`0.5000000000000001`, which still passes the `zoom > zoom_min` guard. -/
theorem C8_zoom_drift :
    ((zoomIter zoom_in64 7 zoomDefaults).zoom =
        (⟨7205759403792796, -52⟩ : F64) ∧
      (zoomIter zoom_in64 7 zoomDefaults).zoom ≠ zoomDefaults.zoom_max ∧
      flt zoomDefaults.zoom_max (zoomIter zoom_in64 7 zoomDefaults).zoom =
        true) ∧
    ((zoomIter zoom_out64 6 zoomDefaults).zoom =
        (⟨7205759403792796, -54⟩ : F64) ∧
      flt (zoomIter zoom_out64 6 zoomDefaults).zoom zoomDefaults.zoom_min =
        true) := by
  decide

/-- C10 (counterexample): the claim states that after `removeModule(name)`
the active module name always refers to a module that still exists, even
when the removed active module is the default module itself.  Removing the
active `Home` module on a fresh editor succeeds (`changeModule('Home')`
runs *before* the deletion, drawflow.js:3212-3216), after which the active
module name is `Home` but no module of that name exists. -/
theorem C10_counterexample :
    ((removeModule initialState "Home").map
      (fun out => (out.1.module, aget out.1.drawflow.drawflow out.1.module))) =
      some ("Home", none) := by rfl

/-- C10 (amended): `removeModule(name)` deletes `name` from the store;
when `name` was the active module the editor switches to the default
`Home` module first.  The active module therefore still exists after the
call *provided the removed module is not `Home` itself* (and `Home` is
present when it is the fallback target); removing the active default
module leaves the active-module name dangling, as the counterexample
shows. -/
theorem C10_removeModule_fallback (s : EditorState) (name : String)
    (hnd : (s.drawflow.drawflow.map Prod.fst).Nodup)
    (hname : (aget s.drawflow.drawflow name).isSome)
    (hactive : (aget s.drawflow.drawflow s.module).isSome)
    (hnotHome : name ≠ "Home")
    (hHome : s.module = name → (aget s.drawflow.drawflow "Home").isSome) :
    ∃ out, removeModule s name = some out ∧
      aget out.1.drawflow.drawflow name = none ∧
      (aget out.1.drawflow.drawflow out.1.module).isSome := by
  obtain ⟨md₀, hmd₀⟩ := Option.isSome_iff_exists.mp hname
  unfold removeModule
  rw [hmd₀]
  dsimp only
  by_cases hact : s.module = name
  · rw [if_pos hact]
    obtain ⟨mdH, hmdH⟩ := Option.isSome_iff_exists.mp (hHome hact)
    unfold changeModule importData clearEditor
    rw [hmdH]
    dsimp only
    rw [deepCloneData_id]
    refine ⟨_, rfl, ?_, ?_⟩
    · exact aget_adel_self hnd
    · dsimp only
      rw [aget_adel_ne _ hnotHome.symm, hmdH]
      rfl
  · rw [if_neg hact]
    dsimp only
    refine ⟨_, rfl, ?_, ?_⟩
    · exact aget_adel_self hnd
    · dsimp only
      rw [aget_adel_ne _ (fun hc => hact hc)]
      exact hactive

/-- Witness for C10 at a concrete input: a fresh editor with an extra
module `Other`, removing the non-active `Other`. -/
theorem C10_removeModule_fallback_witness :
    ∃ out, removeModule twoModState "Other" = some out ∧
      aget out.1.drawflow.drawflow "Other" = none ∧
      (aget out.1.drawflow.drawflow out.1.module).isSome :=
  C10_removeModule_fallback twoModState "Other" (by decide) (by rfl) (by rfl)
    (by decide) (fun h => absurd h (by decide))

/-- C4: on a well-formed store, `removeNodeInput(id, input_2)` applied to
a node whose input labels are `{1, 2, 3}` leaves exactly the dense label
set `{1, 2}`; the connection list formerly stored under `input_3` is now
stored under `input_2` (and `input_1` is untouched); on the output side
of the surviving connections every reference to `(id, 3)` is rewritten to
`(id, 2)` in the same operation, and no reference to `(id, 3)` remains in
the module.  Symmetrically, `removeNodeOutput(id, output_2)` on a node
with output labels `{1, 2, 3}` renumbers `output_3` to `output_2` and
rewrites the input-side `peer` references accordingly. -/
theorem C4_port_renumbering_dense :
    (∀ (s : EditorState) (m : String) (md : ModuleData) (nd : DFNode)
        (id : String),
      WF s.drawflow →
      getModuleFromNodeId s id = some m →
      aget s.drawflow.drawflow m = some md →
      aget md.data id = some nd →
      nd.inputs.map Prod.fst = [1, 2, 3] →
      ∃ s₃ evs, removeNodeInput s id 2 = some (s₃, evs) ∧
        (∀ md₃ nd₃, aget s₃.drawflow.drawflow m = some md₃ →
          aget md₃.data id = some nd₃ →
          nd₃.inputs.map Prod.fst = [1, 2]) ∧
        inConns s₃.drawflow m id 1 = inConns s.drawflow m id 1 ∧
        inConns s₃.drawflow m id 2 = inConns s.drawflow m id 3 ∧
        (∀ a p, outCount s₃.drawflow m a p id 2 =
          outCount s.drawflow m a p id 3) ∧
        (∀ a p, outCount s₃.drawflow m a p id 3 = 0)) ∧
    (∀ (s : EditorState) (m : String) (md : ModuleData) (nd : DFNode)
        (id : String),
      WF s.drawflow →
      getModuleFromNodeId s id = some m →
      aget s.drawflow.drawflow m = some md →
      aget md.data id = some nd →
      nd.outputs.map Prod.fst = [1, 2, 3] →
      ∃ s₃ evs, removeNodeOutput s id 2 = some (s₃, evs) ∧
        (∀ md₃ nd₃, aget s₃.drawflow.drawflow m = some md₃ →
          aget md₃.data id = some nd₃ →
          nd₃.outputs.map Prod.fst = [1, 2]) ∧
        outConns s₃.drawflow m id 1 = outConns s.drawflow m id 1 ∧
        outConns s₃.drawflow m id 2 = outConns s.drawflow m id 3 ∧
        (∀ b q, inCount s₃.drawflow m b q id 2 =
          inCount s.drawflow m b q id 3) ∧
        (∀ b q, inCount s₃.drawflow m b q id 3 = 0)) := by
  constructor
  · intro s m md nd id hwf hm hmd hnd hkeys
    obtain ⟨s₃, evs, hrun, hmod, hframe, hwf₃, hdense, hinmap, hinoth,
      houtmap, houtoth⟩ :=
      @removeNodeInput_spec s m md nd id 2 3 hwf hm hmd hnd
        (show nd.inputs.map Prod.fst = List.range' 1 3 from hkeys)
        (by omega) (by omega)
    refine ⟨s₃, evs, hrun, ?_, ?_, ?_, ?_, ?_⟩
    · intro md₃ nd₃ h₁ h₂
      exact hdense md₃ nd₃ h₁ h₂
    · have h := hinmap 1
      rw [if_pos (by omega)] at h
      exact h
    · have h := hinmap 2
      rw [if_neg (by omega), if_pos (by omega)] at h
      exact h
    · intro a p
      have h := houtmap a p 2
      rw [if_neg (by omega), if_pos (by omega)] at h
      exact h
    · intro a p
      have h := houtmap a p 3
      rw [if_neg (by omega), if_neg (by omega)] at h
      exact h
  · intro s m md nd id hwf hm hmd hnd hkeys
    obtain ⟨s₃, evs, hrun, hmod, hframe, hwf₃, hdense, houtmap, houtoth,
      hinmap, hinoth⟩ :=
      @removeNodeOutput_spec s m md nd id 2 3 hwf hm hmd hnd
        (show nd.outputs.map Prod.fst = List.range' 1 3 from hkeys)
        (by omega) (by omega)
    refine ⟨s₃, evs, hrun, ?_, ?_, ?_, ?_, ?_⟩
    · intro md₃ nd₃ h₁ h₂
      exact hdense md₃ nd₃ h₁ h₂
    · have h := houtmap 1
      rw [if_pos (by omega)] at h
      exact h
    · have h := houtmap 2
      rw [if_neg (by omega), if_pos (by omega)] at h
      exact h
    · intro b q
      have h := hinmap b q 2
      rw [if_neg (by omega), if_pos (by omega)] at h
      exact h
    · intro b q
      have h := hinmap b q 3
      rw [if_neg (by omega), if_neg (by omega)] at h
      exact h

/-- Witness for C4 at a concrete input: the fully wired three-port pair
of `c4State`, removing `input_2` of node `1` and `output_2` of node
`2`. -/
theorem C4_port_renumbering_dense_witness :
    (∃ s₃ evs, removeNodeInput c4State "1" 2 = some (s₃, evs) ∧
      (∀ md₃ nd₃, aget s₃.drawflow.drawflow "Home" = some md₃ →
        aget md₃.data "1" = some nd₃ →
        nd₃.inputs.map Prod.fst = [1, 2]) ∧
      inConns s₃.drawflow "Home" "1" 1 = inConns c4State.drawflow "Home" "1" 1 ∧
      inConns s₃.drawflow "Home" "1" 2 = inConns c4State.drawflow "Home" "1" 3 ∧
      (∀ a p, outCount s₃.drawflow "Home" a p "1" 2 =
        outCount c4State.drawflow "Home" a p "1" 3) ∧
      (∀ a p, outCount s₃.drawflow "Home" a p "1" 3 = 0)) ∧
    (∃ s₃ evs, removeNodeOutput c4State "2" 2 = some (s₃, evs) ∧
      (∀ md₃ nd₃, aget s₃.drawflow.drawflow "Home" = some md₃ →
        aget md₃.data "2" = some nd₃ →
        nd₃.outputs.map Prod.fst = [1, 2]) ∧
      outConns s₃.drawflow "Home" "2" 1 = outConns c4State.drawflow "Home" "2" 1 ∧
      outConns s₃.drawflow "Home" "2" 2 = outConns c4State.drawflow "Home" "2" 3 ∧
      (∀ b q, inCount s₃.drawflow "Home" b q "2" 2 =
        inCount c4State.drawflow "Home" b q "2" 3) ∧
      (∀ b q, inCount s₃.drawflow "Home" b q "2" 3 = 0)) :=
  ⟨C4_port_renumbering_dense.1 c4State "Home" _ _ "1"
    ⟨by unfold shapeWF; decide, by unfold InPointsNone; decide,
      (mirrorCheck_iff _).mp (by decide), outNoDup_of_check (by decide)⟩
    rfl rfl rfl rfl,
   C4_port_renumbering_dense.2 c4State "Home" _ _ "2"
    ⟨by unfold shapeWF; decide, by unfold InPointsNone; decide,
      (mirrorCheck_iff _).mp (by decide), outNoDup_of_check (by decide)⟩
    rfl rfl rfl rfl⟩

/-- C1 (counterexample): the claim states the mirror holds after *any*
sequence of the listed mutations.  A single `removeNodeId` on a node of
a non-active module (here `twoModConnState`, reachable through the
public API) deletes the record but skips the DOM-driven connection
cascade: afterwards node `2`'s input port 1 still holds one reference to
`(1, 1)` while output port 1 of `1` no longer exists — the mirror count
equation fails at that quintuple. -/
theorem C1_counterexample :
    (removeNodeId twoModConnState "1").map (fun out =>
      (outCount out.1.drawflow "modA" "1" 1 "2" 1,
       inCount out.1.drawflow "modA" "2" 1 "1" 1)) = some (0, 1) := by
  rfl

/-- C1 (amended): from a well-formed store, the mirror — output port `p`
of `a` holds exactly as many references to `(b, q)` as input port `q` of
`b` holds to `(a, p)`, so one is present iff the other is — is preserved
by every sequence of the seven public mutations that runs without a
`TypeError`, provided each `removeNodeId` targets a node of the active
module and each `removeConnection` removes an existing rendered
connection of the active module (the conditions of `opOK`; the
counterexample shows `removeNodeId` genuinely needs its condition). -/
theorem C1_mirror_preserved (s s₂ : EditorState) (ops : List GraphOp)
    (hwf : WF s.drawflow) (hsteps : Steps s ops s₂) :
    MirrorInv s₂.drawflow ∧
    (∀ m a p b q, 0 < outCount s₂.drawflow m a p b q ↔
      0 < inCount s₂.drawflow m b q a p) := by
  have hwf₂ : WF s₂.drawflow := by
    induction hsteps with
    | nil s => exact hwf
    | cons happ hok hrest ih => exact ih (applyOp_WF hwf hok happ)
  refine ⟨hwf₂.mirror, ?_⟩
  intro m a p b q
  rw [hwf₂.mirror m a p b q]

/-- Witness for C1 at a concrete input: connect `1 → 2` on the fresh
two-node editor, then disconnect it again with `removeSingleConnection`;
the mirror count equation holds in the final state. -/
theorem C1_mirror_preserved_witness :
    ∃ s₂, Steps twoNodeState
        [GraphOp.conn "1" "2" 1 1, GraphOp.singleConn "1" "2" 1 1] s₂ ∧
      MirrorInv s₂.drawflow := by
  have hsteps : Steps twoNodeState
      [GraphOp.conn "1" "2" 1 1, GraphOp.singleConn "1" "2" 1 1]
      { connState with drawflow := ⟨[("Home", ⟨[
        ("1", ⟨"1", "a", JVal.jnull, "", "", false, [(1, ⟨[]⟩)],
          [(1, ⟨[]⟩)], 0, 0⟩),
        ("2", ⟨"2", "b", JVal.jnull, "", "", false, [(1, ⟨[]⟩)],
          [(1, ⟨[]⟩)], 0, 0⟩)]⟩)]⟩ } :=
    Steps.cons rfl trivial (Steps.cons rfl trivial (Steps.nil _))
  exact ⟨_, hsteps,
    (C1_mirror_preserved twoNodeState _ _
      ⟨by unfold shapeWF; decide, by unfold InPointsNone; decide,
        (mirrorCheck_iff _).mp (by decide), outNoDup_of_check (by decide)⟩
      hsteps).1⟩

end Drawflow
